import Mathlib

/-! # KahnGraph: incremental cycle detection with Kahn's algorithm

A verification development for `pkg/utils/graph.go`.

Go maps are embedded as association lists (`GoMap`), well formed when their keys
are pairwise distinct; the order of the list stands for the (unspecified)
iteration order of the Go map, and statements about "every iteration order"
quantify over the permutations of the list.  Go's `int` is embedded as `Int`:
an in-degree is bounded by the number of inserted edges, so the 64-bit range is
never left.  The `for len(queue) > 0` loop is embedded with fuel and returns
`none` when the fuel runs out, so that every statement about a returned boolean
also states that the loop finished.  A method call is embedded as a function
from the receiver to the receiver after the call and the returned value.

The graph states (`KahnGraph`) are what the Go values stand for (`view`).  The Go
values themselves (`GoGraph`: nil maps, adjacency slices with their backing
arrays, 64-bit `int`) carry the statements about values that no insertion leaves
behind, and the map objects (`IntMaps`) carry the statement that the check
writes to its own copy only.
-/

namespace KahnGraph

/-! ## Go maps -/

/-- A Go `map[string]V`: an association list; well formed when the keys are distinct. -/
abbrev GoMap (V : Type) := List (String × V)

namespace GoMap

variable {V : Type}

/-- The keys of the map, in iteration order. -/
def keys (m : GoMap V) : List String := m.map Prod.fst

/-- The two-valued read `v, ok := m[k]`. -/
def get? : GoMap V → String → Option V
  | [], _ => none
  | (k', v) :: t, k => if k' = k then some v else get? t k

/-- The one-valued read `m[k]`, which yields the zero value `z` for an absent key. -/
def getD (m : GoMap V) (k : String) (z : V) : V := (get? m k).getD z

/-- The test `_, exists := m[k]`. -/
def contains (m : GoMap V) (k : String) : Bool := (get? m k).isSome

/-- The write `m[k] = v`: overwrites the entry of `k`, or adds one. -/
def set : GoMap V → String → V → GoMap V
  | [], k, v => [(k, v)]
  | (k', v') :: t, k, v => if k' = k then (k', v) :: t else (k', v') :: set t k v

/-- The builtin `len(m)`. -/
def len (m : GoMap V) : Nat := m.length

/-- A map has no two entries with the same key. -/
def WF (m : GoMap V) : Prop := (keys m).Nodup

end GoMap

/-! ## The graph -/

end KahnGraph

/-- The struct `KahnGraph`: adjacency lists and in-degree table. -/
structure KahnGraph where
  /-- Adjacency: source node to the slice of its targets. -/
  edges : KahnGraph.GoMap (List String)
  /-- In-degree count of every node. -/
  indegree : KahnGraph.GoMap Int
  deriving DecidableEq

namespace KahnGraph

/-- The constructor `NewKahnGraph`: both maps empty. -/
def NewKahnGraph : KahnGraph := { edges := [], indegree := [] }

/-- The state change of `AddEdgeAndCheckCycle(a, b)` (the three statements before `return`)
on the graph state.  It is what the statements do to a Go value as the constructor and the
insertions leave it (`goAddEdge_simulates`); `goAddEdge` gives them on every Go value,
with nil maps, shared backing arrays and the range of `int`. -/
def addEdge (g : KahnGraph) (a b : String) : KahnGraph :=
  let edges := g.edges.set a (g.edges.getD a [] ++ [b])
  let indegree := g.indegree.set b (g.indegree.getD b 0 + 1)
  let indegree := if indegree.contains a then indegree else indegree.set a 0
  { edges := edges, indegree := indegree }

/-- One pass of the inner loop body: `indegreeCopy[neighbor]--` and the enqueue test. -/
def relax (s : GoMap Int × List String) (neighbor : String) : GoMap Int × List String :=
  let indegreeCopy := s.1.set neighbor (s.1.getD neighbor 0 - 1)
  if indegreeCopy.getD neighbor 0 = 0 then (indegreeCopy, s.2 ++ [neighbor])
  else (indegreeCopy, s.2)

/-- The inner loop `for _, neighbor := range g.edges[node]`. -/
def relaxAll (indegreeCopy : GoMap Int) (queue : List String) (neighbors : List String) :
    GoMap Int × List String :=
  neighbors.foldl relax (indegreeCopy, queue)

/-- The loop `for len(queue) > 0` with a queue discipline `disc`, which rearranges the
queue before its head is taken; the source takes `queue[0]`, so there `disc` is `id`.
Returns the final `processed` and `indegreeCopy`, or `none` when the fuel runs out. -/
def kahnLoopWith (disc : List String → List String) (edges : GoMap (List String)) :
    Nat → GoMap Int → List String → Nat → Option (Nat × GoMap Int)
  | 0, indegreeCopy, queue, processed =>
    match disc queue with
    | [] => some (processed, indegreeCopy)
    | _ :: _ => none
  | fuel + 1, indegreeCopy, queue, processed =>
    match disc queue with
    | [] => some (processed, indegreeCopy)
    | node :: rest =>
      let s := relaxAll indegreeCopy rest (edges.getD node [])
      kahnLoopWith disc edges fuel s.1 s.2 (processed + 1)

/-- The loop `for len(queue) > 0` of the source: dequeue `queue[0]`, count it, relax its
neighbours. -/
def kahnLoop (edges : GoMap (List String)) :
    Nat → GoMap Int → List String → Nat → Option (Nat × GoMap Int)
  | _, indegreeCopy, [], processed => some (processed, indegreeCopy)
  | 0, _, _ :: _, _ => none
  | fuel + 1, indegreeCopy, node :: rest, processed =>
    let s := relaxAll indegreeCopy rest (edges.getD node [])
    kahnLoop edges fuel s.1 s.2 (processed + 1)

/-- The clone loop `for node, degree := range g.indegree { indegreeCopy[node] = degree }`. -/
def cloneIndegree (indegree : GoMap Int) : GoMap Int :=
  indegree.foldl (fun m e => m.set e.1 e.2) []

/-- The seeding loop: the nodes whose cloned in-degree is 0, in iteration order. -/
def seedQueue (indegreeCopy : GoMap Int) : List String :=
  indegreeCopy.foldl (fun queue e => if e.2 = 0 then queue ++ [e.1] else queue) []

/-- The method `hasCycle` with the loop fuel explicit. -/
def hasCycleFuel (fuel : Nat) (g : KahnGraph) : Option Bool :=
  let indegreeCopy := cloneIndegree g.indegree
  let queue := seedQueue indegreeCopy
  match kahnLoop g.edges fuel indegreeCopy queue 0 with
  | some (processed, indegreeCopy) => some (processed != indegreeCopy.len)
  | none => none

/-- The method `hasCycle`: the loop dequeues each key of the clone at most once, so
`len(g.indegree)` iterations are enough fuel (`hasCycle_total`). -/
def hasCycle (g : KahnGraph) : Option Bool := hasCycleFuel g.indegree.len g

/-- The method `hasCycle` under an arbitrary queue discipline. -/
def hasCycleWith (disc : List String → List String) (g : KahnGraph) : Option Bool :=
  let indegreeCopy := cloneIndegree g.indegree
  let queue := seedQueue indegreeCopy
  match kahnLoopWith disc g.edges g.indegree.len indegreeCopy queue 0 with
  | some (processed, indegreeCopy) => some (processed != indegreeCopy.len)
  | none => none

/-- A call of `hasCycle` on the receiver `g`: the receiver after the call and the returned
boolean.  The body of `hasCycle` assigns to no field of the receiver and writes to the map
it made only (`hasCycleAt_spec`, on the map objects). -/
def hasCycleCall (g : KahnGraph) : KahnGraph × Option Bool := (g, hasCycle g)

/-- The method `AddEdgeAndCheckCycle(a, b)`: the state after the call and the returned boolean. -/
def AddEdgeAndCheckCycle (g : KahnGraph) (a b : String) : KahnGraph × Option Bool :=
  hasCycleCall (addEdge g a b)

/-- Successive calls of `AddEdgeAndCheckCycle`: the final state and the returned booleans,
in call order. -/
def insertAll : KahnGraph → List (String × String) → KahnGraph × List (Option Bool)
  | g, [] => (g, [])
  | g, (a, b) :: t =>
    let r := AddEdgeAndCheckCycle g a b
    let r' := insertAll r.1 t
    (r'.1, r.2 :: r'.2)

/-- The edges `n0 → n1`, `n1 → n2`, ... of the path through the listed nodes. -/
def pathEdges : List String → List (String × String)
  | a :: b :: t => (a, b) :: pathEdges (b :: t)
  | _ => []

/-- The state after the single insertion `x → x` into the empty graph. -/
def selfLoopGraph : KahnGraph := (AddEdgeAndCheckCycle NewKahnGraph "x" "x").1

/-- The test case 多头多深度有环 of `TestGraphHasCycle`. -/
def testReversedDiamond : KahnGraph :=
  { edges := [("a", ["b", "c", "d"]), ("c", ["d"]), ("d", ["c"])],
    indegree := [("a", 0), ("b", 1), ("c", 2), ("d", 2)] }

/-- The test case 多头多深度无环 of `TestGraphHasCycle`. -/
def testDiamond : KahnGraph :=
  { edges := [("a", ["b", "c", "d"]), ("c", ["d"]), ("d", ["b"])],
    indegree := [("a", 0), ("b", 2), ("c", 1), ("d", 2)] }

/-- The four insertions of the diamond `a → b`, `a → c`, `c → d`, `d → b`. -/
def diamondEdges (a b c d : String) : List (String × String) :=
  [(a, b), (a, c), (c, d), (d, b)]

/-- The state after the insertions `a → b`, `b → b`, `b → c` into the empty graph. -/
def upstreamGraph : KahnGraph :=
  (insertAll NewKahnGraph [("a", "b"), ("b", "b"), ("b", "c")]).1

/-! ## The loop with a record of what it did -/

/-- What a run of the loop `for len(queue) > 0` did, besides its result. -/
structure RunLog where
  /-- The nodes taken from the queue, in order; `processed` counts them. -/
  dequeued : List String
  /-- The nodes appended to the queue by the inner loop, in order. -/
  enqueued : List String
  /-- The number of executions of `indegreeCopy[neighbor]--`. -/
  decrements : Nat
  /-- The value of `indegreeCopy` after each decrement, in order. -/
  snapshots : List (GoMap Int)
  /-- The value of `indegreeCopy` when the loop is left. -/
  final : GoMap Int

/-- The value of `indegreeCopy` after each pass of the inner loop over `neighbors`. -/
def relaxSnapshots (indegreeCopy : GoMap Int) (queue : List String) :
    List String → List (GoMap Int)
  | [] => []
  | neighbor :: t =>
    (relax (indegreeCopy, queue) neighbor).1 ::
      relaxSnapshots (relax (indegreeCopy, queue) neighbor).1
        (relax (indegreeCopy, queue) neighbor).2 t

/-- The loop `kahnLoop`, returning the record of the run instead of the counter. -/
def kahnLoopLog (edges : GoMap (List String)) :
    Nat → GoMap Int → List String → Option RunLog
  | _, indegreeCopy, [] =>
    some { dequeued := [], enqueued := [], decrements := 0, snapshots := [],
           final := indegreeCopy }
  | 0, _, _ :: _ => none
  | fuel + 1, indegreeCopy, node :: rest =>
    let s := relaxAll indegreeCopy rest (edges.getD node [])
    match kahnLoopLog edges fuel s.1 s.2 with
    | some r =>
      some { dequeued := node :: r.dequeued,
             enqueued := s.2.drop rest.length ++ r.enqueued,
             decrements := (edges.getD node []).length + r.decrements,
             snapshots := relaxSnapshots indegreeCopy rest (edges.getD node []) ++ r.snapshots,
             final := r.final }
    | none => none

/-- The record of the run of the loop inside `hasCycle`. -/
def hasCycleLog (g : KahnGraph) : Option RunLog :=
  kahnLoopLog g.edges g.indegree.len (cloneIndegree g.indegree)
    (seedQueue (cloneIndegree g.indegree))

/-! ## Specification vocabulary -/

/-- The graph has an edge from `u` to `v`: `v` occurs in `edges[u]`. -/
def Edge (g : KahnGraph) (u v : String) : Prop := v ∈ g.edges.getD u []

/-- A relation has a directed cycle: a non-empty closed path. -/
def HasCycleRel (R : String → String → Prop) : Prop := ∃ n, Relation.TransGen R n n

/-- The edges of the graph contain a directed cycle. -/
def HasCycle (g : KahnGraph) : Prop := HasCycleRel (Edge g)

/-- The edges of `g` together with one more edge `a → b`. -/
def EdgePlus (g : KahnGraph) (a b : String) (u v : String) : Prop :=
  Edge g u v ∨ (u = a ∧ v = b)

/-- Total number of occurrences of `n` across all `edges` value sequences. -/
def occurrences (g : KahnGraph) (n : String) : Nat :=
  (g.edges.map (fun e => e.2.count n)).sum

/-- Both tables are maps: no key occurs twice. -/
def WF (g : KahnGraph) : Prop := g.edges.WF ∧ g.indegree.WF

/-- The state invariant: every node of `edges` has an in-degree entry, and every in-degree
entry counts the occurrences of its node among the targets. -/
def Inv (g : KahnGraph) : Prop :=
  (∀ n, (n ∈ g.edges.keys ∨ ∃ e ∈ g.edges, n ∈ e.2) → n ∈ g.indegree.keys) ∧
  (∀ n ∈ g.indegree.keys, g.indegree.getD n 0 = (occurrences g n : Int))

/-- The states built from the empty graph by finitely many insertions. -/
inductive Reachable : KahnGraph → Prop
  | empty : Reachable NewKahnGraph
  | step {g : KahnGraph} (a b : String) : Reachable g → Reachable (AddEdgeAndCheckCycle g a b).1

/-- The total node count: the number of keys of the in-degree table. -/
def nodeCount (g : KahnGraph) : Nat := g.indegree.len

/-- The total edge count: the sum of the lengths of all `edges` value sequences. -/
def edgeCount (g : KahnGraph) : Nat := (g.edges.map (fun e => e.2.length)).sum

/-- The cycle check as the specification words its last step: a cycle exists if and only
if the processed count is strictly less than the total node count. -/
def hasCycleSpec (g : KahnGraph) : Option Bool :=
  match kahnLoop g.edges g.indegree.len (cloneIndegree g.indegree)
      (seedQueue (cloneIndegree g.indegree)) 0 with
  | some (processed, _) => some (decide (processed < nodeCount g))
  | none => none

/-- The node `n` lies on a directed cycle or has a directed path to a node of a cycle:
with an edge read as "source depends on target", `n` depends transitively on a cycle. -/
def DependsOnCycle (g : KahnGraph) (n : String) : Prop :=
  ∃ c, Relation.TransGen (Edge g) c c ∧ Relation.ReflTransGen (Edge g) n c

/-- The node `n` lies on a directed cycle or a node of a cycle has a directed path to it. -/
def DownstreamOfCycle (g : KahnGraph) (n : String) : Prop :=
  ∃ c, Relation.TransGen (Edge g) c c ∧ Relation.ReflTransGen (Edge g) c n

/-- The number of elements of the set `{a, b}` that are not keys of the in-degree table. -/
def newNodes (g : KahnGraph) (a b : String) : Nat :=
  (if g.indegree.contains b then 0 else 1) +
    (if g.indegree.contains a || decide (a = b) then 0 else 1)

/-- A queue discipline only rearranges the queue. -/
def IsDiscipline (disc : List String → List String) : Prop := ∀ q, (disc q).Perm q

/-- Number of edges into `n` that leave a node of `P`, with multiplicity. -/
def inflow (g : KahnGraph) (P : Finset String) (n : String) : Nat :=
  ∑ u in P, (g.edges.getD u []).count n

/-- Number of entries of the clone that are still above zero. -/
def positives (d : GoMap Int) : Nat := (d.filter (fun e => decide (0 < e.2))).length

/-- The loop invariant of Kahn's algorithm at the head of the outer loop, for the clone
`d`, the queue `q`, the counter `p` and the set `P` of the nodes dequeued so far. -/
structure LoopInv (g : KahnGraph) (d : GoMap Int) (q : List String) (p : Nat)
    (P : Finset String) : Prop where
  /-- The counter counts the dequeued nodes. -/
  card : P.card = p
  /-- Dequeued nodes are keys of the in-degree table. -/
  sub : ∀ n ∈ P, n ∈ g.indegree.keys
  /-- No node is queued twice. -/
  qnd : q.Nodup
  /-- Queued nodes are keys that were not dequeued yet. -/
  qU : ∀ n ∈ q, n ∈ g.indegree.keys ∧ n ∉ P
  /-- The clone has the keys of the in-degree table. -/
  keys : d.keys = g.indegree.keys
  /-- The clone counts the edges that come from nodes not dequeued yet. -/
  deg : ∀ n, d.getD n 0 = (occurrences g n : Int) - (inflow g P n : Int)
  /-- The nodes at in-degree zero are the queued and the dequeued ones. -/
  zero : ∀ n ∈ g.indegree.keys, d.getD n 0 = 0 ↔ (n ∈ q ∨ n ∈ P)
  /-- No dequeued node lies on a cycle. -/
  acyc : ∀ n ∈ P, ¬ Relation.TransGen (Edge g) n n

/-! ## The Go values behind a graph state -/

/-- A Go slice of strings: the address of its backing array and its length; its capacity is
the length of the backing array. -/
structure GoSlice where
  /-- Address of the backing array. -/
  arr : Nat
  /-- Number of elements of the slice. -/
  len : Nat
  deriving DecidableEq

/-- A value of the struct type `KahnGraph` as Go holds it: the backing arrays of the
adjacency slices, by address, and the two map fields, `none` for a nil map. -/
structure GoGraph where
  /-- The backing arrays, by address. -/
  arrays : List (List String)
  /-- The field `edges`. -/
  edges : Option (GoMap GoSlice)
  /-- The field `indegree`. -/
  indegree : Option (GoMap Int)
  deriving DecidableEq

/-- The zero value `KahnGraph{}`: both maps nil. -/
def goZeroValue : GoGraph := { arrays := [], edges := none, indegree := none }

/-- The value behind the pointer that `NewKahnGraph()` returns: both maps made, empty. -/
def goNewKahnGraph : GoGraph := { arrays := [], edges := some [], indegree := some [] }

/-- The elements of a slice. -/
def sliceElems (arrays : List (List String)) (s : GoSlice) : List String :=
  (arrays.getD s.arr []).take s.len

/-- The builtin `append(s, x)` for a slice read from the map, `none` being the nil slice of
an absent key: it writes into the backing array when the capacity allows it, and otherwise
copies the elements to a new array, which has room for `spare n` more elements when the
slice had `n`; how much room there is depends on the Go release. -/
def goAppend (spare : Nat → Nat) (arrays : List (List String)) (s : Option GoSlice)
    (x : String) : List (List String) × GoSlice :=
  match s with
  | none => (arrays ++ [x :: List.replicate (spare 0) ""], { arr := arrays.length, len := 1 })
  | some s =>
    if s.len < (arrays.getD s.arr []).length then
      (arrays.set s.arr ((arrays.getD s.arr []).set s.len x), { arr := s.arr, len := s.len + 1 })
    else
      (arrays ++ [(arrays.getD s.arr []).take s.len ++ x :: List.replicate (spare s.len) ""],
        { arr := arrays.length, len := s.len + 1 })

/-- The room that `append` leaves in a new array for short slices: the capacity doubles. -/
def goSpare (n : Nat) : Nat := n - 1

/-- The value of a Go `int` (64 bits) after an arithmetic operation with result `x`. -/
def wrapInt64 (x : Int) : Int := (x + 2 ^ 63) % 2 ^ 64 - 2 ^ 63

/-- The three statements of `AddEdgeAndCheckCycle(a, b)` before `return`, on the Go value;
`none` when the run-time panics on the assignment to an entry of a nil map. -/
def goAddEdge (spare : Nat → Nat) (g : GoGraph) (a b : String) : Option GoGraph :=
  match g.edges with
  | none => none
  | some edges =>
    let r := goAppend spare g.arrays (edges.get? a) b
    let edges := edges.set a r.2
    match g.indegree with
    | none => none
    | some indegree =>
      let indegree := indegree.set b (wrapInt64 (indegree.getD b 0 + 1))
      let indegree := if indegree.contains a then indegree else indegree.set a 0
      some { arrays := r.1, edges := some edges, indegree := some indegree }

/-- The graph state that a Go value stands for: every adjacency slice read out, a nil map
read as the empty map. -/
def view (g : GoGraph) : KahnGraph :=
  { edges := (g.edges.getD []).map (fun e => (e.1, sliceElems g.arrays e.2)),
    indegree := g.indegree.getD [] }

/-- The method `AddEdgeAndCheckCycle(a, b)` on the Go value: the value after the call and
the returned boolean, or `none` when the call panics. -/
def goAddEdgeAndCheckCycle (spare : Nat → Nat) (g : GoGraph) (a b : String) :
    Option (GoGraph × Option Bool) :=
  (goAddEdge spare g a b).map (fun g' => (g', hasCycle (view g')))

/-- The Go values built from the value of `NewKahnGraph()` by calls of
`AddEdgeAndCheckCycle`. -/
inductive GoReachable (spare : Nat → Nat) : GoGraph → Prop
  | new : GoReachable spare goNewKahnGraph
  | step {g g' : GoGraph} (a b : String) :
      GoReachable spare g → goAddEdge spare g a b = some g' → GoReachable spare g'

/-- The Go value after `AddEdgeAndCheckCycle("a", "b")` and `AddEdgeAndCheckCycle("b", "c")`
on the value of `NewKahnGraph()`. -/
def goPathGraph : GoGraph :=
  { arrays := [["b"], ["c"]],
    edges := some [("a", { arr := 0, len := 1 }), ("b", { arr := 1, len := 1 })],
    indegree := some [("b", 1), ("a", 0), ("c", 1)] }

/-- A Go value whose two adjacency slices share one backing array: `edges["a"]` is
`s[:1]` and `edges["b"]` is `s[:2]` for `s = []string{"x", "y"}`. -/
def goAliasedGraph : GoGraph :=
  { arrays := [["x", "y"]],
    edges := some [("a", { arr := 0, len := 1 }), ("b", { arr := 0, len := 2 })],
    indegree := some [("a", 0), ("b", 0), ("x", 2), ("y", 1)] }

/-- A Go value with the in-degree of `b` at the largest `int`. -/
def goSaturatedGraph : GoGraph :=
  { arrays := [],
    edges := some [],
    indegree := some [("b", 9223372036854775807)] }

/-- The state invariant as a check on the two tables. -/
def checkInv (g : KahnGraph) : Bool :=
  g.edges.keys.all (fun n => decide (n ∈ g.indegree.keys)) &&
  g.edges.all (fun e => e.2.all (fun n => decide (n ∈ g.indegree.keys))) &&
  g.indegree.keys.all (fun n => decide (g.indegree.getD n 0 = (occurrences g n : Int)))

/-- A state built from the empty graph by insertions, with its two tables in any
iteration order. -/
def ReachableAnyOrder (g : KahnGraph) : Prop :=
  ∃ g0, Reachable g0 ∧ g.edges.Perm g0.edges ∧ g.indegree.Perm g0.indegree

/-- A Go value as the constructor and the insertions leave it: both maps made, every
adjacency slice inside its backing array, and no two adjacency slices on one array. -/
def GoOwned (g : GoGraph) : Prop :=
  ∃ edges indegree, g.edges = some edges ∧ g.indegree = some indegree ∧
    (∀ e ∈ edges, e.2.arr < g.arrays.length ∧ e.2.len ≤ (g.arrays.getD e.2.arr []).length) ∧
    (edges.map (fun e => e.2.arr)).Nodup

/-- The nodes that the check dequeues, as a least fixed point: the keys at in-degree 0, and
the keys above 0 whose in-degree is covered by the edges that leave nodes found before. -/
inductive Processable (g : KahnGraph) : String → Prop
  | seed (n : String) : n ∈ g.indegree.keys → g.indegree.getD n 0 = 0 → Processable g n
  | fed (n : String) (S : Finset String) : n ∈ g.indegree.keys → 0 < g.indegree.getD n 0 →
      (∀ u ∈ S, Processable g u) → g.indegree.getD n 0 ≤ (inflow g S n : Int) →
      Processable g n

/-- The invariant of the loop on an arbitrary state, at the head of the outer loop, for
the clone `d`, the queue `q` and the set `P` of the nodes dequeued so far. -/
structure RunInv (g : KahnGraph) (d : GoMap Int) (q : List String) (P : Finset String) :
    Prop where
  /-- The clone is a map. -/
  wf : d.WF
  /-- The clone is the in-degree table minus the edges that leave dequeued nodes. -/
  deg : ∀ n, d.getD n 0 = g.indegree.getD n 0 - (inflow g P n : Int)
  /-- The keys of the clone are the keys of the table and the targets of dequeued nodes. -/
  keys : ∀ n, n ∈ d.keys ↔ n ∈ g.indegree.keys ∨ ∃ u ∈ P, n ∈ g.edges.getD u []
  /-- Queued and dequeued nodes belong to the fixed point. -/
  proc : ∀ n, n ∈ q ∨ n ∈ P → Processable g n
  /-- A key that started at 0 or above and is at 0 or below was queued. -/
  due : ∀ n ∈ g.indegree.keys, 0 ≤ g.indegree.getD n 0 → d.getD n 0 ≤ 0 → n ∈ q ∨ n ∈ P
  /-- Queued and dequeued nodes are not above 0. -/
  low : ∀ n, n ∈ q ∨ n ∈ P → d.getD n 0 ≤ 0
  /-- No node is queued twice. -/
  qnd : q.Nodup
  /-- No queued node was dequeued before. -/
  disj : ∀ n ∈ q, n ∉ P

/-- A rearrangement of the entries of a table: an order in which `range` may visit them. -/
def IsIteration (order : GoMap Int → GoMap Int) : Prop := ∀ m, (order m).Perm m

/-- The method `hasCycle` when the statement `range g.indegree` visits the entries in the
order `order1` and the statement `range indegreeCopy` visits them in the order `order2`. -/
def hasCycleOrd (order1 order2 : GoMap Int → GoMap Int) (g : KahnGraph) : Option Bool :=
  let indegreeCopy := cloneIndegree (order1 g.indegree)
  let queue := seedQueue (order2 indegreeCopy)
  match kahnLoop g.edges g.indegree.len indegreeCopy queue 0 with
  | some (processed, indegreeCopy) => some (processed != indegreeCopy.len)
  | none => none

/-! ## The maps of type `map[string]int` as objects -/

/-- The objects of type `map[string]int` of a program state, by address. -/
abbrev IntMaps := List (GoMap Int)

/-- The read `m[k]` of the map at the address `ref`. -/
def readAt (maps : IntMaps) (ref : Nat) (k : String) : Int := (maps.getD ref []).getD k 0

/-- The write `m[k] = v` to the map at the address `ref`. -/
def writeAt (maps : IntMaps) (ref : Nat) (k : String) (v : Int) : IntMaps :=
  maps.set ref ((maps.getD ref []).set k v)

/-- One pass of the inner loop body on the map objects: `indegreeCopy[neighbor]--` and the
enqueue test, for `indegreeCopy` at the address `ref`. -/
def relaxAt (ref : Nat) (s : IntMaps × List String) (neighbor : String) :
    IntMaps × List String :=
  let maps := writeAt s.1 ref neighbor (readAt s.1 ref neighbor - 1)
  if readAt maps ref neighbor = 0 then (maps, s.2 ++ [neighbor]) else (maps, s.2)

/-- The loop `for len(queue) > 0` on the map objects, for `indegreeCopy` at the address
`ref`: the map objects when the loop is left, and `processed` unless the fuel ran out. -/
def kahnLoopAt (edges : GoMap (List String)) (ref : Nat) :
    Nat → IntMaps → List String → Nat → IntMaps × Option Nat
  | _, maps, [], processed => (maps, some processed)
  | 0, maps, _ :: _, _ => (maps, none)
  | fuel + 1, maps, node :: rest, processed =>
    let s := (edges.getD node []).foldl (relaxAt ref) (maps, rest)
    kahnLoopAt edges ref fuel s.1 s.2 (processed + 1)

/-- The method `hasCycle` on the map objects, for a receiver whose field `indegree` is the
map at the address `indegree` and whose adjacency table is `edges`, with the orders of its
two `range` statements: the map objects after the call and the returned boolean. -/
def hasCycleAt (order1 order2 : GoMap Int → GoMap Int) (edges : GoMap (List String))
    (maps : IntMaps) (indegree : Nat) : IntMaps × Option Bool :=
  let indegreeCopy := maps.length
  let maps0 := maps ++ [[]]
  let fuel := (maps0.getD indegree []).len
  let maps1 := (order1 (maps0.getD indegree [])).foldl
    (fun m e => writeAt m indegreeCopy e.1 e.2) maps0
  let queue := seedQueue (order2 (maps1.getD indegreeCopy []))
  let r := kahnLoopAt edges indegreeCopy fuel maps1 queue 0
  (r.1, r.2.map (fun processed => processed != (r.1.getD indegreeCopy []).len))

/-- Calls of `hasCycle` in a row on the same receiver, one for each pair of orders of the
list: the map objects after the last call and the returned booleans. -/
def hasCycleAtCalls (edges : GoMap (List String)) (indegree : Nat) :
    List ((GoMap Int → GoMap Int) × (GoMap Int → GoMap Int)) → IntMaps →
      IntMaps × List (Option Bool)
  | [], maps => (maps, [])
  | o :: t, maps =>
    let r := hasCycleAt o.1 o.2 edges maps indegree
    let r' := hasCycleAtCalls edges indegree t r.1
    (r'.1, r.2 :: r'.2)

/-! ## Lemmas on Go maps -/

namespace GoMap

variable {V : Type}

theorem get?_set (m : GoMap V) (k k' : String) (v : V) :
    get? (set m k v) k' = if k = k' then some v else get? m k' := by
  induction m with
  | nil => simp [set, get?]
  | cons e t ih =>
    obtain ⟨k0, v0⟩ := e
    by_cases h : k0 = k
    · subst h
      by_cases h' : k0 = k' <;> simp [set, get?, h']
    · by_cases h' : k0 = k'
      · subst h'
        simp [set, get?, h, Ne.symm h]
      · simp [set, get?, h, h', ih]

theorem getD_set (m : GoMap V) (k k' : String) (v z : V) :
    getD (set m k v) k' z = if k = k' then v else getD m k' z := by
  unfold getD
  rw [get?_set]
  split <;> rfl

theorem get?_eq_none_iff (m : GoMap V) (k : String) : get? m k = none ↔ k ∉ keys m := by
  induction m with
  | nil => simp [get?, keys]
  | cons e t ih =>
    obtain ⟨k0, v0⟩ := e
    by_cases h : k0 = k
    · simp [get?, keys, h]
    · simp only [get?, h, if_false, ih, keys, List.map_cons, List.mem_cons, not_or]
      constructor
      · intro h1; exact ⟨fun h2 => h h2.symm, h1⟩
      · intro h1; exact h1.2

theorem contains_iff (m : GoMap V) (k : String) : contains m k = true ↔ k ∈ keys m := by
  unfold contains
  rw [← not_iff_not, ← get?_eq_none_iff]
  cases get? m k <;> simp

theorem getD_of_not_mem (m : GoMap V) (k : String) (z : V) (h : k ∉ keys m) :
    getD m k z = z := by
  unfold getD
  rw [(get?_eq_none_iff m k).2 h]
  rfl

theorem set_of_mem (m : GoMap V) (k : String) (v : V) (h : k ∈ keys m) :
    keys (set m k v) = keys m := by
  induction m with
  | nil => simp [keys] at h
  | cons e t ih =>
    obtain ⟨k0, v0⟩ := e
    by_cases h0 : k0 = k
    · simp [set, keys, h0]
    · have : k ∈ keys t := by
        simp only [keys, List.map_cons, List.mem_cons] at h
        rcases h with h | h
        · exact absurd h.symm h0
        · exact h
      have ih' := ih this
      simp only [keys] at ih' ⊢
      simp [set, h0, ih']

theorem set_of_not_mem (m : GoMap V) (k : String) (v : V) (h : k ∉ keys m) :
    set m k v = m ++ [(k, v)] := by
  induction m with
  | nil => rfl
  | cons e t ih =>
    obtain ⟨k0, v0⟩ := e
    simp only [keys, List.map_cons, List.mem_cons, not_or] at h
    have h0 : ¬ k0 = k := fun h' => h.1 h'.symm
    simp only [set, h0, if_false, List.cons_append]
    rw [ih h.2]

theorem mem_keys_set (m : GoMap V) (k k' : String) (v : V) :
    k' ∈ keys (set m k v) ↔ k' = k ∨ k' ∈ keys m := by
  rw [← contains_iff, ← contains_iff]
  unfold contains
  rw [get?_set]
  by_cases h : k = k'
  · simp [h]
  · simp [h, Ne.symm h]

theorem wf_set (m : GoMap V) (k : String) (v : V) (h : WF m) : WF (set m k v) := by
  unfold WF at *
  by_cases hk : k ∈ keys m
  · rw [set_of_mem m k v hk]; exact h
  · rw [set_of_not_mem m k v hk]
    simp only [keys, List.map_append, List.map_cons, List.map_nil]
    rw [List.nodup_append]
    refine ⟨h, List.nodup_singleton _, ?_⟩
    intro x hx hx'
    simp only [List.mem_singleton] at hx'
    subst hx'
    exact hk hx

theorem len_set_of_mem (m : GoMap V) (k : String) (v : V) (h : k ∈ keys m) :
    len (set m k v) = len m := by
  have := congrArg List.length (set_of_mem m k v h)
  simpa [keys, len] using this

end GoMap

/-! ## The inner loop -/

theorem relaxAll_nil (d : GoMap Int) (q : List String) : relaxAll d q [] = (d, q) := rfl

theorem relaxAll_cons (d : GoMap Int) (q : List String) (m : String) (t : List String) :
    relaxAll d q (m :: t) = relaxAll (relax (d, q) m).1 (relax (d, q) m).2 t := rfl

theorem relax_fst (d : GoMap Int) (q : List String) (m : String) :
    (relax (d, q) m).1 = d.set m (d.getD m 0 - 1) := by
  unfold relax
  dsimp only
  split <;> rfl

theorem relax_snd (d : GoMap Int) (q : List String) (m : String) :
    (relax (d, q) m).2 = if d.getD m 0 - 1 = 0 then q ++ [m] else q := by
  unfold relax
  dsimp only
  rw [GoMap.getD_set]
  simp only [if_true]
  split <;> rfl

theorem relaxAll_getD (todo : List String) (d : GoMap Int) (q : List String) (n : String) :
    (relaxAll d q todo).1.getD n 0 = d.getD n 0 - (todo.count n : Int) := by
  induction todo generalizing d q with
  | nil => simp [relaxAll_nil]
  | cons m t ih =>
    rw [relaxAll_cons, ih, relax_fst, GoMap.getD_set]
    by_cases h : m = n
    · subst h
      simp only [if_true, List.count_cons_self]
      push_cast
      ring
    · have h' : (m == n) = false := by simpa using h
      simp only [h, if_false, List.count_cons, h']
      simp

theorem relaxAll_keys (todo : List String) (d : GoMap Int) (q : List String)
    (h : ∀ n ∈ todo, n ∈ d.keys) : (relaxAll d q todo).1.keys = d.keys := by
  induction todo generalizing d q with
  | nil => rfl
  | cons m t ih =>
    have hm : m ∈ d.keys := h m (List.mem_cons_self _ _)
    have hk : (relax (d, q) m).1.keys = d.keys := by
      rw [relax_fst]; exact GoMap.set_of_mem _ _ _ hm
    rw [relaxAll_cons, ih, hk]
    intro n hn
    rw [hk]
    exact h n (List.mem_cons_of_mem _ hn)

theorem relaxAll_queue (todo : List String) (d : GoMap Int) (q : List String)
    (hle : ∀ n, (todo.count n : Int) ≤ d.getD n 0)
    (hq : ∀ n ∈ q, d.getD n 0 = 0) (hnd : q.Nodup) :
    (relaxAll d q todo).2.Nodup ∧
      ∀ n, n ∈ (relaxAll d q todo).2 ↔
        n ∈ q ∨ (n ∈ todo ∧ (relaxAll d q todo).1.getD n 0 = 0) := by
  induction todo generalizing d q with
  | nil => simp [relaxAll_nil, hnd]
  | cons m t ih =>
    have hm1 : (1 : Int) ≤ d.getD m 0 := by
      have := hle m
      simp only [List.count_cons_self] at this
      push_cast at this
      linarith [Int.ofNat_nonneg (t.count m)]
    have hmq : m ∉ q := fun hmem => by
      have := hq m hmem
      omega
    have hd' : ∀ n, (relax (d, q) m).1.getD n 0 = if m = n then d.getD m 0 - 1 else d.getD n 0 := by
      intro n; rw [relax_fst, GoMap.getD_set]
    have hle' : ∀ n, (t.count n : Int) ≤ (relax (d, q) m).1.getD n 0 := by
      intro n
      rw [hd']
      have := hle n
      by_cases h : m = n
      · subst h
        simp only [List.count_cons_self] at this
        push_cast at this
        simp only [if_true]
        linarith
      · have h' : (m == n) = false := by simpa using h
        simp only [List.count_cons, h'] at this
        simp only [h, if_false]
        simpa using this
    have hq' : ∀ n ∈ (relax (d, q) m).2, (relax (d, q) m).1.getD n 0 = 0 := by
      intro n hn
      rw [relax_snd] at hn
      rw [hd']
      by_cases h : m = n
      · subst h
        simp only [if_true]
        split at hn
        · assumption
        · exact absurd hn hmq
      · simp only [h, if_false]
        apply hq
        split at hn
        · rcases List.mem_append.1 hn with h1 | h1
          · exact h1
          · simp only [List.mem_singleton] at h1
            exact absurd h1.symm h
        · exact hn
    have hnd' : (relax (d, q) m).2.Nodup := by
      rw [relax_snd]
      split
      · rw [List.nodup_append]
        refine ⟨hnd, List.nodup_singleton _, ?_⟩
        intro x hx hx'
        simp only [List.mem_singleton] at hx'
        subst hx'
        exact hmq hx
      · exact hnd
    obtain ⟨ih1, ih2⟩ := ih _ _ hle' hq' hnd'
    rw [relaxAll_cons]
    refine ⟨ih1, ?_⟩
    intro n
    rw [ih2 n]
    have hfin := relaxAll_getD t (relax (d, q) m).1 (relax (d, q) m).2 n
    constructor
    · rintro (h | ⟨h1, h2⟩)
      · rw [relax_snd] at h
        split at h
        · rename_i h0
          rcases List.mem_append.1 h with h1 | h1
          · exact Or.inl h1
          · simp only [List.mem_singleton] at h1
            subst h1
            right
            refine ⟨List.mem_cons_self _ _, ?_⟩
            rw [hfin, hd']
            simp only [if_true]
            have := hle' n
            rw [hd'] at this
            simp only [if_true] at this
            omega
        · exact Or.inl h
      · exact Or.inr ⟨List.mem_cons_of_mem _ h1, h2⟩
    · rintro (h | ⟨h1, h2⟩)
      · left
        rw [relax_snd]
        split
        · exact List.mem_append_left _ h
        · exact h
      · rcases List.mem_cons.1 h1 with h3 | h3
        · subst h3
          by_cases h0 : d.getD n 0 - 1 = 0
          · left
            rw [relax_snd]
            simp [h0]
          · right
            refine ⟨?_, h2⟩
            rw [hfin, hd'] at h2
            simp only [if_true] at h2
            have hc : t.count n ≠ 0 := by
              intro hc
              rw [hc] at h2
              simp at h2
              omega
            exact List.count_pos_iff.1 (Nat.pos_of_ne_zero hc)
        · exact Or.inr ⟨h3, h2⟩

/-! ## Edges, in-degrees and cycles -/

namespace GoMap
variable {V : Type}

theorem mem_of_get? (m : GoMap V) (k : String) (v : V) (h : get? m k = some v) :
    (k, v) ∈ m := by
  induction m with
  | nil => simp [get?] at h
  | cons e t ih =>
    obtain ⟨k0, v0⟩ := e
    by_cases h0 : k0 = k
    · simp only [get?, h0, if_true, Option.some.injEq] at h
      subst h0; subst h
      exact List.mem_cons_self _ _
    · simp only [get?, h0, if_false] at h
      exact List.mem_cons_of_mem _ (ih h)

theorem get?_of_mem (m : GoMap V) (k : String) (v : V) (hwf : WF m) (h : (k, v) ∈ m) :
    get? m k = some v := by
  induction m with
  | nil => simp at h
  | cons e t ih =>
    obtain ⟨k0, v0⟩ := e
    unfold WF at hwf
    simp only [keys, List.map_cons, List.nodup_cons] at hwf
    rcases List.mem_cons.1 h with h1 | h1
    · simp only [Prod.mk.injEq] at h1
      simp [get?, h1.1, h1.2]
    · have hk : k ∈ t.map Prod.fst := List.mem_map.2 ⟨(k, v), h1, rfl⟩
      have h0 : ¬ k0 = k := fun h' => hwf.1 (h' ▸ hk)
      simp only [get?, h0, if_false]
      exact ih hwf.2 h1

theorem mem_keys_of_mem (m : GoMap V) (k : String) (v : V) (h : (k, v) ∈ m) : k ∈ keys m :=
  List.mem_map.2 ⟨(k, v), h, rfl⟩

end GoMap

theorem edge_mem_entry (g : KahnGraph) (u v : String) (h : Edge g u v) :
    ∃ e ∈ g.edges, e.1 = u ∧ v ∈ e.2 := by
  unfold Edge GoMap.getD at h
  cases hg : GoMap.get? g.edges u with
  | none => rw [hg] at h; simp at h
  | some l =>
    rw [hg] at h
    exact ⟨(u, l), GoMap.mem_of_get? _ _ _ hg, rfl, h⟩

theorem edge_src_mem (g : KahnGraph) (hinv : Inv g) (u v : String) (h : Edge g u v) :
    u ∈ g.indegree.keys := by
  obtain ⟨e, he, h1, _⟩ := edge_mem_entry g u v h
  exact hinv.1 u (Or.inl (List.mem_map.2 ⟨e, he, h1⟩))

theorem edge_tgt_mem (g : KahnGraph) (hinv : Inv g) (u v : String) (h : Edge g u v) :
    v ∈ g.indegree.keys := by
  obtain ⟨e, he, _, h2⟩ := edge_mem_entry g u v h
  exact hinv.1 v (Or.inr ⟨e, he, h2⟩)

theorem edge_iff_count (g : KahnGraph) (u v : String) :
    Edge g u v ↔ (g.edges.getD u []).count v ≠ 0 := by
  unfold Edge
  rw [← List.count_pos_iff, Nat.pos_iff_ne_zero]

theorem sum_count_eq (m : GoMap (List String)) (n : String) (hwf : m.WF) :
    (m.map (fun e => e.2.count n)).sum =
      ∑ u in m.keys.toFinset, (GoMap.getD m u []).count n := by
  induction m with
  | nil => simp [GoMap.keys]
  | cons e t ih =>
    obtain ⟨k0, v0⟩ := e
    have hwf' := hwf
    unfold GoMap.WF at hwf'
    simp only [GoMap.keys, List.map_cons, List.nodup_cons] at hwf'
    have hk : k0 ∉ (GoMap.keys t).toFinset := by
      simpa [GoMap.keys] using hwf'.1
    simp only [GoMap.keys, List.map_cons, List.sum_cons, List.toFinset_cons]
    rw [Finset.sum_insert (by simpa [GoMap.keys] using hk), ih hwf'.2]
    congr 1
    · simp [GoMap.getD, GoMap.get?]
    · apply Finset.sum_congr rfl
      intro u hu
      have hu' : u ∈ t.map Prod.fst := by simpa [GoMap.keys] using hu
      have h0 : ¬ k0 = u := fun h' => hwf'.1 (h' ▸ hu')
      simp [GoMap.getD, GoMap.get?, h0]

theorem occurrences_eq_inflow (g : KahnGraph) (hwf : WF g) (hinv : Inv g) (n : String) :
    occurrences g n = inflow g g.indegree.keys.toFinset n := by
  unfold occurrences inflow
  rw [sum_count_eq g.edges n hwf.1]
  apply Finset.sum_subset
  · intro u hu
    rw [List.mem_toFinset] at hu ⊢
    exact hinv.1 u (Or.inl hu)
  · intro u _ hu
    rw [List.mem_toFinset] at hu
    rw [GoMap.getD_of_not_mem _ _ _ hu]
    rfl

theorem inflow_insert (g : KahnGraph) (P : Finset String) (u n : String) (hu : u ∉ P) :
    inflow g (insert u P) n = (g.edges.getD u []).count n + inflow g P n := by
  unfold inflow
  rw [Finset.sum_insert hu]

theorem inflow_le (g : KahnGraph) (hwf : WF g) (hinv : Inv g) (P : Finset String)
    (hP : ∀ n ∈ P, n ∈ g.indegree.keys) (n : String) : inflow g P n ≤ occurrences g n := by
  rw [occurrences_eq_inflow g hwf hinv]
  unfold inflow
  apply Finset.sum_le_sum_of_subset
  intro u hu
  exact List.mem_toFinset.2 (hP u hu)

/-- When the dequeued nodes account for all of `n`'s in-degree, every edge into `n` leaves
a dequeued node. -/
theorem pred_mem_of_inflow_eq (g : KahnGraph) (hwf : WF g) (hinv : Inv g) (P : Finset String)
    (hP : ∀ n ∈ P, n ∈ g.indegree.keys) (n : String)
    (h : inflow g P n = occurrences g n) (w : String) (hw : Edge g w n) : w ∈ P := by
  by_contra hwP
  have hwU : w ∈ g.indegree.keys.toFinset := List.mem_toFinset.2 (edge_src_mem g hinv w n hw)
  have hsub : insert w P ⊆ g.indegree.keys.toFinset := by
    intro x hx
    rcases Finset.mem_insert.1 hx with h1 | h1
    · rw [h1]; exact hwU
    · exact List.mem_toFinset.2 (hP x h1)
  have h1 : inflow g (insert w P) n ≤ occurrences g n := by
    rw [occurrences_eq_inflow g hwf hinv]
    exact Finset.sum_le_sum_of_subset hsub
  rw [inflow_insert g P w n hwP] at h1
  have h2 := (edge_iff_count g w n).1 hw
  omega

/-- A node on a cycle has a predecessor on a cycle. -/
theorem cycle_pred {R : String → String → Prop} {n : String} (h : Relation.TransGen R n n) :
    ∃ w, R w n ∧ Relation.TransGen R w w := by
  obtain ⟨w, h1, h2⟩ := Relation.TransGen.tail'_iff.1 h
  exact ⟨w, h2, Relation.TransGen.head' h2 h1⟩

/-- In a finite non-empty set in which every node has a predecessor, there is a cycle. -/
theorem exists_cycle_of_pred {R : String → String → Prop} (S : Finset String)
    (hne : S.Nonempty) (hpred : ∀ n ∈ S, ∃ w ∈ S, R w n) : HasCycleRel R := by
  by_contra hno
  have hirr : ∀ c, ¬ Relation.TransGen R c c := fun c hc => hno ⟨c, hc⟩
  let r : {x // x ∈ S} → {x // x ∈ S} → Prop := fun a b => Relation.TransGen R a.1 b.1
  haveI : IsTrans {x // x ∈ S} r := ⟨fun _ _ _ h1 h2 => Relation.TransGen.trans h1 h2⟩
  haveI : IsIrrefl {x // x ∈ S} r := ⟨fun a h => hirr a.1 h⟩
  have hwf : WellFounded r := Finite.wellFounded_of_trans_of_irrefl r
  obtain ⟨x, hx⟩ := hne
  obtain ⟨m, _, hmin⟩ := hwf.has_min Set.univ ⟨⟨x, hx⟩, Set.mem_univ _⟩
  obtain ⟨w, hw, hR⟩ := hpred m.1 m.2
  exact hmin ⟨w, hw⟩ (Set.mem_univ _) (Relation.TransGen.single hR)

/-! ## The outer loop -/

theorem kahnLoopWith_nil (disc : List String → List String) (edges : GoMap (List String))
    (fuel : Nat) (d : GoMap Int) (q : List String) (p : Nat) (h : disc q = []) :
    kahnLoopWith disc edges fuel d q p = some (p, d) := by
  cases fuel <;> simp [kahnLoopWith, h]

theorem kahnLoopWith_zero (disc : List String → List String) (edges : GoMap (List String))
    (d : GoMap Int) (q : List String) (p : Nat) (u : String) (rest : List String)
    (h : disc q = u :: rest) :
    kahnLoopWith disc edges 0 d q p = none := by
  simp [kahnLoopWith, h]

theorem kahnLoopWith_succ (disc : List String → List String) (edges : GoMap (List String))
    (fuel : Nat) (d : GoMap Int) (q : List String) (p : Nat) (u : String) (rest : List String)
    (h : disc q = u :: rest) :
    kahnLoopWith disc edges (fuel + 1) d q p =
      kahnLoopWith disc edges fuel (relaxAll d rest (edges.getD u [])).1
        (relaxAll d rest (edges.getD u [])).2 (p + 1) := by
  simp [kahnLoopWith, h]

theorem kahnLoop_eq_with_id (edges : GoMap (List String)) (fuel : Nat) (d : GoMap Int)
    (q : List String) (p : Nat) :
    kahnLoop edges fuel d q p = kahnLoopWith id edges fuel d q p := by
  induction fuel generalizing d q p with
  | zero =>
    cases q with
    | nil => rw [kahnLoopWith_nil id _ _ _ [] _ rfl]; rfl
    | cons u rest => rw [kahnLoopWith_zero id _ _ (u :: rest) _ u rest rfl]; rfl
  | succ fuel ih =>
    cases q with
    | nil => rw [kahnLoopWith_nil id _ _ _ [] _ rfl]; rfl
    | cons u rest =>
      rw [kahnLoopWith_succ id _ _ _ (u :: rest) _ u rest rfl, ← ih]
      rfl


/-- One iteration of the outer loop keeps the loop invariant. -/
theorem loopInv_step (g : KahnGraph) (hwf : WF g) (hinv : Inv g) (d : GoMap Int)
    (q : List String) (p : Nat) (P : Finset String) (u : String) (rest : List String)
    (hperm : (u :: rest).Perm q) (hI : LoopInv g d q p P) :
    LoopInv g (relaxAll d rest (g.edges.getD u [])).1 (relaxAll d rest (g.edges.getD u [])).2
      (p + 1) (insert u P) := by
  have huq : u ∈ q := hperm.subset (List.mem_cons_self _ _)
  have hrestq : ∀ n ∈ rest, n ∈ q := fun n hn => hperm.subset (List.mem_cons_of_mem _ hn)
  have hnd : (u :: rest).Nodup := hperm.nodup_iff.2 hI.qnd
  have hurest : u ∉ rest := (List.nodup_cons.1 hnd).1
  have huP : u ∉ P := (hI.qU u huq).2
  have huU : u ∈ g.indegree.keys := (hI.qU u huq).1
  have hsub' : ∀ n ∈ insert u P, n ∈ g.indegree.keys := by
    intro n hn
    rcases Finset.mem_insert.1 hn with h | h
    · rw [h]; exact huU
    · exact hI.sub n h
  have hle : ∀ n, (((g.edges.getD u []).count n : Nat) : Int) ≤ d.getD n 0 := by
    intro n
    have h1 := inflow_le g hwf hinv (insert u P) hsub' n
    rw [inflow_insert g P u n huP] at h1
    rw [hI.deg n]
    omega
  have hq0 : ∀ n ∈ rest, d.getD n 0 = 0 := fun n hn =>
    ((hI.zero n (hI.qU n (hrestq n hn)).1).2 (Or.inl (hrestq n hn)))
  obtain ⟨hq1, hq2⟩ := relaxAll_queue (g.edges.getD u []) d rest hle hq0 (List.nodup_cons.1 hnd).2
  have hd' := relaxAll_getD (g.edges.getD u []) d rest
  have hzero_keep : ∀ n, d.getD n 0 = 0 →
      (relaxAll d rest (g.edges.getD u [])).1.getD n 0 = 0 := by
    intro n hn
    rw [hd' n]
    have := hle n
    omega
  refine ⟨?_, hsub', hq1, ?_, ?_, ?_, ?_, ?_⟩
  · rw [Finset.card_insert_of_not_mem huP, hI.card]
  · intro n hn
    rcases (hq2 n).1 hn with h | ⟨h1, h2⟩
    · refine ⟨(hI.qU n (hrestq n h)).1, ?_⟩
      intro hmem
      rcases Finset.mem_insert.1 hmem with h3 | h3
      · exact hurest (h3 ▸ h)
      · exact (hI.qU n (hrestq n h)).2 h3
    · have hnU : n ∈ g.indegree.keys := edge_tgt_mem g hinv u n h1
      have hc : (g.edges.getD u []).count n ≠ 0 := (edge_iff_count g u n).1 h1
      have hdn : d.getD n 0 ≠ 0 := by
        rw [hd' n] at h2
        omega
      have hnot : ¬ (n ∈ q ∨ n ∈ P) := fun h => hdn ((hI.zero n hnU).2 h)
      refine ⟨hnU, ?_⟩
      intro hmem
      rcases Finset.mem_insert.1 hmem with h3 | h3
      · exact hnot (Or.inl (h3 ▸ huq))
      · exact hnot (Or.inr h3)
  · rw [relaxAll_keys _ _ _ ?_, hI.keys]
    intro n hn
    rw [hI.keys]
    exact edge_tgt_mem g hinv u n hn
  · intro n
    rw [hd' n, hI.deg n, inflow_insert g P u n huP]
    push_cast
    ring
  · intro n hnU
    constructor
    · intro h0
      by_cases hmem : n ∈ g.edges.getD u []
      · exact Or.inl ((hq2 n).2 (Or.inr ⟨hmem, h0⟩))
      · have hc : (g.edges.getD u []).count n = 0 := List.count_eq_zero_of_not_mem hmem
        rw [hd' n, hc] at h0
        simp only [Nat.cast_zero, sub_zero] at h0
        rcases (hI.zero n hnU).1 h0 with h | h
        · rcases List.mem_cons.1 (hperm.symm.subset h) with h1 | h1
          · exact Or.inr (Finset.mem_insert.2 (Or.inl h1))
          · exact Or.inl ((hq2 n).2 (Or.inl h1))
        · exact Or.inr (Finset.mem_insert.2 (Or.inr h))
    · rintro (h | h)
      · rcases (hq2 n).1 h with h1 | ⟨_, h2⟩
        · exact hzero_keep n (hq0 n h1)
        · exact h2
      · apply hzero_keep
        apply (hI.zero n hnU).2
        rcases Finset.mem_insert.1 h with h1 | h1
        · exact Or.inl (h1 ▸ huq)
        · exact Or.inr h1
  · intro n hn hcyc
    rcases Finset.mem_insert.1 hn with h | h
    · subst h
      obtain ⟨w, hw1, hw2⟩ := cycle_pred hcyc
      have h0 : d.getD n 0 = 0 := (hI.zero n huU).2 (Or.inl huq)
      have heq : inflow g P n = occurrences g n := by
        have h1 := hI.deg n
        have h2 := inflow_le g hwf hinv P hI.sub n
        omega
      exact hI.acyc w (pred_mem_of_inflow_eq g hwf hinv P hI.sub n heq w hw1) hw2
    · exact hI.acyc n h hcyc

/-- With fuel for the nodes not dequeued yet, the loop finishes in a state that satisfies
the loop invariant with an empty queue. -/
theorem kahnLoopWith_spec (g : KahnGraph) (hwf : WF g) (hinv : Inv g)
    (disc : List String → List String) (hdisc : IsDiscipline disc) (fuel : Nat) :
    ∀ (d : GoMap Int) (q : List String) (p : Nat) (P : Finset String),
      LoopInv g d q p P → g.indegree.len ≤ fuel + p →
      ∃ p' d' P', kahnLoopWith disc g.edges fuel d q p = some (p', d') ∧
        LoopInv g d' [] p' P' := by
  induction fuel with
  | zero =>
    intro d q p P hI hfuel
    cases hq : disc q with
    | nil =>
      have hq' : q = [] := by
        have := hdisc q
        rw [hq] at this
        exact List.Perm.eq_nil this.symm
      subst hq'
      exact ⟨p, d, P, kahnLoopWith_nil disc _ _ _ _ _ hq, hI⟩
    | cons u rest =>
      exfalso
      have hperm : (u :: rest).Perm q := hq ▸ hdisc q
      have huq : u ∈ q := hperm.subset (List.mem_cons_self _ _)
      have hsubset : insert u P ⊆ g.indegree.keys.toFinset := by
        intro x hx
        rcases Finset.mem_insert.1 hx with h | h
        · rw [h]; exact List.mem_toFinset.2 (hI.qU u huq).1
        · exact List.mem_toFinset.2 (hI.sub x h)
      have h1 := Finset.card_le_card hsubset
      rw [Finset.card_insert_of_not_mem (hI.qU u huq).2, hI.card] at h1
      have h2 : g.indegree.keys.toFinset.card ≤ g.indegree.len := by
        have := List.toFinset_card_le g.indegree.keys
        simpa [GoMap.keys, GoMap.len] using this
      omega
  | succ fuel ih =>
    intro d q p P hI hfuel
    cases hq : disc q with
    | nil =>
      have hq' : q = [] := by
        have := hdisc q
        rw [hq] at this
        exact List.Perm.eq_nil this.symm
      subst hq'
      exact ⟨p, d, P, kahnLoopWith_nil disc _ _ _ _ _ hq, hI⟩
    | cons u rest =>
      have hperm : (u :: rest).Perm q := hq ▸ hdisc q
      rw [kahnLoopWith_succ disc _ _ _ _ _ u rest hq]
      exact ih _ _ _ _ (loopInv_step g hwf hinv d q p P u rest hperm hI) (by omega)

/-! ## Correctness of the check -/

theorem foldl_set_append (m acc : GoMap Int) (h : (acc.keys ++ m.keys).Nodup) :
    m.foldl (fun a e => GoMap.set a e.1 e.2) acc = acc ++ m := by
  induction m generalizing acc with
  | nil => simp
  | cons e t ih =>
    obtain ⟨k, v⟩ := e
    have hk : k ∉ acc.keys := by
      intro hmem
      have := (List.nodup_append.1 h).2.2 hmem
      exact this (by simp [GoMap.keys])
    simp only [List.foldl_cons]
    rw [GoMap.set_of_not_mem acc k v hk, ih]
    · simp
    · simpa [GoMap.keys, List.append_assoc] using h

theorem cloneIndegree_eq (m : GoMap Int) (h : m.WF) : cloneIndegree m = m := by
  unfold cloneIndegree
  rw [foldl_set_append m [] (by simpa [GoMap.keys] using h)]
  rfl

theorem seedQueue_foldl (m : GoMap Int) (acc : List String) :
    m.foldl (fun queue e => if e.2 = 0 then queue ++ [e.1] else queue) acc =
      acc ++ (m.filter (fun e => decide (e.2 = 0))).map Prod.fst := by
  induction m generalizing acc with
  | nil => simp
  | cons e t ih =>
    simp only [List.foldl_cons]
    rw [ih]
    by_cases h : e.2 = 0 <;> simp [h, List.filter_cons]

theorem seedQueue_eq (m : GoMap Int) :
    seedQueue m = (m.filter (fun e => decide (e.2 = 0))).map Prod.fst := by
  unfold seedQueue
  rw [seedQueue_foldl]
  rfl

theorem mem_seedQueue (m : GoMap Int) (hwf : m.WF) (n : String) :
    n ∈ seedQueue m ↔ n ∈ m.keys ∧ m.getD n 0 = 0 := by
  rw [seedQueue_eq]
  simp only [List.mem_map, List.mem_filter, decide_eq_true_eq]
  constructor
  · rintro ⟨⟨k, v⟩, ⟨h1, h2⟩, h3⟩
    simp only at h2 h3
    subst h3; subst h2
    refine ⟨GoMap.mem_keys_of_mem m k 0 h1, ?_⟩
    unfold GoMap.getD
    rw [GoMap.get?_of_mem m k 0 hwf h1]
    rfl
  · rintro ⟨h1, h2⟩
    have hc := (GoMap.contains_iff m n).2 h1
    unfold GoMap.contains at hc
    cases hg : GoMap.get? m n with
    | none => rw [hg] at hc; simp at hc
    | some v =>
      unfold GoMap.getD at h2
      rw [hg] at h2
      simp only [Option.getD_some] at h2
      subst h2
      exact ⟨(n, 0), ⟨GoMap.mem_of_get? m n 0 hg, rfl⟩, rfl⟩

theorem seedQueue_nodup (m : GoMap Int) (hwf : m.WF) : (seedQueue m).Nodup := by
  rw [seedQueue_eq]
  exact List.Nodup.sublist (List.Sublist.map _ (List.filter_sublist _)) hwf

/-- The loop invariant holds when the loop is entered. -/
theorem loopInv_init (g : KahnGraph) (hwf : WF g) (hinv : Inv g) :
    LoopInv g (cloneIndegree g.indegree) (seedQueue (cloneIndegree g.indegree)) 0 ∅ := by
  rw [cloneIndegree_eq _ hwf.2]
  refine ⟨rfl, ?_, seedQueue_nodup _ hwf.2, ?_, rfl, ?_, ?_, ?_⟩
  · intro n hn; simp at hn
  · intro n hn
    exact ⟨((mem_seedQueue _ hwf.2 n).1 hn).1, by simp⟩
  · intro n
    have h0 : inflow g ∅ n = 0 := by simp [inflow]
    rw [h0]
    by_cases hn : n ∈ g.indegree.keys
    · rw [hinv.2 n hn]; simp
    · rw [GoMap.getD_of_not_mem _ _ _ hn]
      have : occurrences g n = 0 := by
        unfold occurrences
        apply List.sum_eq_zero
        intro x hx
        obtain ⟨e, he, rfl⟩ := List.mem_map.1 hx
        apply List.count_eq_zero_of_not_mem
        intro hmem
        exact hn (hinv.1 n (Or.inr ⟨e, he, hmem⟩))
      rw [this]; simp
  · intro n hn
    rw [mem_seedQueue _ hwf.2 n]
    simp [hn]
  · intro n hn; simp at hn

/-- At the end of the loop the counter differs from the number of keys exactly when the
graph has a cycle. -/
theorem loopInv_final (g : KahnGraph) (hwf : WF g) (hinv : Inv g) (d : GoMap Int) (p : Nat)
    (P : Finset String) (hI : LoopInv g d [] p P) :
    p ≠ d.len ↔ HasCycle g := by
  have hlen : d.len = g.indegree.keys.toFinset.card := by
    rw [List.toFinset_card_of_nodup hwf.2, ← hI.keys]
    simp [GoMap.len, GoMap.keys]
  have hsub : P ⊆ g.indegree.keys.toFinset := fun x hx => List.mem_toFinset.2 (hI.sub x hx)
  constructor
  · intro hne
    have hss : P ≠ g.indegree.keys.toFinset := by
      intro h
      apply hne
      rw [hlen, ← h, hI.card]
    have hne' : (g.indegree.keys.toFinset \ P).Nonempty := by
      rw [Finset.nonempty_iff_ne_empty]
      intro h
      exact hss (Finset.Subset.antisymm hsub (Finset.sdiff_eq_empty_iff_subset.1 h))
    apply exists_cycle_of_pred _ hne'
    intro n hn
    rw [Finset.mem_sdiff, List.mem_toFinset] at hn
    have hdn : d.getD n 0 ≠ 0 := by
      intro h0
      rcases (hI.zero n hn.1).1 h0 with h | h
      · simp at h
      · exact hn.2 h
    have hlt : inflow g P n ≠ occurrences g n := by
      intro h
      apply hdn
      rw [hI.deg n, h]
      simp
    by_contra hno
    apply hlt
    rw [occurrences_eq_inflow g hwf hinv n]
    unfold inflow
    apply Finset.sum_subset hsub
    intro w hwU hwP
    by_contra hc
    exact hno ⟨w, Finset.mem_sdiff.2 ⟨hwU, hwP⟩, (edge_iff_count g w n).2 hc⟩
  · rintro ⟨c, hc⟩ heq
    obtain ⟨w, hw, _⟩ := cycle_pred hc
    have hcU : c ∈ g.indegree.keys.toFinset := List.mem_toFinset.2 (edge_tgt_mem g hinv w c hw)
    have hcP : c ∉ P := fun h => hI.acyc c h hc
    have hlt : P.card < g.indegree.keys.toFinset.card :=
      Finset.card_lt_card (Finset.ssubset_iff_subset_ne.2 ⟨hsub, fun h => hcP (h ▸ hcU)⟩)
    rw [hI.card, ← hlen] at hlt
    omega

/-- Kahn's algorithm is correct under every queue discipline: on a well-formed state that
satisfies the invariant the check finishes and reports exactly the cycles. -/
theorem hasCycleWith_correct (g : KahnGraph) (hwf : WF g) (hinv : Inv g)
    (disc : List String → List String) (hdisc : IsDiscipline disc) :
    ∃ r, hasCycleWith disc g = some r ∧ (r = true ↔ HasCycle g) := by
  obtain ⟨p, d, P, h1, h2⟩ := kahnLoopWith_spec g hwf hinv disc hdisc g.indegree.len _ _ 0 ∅
    (loopInv_init g hwf hinv) (by omega)
  refine ⟨p != d.len, ?_, ?_⟩
  · unfold hasCycleWith
    simp only [h1]
  · rw [← loopInv_final g hwf hinv d p P h2]
    simp

theorem hasCycle_eq_with_id (g : KahnGraph) : hasCycle g = hasCycleWith id g := by
  unfold hasCycle hasCycleFuel hasCycleWith
  simp only [kahnLoop_eq_with_id]

theorem isDiscipline_id : IsDiscipline id := fun q => List.Perm.refl q

theorem hasCycle_correct (g : KahnGraph) (hwf : WF g) (hinv : Inv g) :
    ∃ r, hasCycle g = some r ∧ (r = true ↔ HasCycle g) := by
  rw [hasCycle_eq_with_id]
  exact hasCycleWith_correct g hwf hinv id isDiscipline_id

/-! ## The insertion -/

theorem addEdge_edges (g : KahnGraph) (a b : String) :
    (addEdge g a b).edges = g.edges.set a (g.edges.getD a [] ++ [b]) := rfl

theorem addEdge_indegree_get? (g : KahnGraph) (a b k : String) :
    (addEdge g a b).indegree.get? k =
      if b = k then some (g.indegree.getD b 0 + 1)
      else if a = k then some (g.indegree.getD a 0)
      else g.indegree.get? k := by
  unfold addEdge
  dsimp only
  by_cases hc : (g.indegree.set b (g.indegree.getD b 0 + 1)).contains a = true
  · rw [if_pos hc, GoMap.get?_set]
    by_cases hb : b = k
    · simp [hb]
    · simp only [hb, if_false]
      by_cases ha : a = k
      · subst ha
        simp only [if_true]
        unfold GoMap.contains at hc
        rw [GoMap.get?_set, if_neg hb] at hc
        unfold GoMap.getD
        cases hg : GoMap.get? g.indegree a with
        | none => rw [hg] at hc; simp at hc
        | some v => rfl
      · simp [ha]
  · rw [if_neg hc, GoMap.get?_set, GoMap.get?_set]
    have hab : ¬ b = a := by
      intro h
      apply hc
      unfold GoMap.contains
      rw [GoMap.get?_set, if_pos h]
      rfl
    by_cases ha : a = k
    · subst ha
      simp only [if_true, hab, if_false]
      unfold GoMap.contains at hc
      rw [GoMap.get?_set, if_neg hab] at hc
      unfold GoMap.getD
      cases hg : GoMap.get? g.indegree a with
      | none => rfl
      | some v => rw [hg] at hc; simp at hc
    · simp only [ha, if_false]

theorem addEdge_indegree_getD (g : KahnGraph) (a b k : String) :
    (addEdge g a b).indegree.getD k 0 = g.indegree.getD k 0 + if b = k then 1 else 0 := by
  have h := addEdge_indegree_get? g a b k
  unfold GoMap.getD at *
  rw [h]
  by_cases hb : b = k
  · subst hb; simp
  · by_cases ha : a = k
    · subst ha; simp [hb]
    · simp [hb, ha]

theorem addEdge_mem_indegree_keys (g : KahnGraph) (a b k : String) :
    k ∈ (addEdge g a b).indegree.keys ↔ k = a ∨ k = b ∨ k ∈ g.indegree.keys := by
  rw [← GoMap.contains_iff, ← GoMap.contains_iff]
  unfold GoMap.contains
  rw [addEdge_indegree_get?]
  by_cases hb : b = k
  · simp [hb]
  · by_cases ha : a = k
    · simp [hb, ha]
    · simp [hb, ha, Ne.symm hb, Ne.symm ha]

theorem addEdge_wf (g : KahnGraph) (a b : String) (h : WF g) : WF (addEdge g a b) := by
  refine ⟨GoMap.wf_set _ _ _ h.1, ?_⟩
  unfold addEdge
  dsimp only
  split
  · exact GoMap.wf_set _ _ _ h.2
  · exact GoMap.wf_set _ _ _ (GoMap.wf_set _ _ _ h.2)

theorem mem_set (m : GoMap (List String)) (k : String) (v : List String)
    (e : String × List String) (h : e ∈ GoMap.set m k v) : e ∈ m ∨ e = (k, v) := by
  induction m with
  | nil =>
    simp only [GoMap.set, List.mem_singleton] at h
    exact Or.inr h
  | cons e0 t ih =>
    obtain ⟨k0, v0⟩ := e0
    by_cases h0 : k0 = k
    · simp only [GoMap.set, h0, if_true, List.mem_cons] at h
      rcases h with h | h
      · exact Or.inr h
      · exact Or.inl (List.mem_cons_of_mem _ h)
    · simp only [GoMap.set, h0, if_false, List.mem_cons] at h
      rcases h with h | h
      · exact Or.inl (h ▸ List.mem_cons_self _ _)
      · rcases ih h with h1 | h1
        · exact Or.inl (List.mem_cons_of_mem _ h1)
        · exact Or.inr h1

theorem count_singleton_ite (b n : String) : List.count n [b] = if b = n then 1 else 0 := by
  by_cases h : b = n
  · subst h; simp
  · have h' : (b == n) = false := by simpa using h
    simp [List.count_cons, h, h']

theorem sum_count_set (m : GoMap (List String)) (a b n : String) :
    ((GoMap.set m a (GoMap.getD m a [] ++ [b])).map (fun e => e.2.count n)).sum =
      (m.map (fun e => e.2.count n)).sum + if b = n then 1 else 0 := by
  induction m with
  | nil =>
    simp only [GoMap.set, GoMap.getD, GoMap.get?, Option.getD_none, List.nil_append,
      List.map_cons, List.map_nil, List.sum_cons, List.sum_nil, count_singleton_ite]
    omega
  | cons e0 t ih =>
    obtain ⟨k0, v0⟩ := e0
    by_cases h0 : k0 = a
    · simp only [GoMap.set, GoMap.getD, GoMap.get?, h0, if_true, Option.getD_some,
        List.map_cons, List.sum_cons, List.count_append, count_singleton_ite]
      omega
    · have hg : GoMap.getD ((k0, v0) :: t) a [] = GoMap.getD t a [] := by
        simp [GoMap.getD, GoMap.get?, h0]
      rw [hg]
      simp only [GoMap.set, h0, if_false, List.map_cons, List.sum_cons, ih]
      omega

theorem addEdge_occurrences (g : KahnGraph) (a b n : String) :
    occurrences (addEdge g a b) n = occurrences g n + if b = n then 1 else 0 := by
  unfold occurrences
  rw [addEdge_edges, sum_count_set]

theorem occurrences_eq_zero (g : KahnGraph) (hinv : Inv g) (n : String)
    (hn : n ∉ g.indegree.keys) : occurrences g n = 0 := by
  unfold occurrences
  apply List.sum_eq_zero
  intro x hx
  obtain ⟨e, he, rfl⟩ := List.mem_map.1 hx
  apply List.count_eq_zero_of_not_mem
  intro hmem
  exact hn (hinv.1 n (Or.inr ⟨e, he, hmem⟩))

theorem inv_empty : Inv NewKahnGraph := by
  refine ⟨?_, ?_⟩
  · rintro n (h | ⟨e, he, _⟩)
    · simp [NewKahnGraph, GoMap.keys] at h
    · simp [NewKahnGraph] at he
  · intro n hn
    simp [NewKahnGraph, GoMap.keys] at hn

theorem addEdge_inv (g : KahnGraph) (a b : String) (hinv : Inv g) : Inv (addEdge g a b) := by
  refine ⟨?_, ?_⟩
  · intro n hn
    rw [addEdge_mem_indegree_keys]
    rcases hn with h | ⟨e, he, hne⟩
    · rw [addEdge_edges, GoMap.mem_keys_set] at h
      rcases h with h | h
      · exact Or.inl h
      · exact Or.inr (Or.inr (hinv.1 n (Or.inl h)))
    · rw [addEdge_edges] at he
      rcases mem_set _ _ _ _ he with h | h
      · exact Or.inr (Or.inr (hinv.1 n (Or.inr ⟨e, h, hne⟩)))
      · rw [h] at hne
        simp only [List.mem_append, List.mem_singleton] at hne
        rcases hne with h1 | h1
        · exact Or.inr (Or.inr (edge_tgt_mem g hinv a n h1))
        · exact Or.inr (Or.inl h1)
  · intro n _
    rw [addEdge_indegree_getD, addEdge_occurrences]
    by_cases hk : n ∈ g.indegree.keys
    · rw [hinv.2 n hk]
      split <;> simp
    · rw [GoMap.getD_of_not_mem _ _ _ hk, occurrences_eq_zero g hinv n hk]
      split <;> simp

theorem wf_empty : WF NewKahnGraph := by
  constructor <;> simp [NewKahnGraph, GoMap.WF, GoMap.keys]

theorem reachable_wf_inv (g : KahnGraph) (h : Reachable g) : WF g ∧ Inv g := by
  induction h with
  | empty => exact ⟨wf_empty, inv_empty⟩
  | step a b _ ih => exact ⟨addEdge_wf _ a b ih.1, addEdge_inv _ a b ih.2⟩

theorem addEdge_edge (g : KahnGraph) (a b u v : String) :
    Edge (addEdge g a b) u v ↔ EdgePlus g a b u v := by
  unfold EdgePlus Edge
  rw [addEdge_edges, GoMap.getD_set]
  by_cases h : a = u
  · subst h
    simp only [if_true, List.mem_append, List.mem_singleton, true_and]
  · simp only [h, if_false]
    constructor
    · intro h1; exact Or.inl h1
    · rintro (h1 | ⟨h1, _⟩)
      · exact h1
      · exact absurd h1.symm h

theorem hasCycleRel_congr {R S : String → String → Prop} (h : ∀ u v, R u v ↔ S u v) :
    HasCycleRel R ↔ HasCycleRel S := by
  constructor
  · rintro ⟨n, hn⟩
    exact ⟨n, Relation.TransGen.mono (fun u v => (h u v).1) hn⟩
  · rintro ⟨n, hn⟩
    exact ⟨n, Relation.TransGen.mono (fun u v => (h u v).2) hn⟩

theorem addEdgeAndCheckCycle_correct (g : KahnGraph) (hwf : WF g) (hinv : Inv g)
    (a b : String) :
    ∃ r, (AddEdgeAndCheckCycle g a b).2 = some r ∧
      (r = true ↔ HasCycleRel (EdgePlus g a b)) := by
  obtain ⟨r, h1, h2⟩ := hasCycle_correct (addEdge g a b) (addEdge_wf g a b hwf)
    (addEdge_inv g a b hinv)
  refine ⟨r, h1, ?_⟩
  rw [h2]
  exact hasCycleRel_congr (addEdge_edge g a b)

/-! ## Consequences for sequences of insertions -/

/-! ### Paths through one more edge -/

theorem transGen_edgePlus (g : KahnGraph) (a b x y : String)
    (h : Relation.TransGen (EdgePlus g a b) x y) :
    Relation.TransGen (Edge g) x y ∨
      (Relation.ReflTransGen (Edge g) x a ∧ Relation.ReflTransGen (Edge g) b y) := by
  induction h with
  | single h1 =>
    rcases h1 with h1 | ⟨h1, h2⟩
    · exact Or.inl (Relation.TransGen.single h1)
    · subst h1; subst h2
      exact Or.inr ⟨Relation.ReflTransGen.refl, Relation.ReflTransGen.refl⟩
  | tail _ h2 ih =>
    rcases h2 with h2 | ⟨h2, h3⟩
    · rcases ih with ih | ⟨ih1, ih2⟩
      · exact Or.inl (Relation.TransGen.tail ih h2)
      · exact Or.inr ⟨ih1, Relation.ReflTransGen.tail ih2 h2⟩
    · subst h2; subst h3
      rcases ih with ih | ⟨ih1, _⟩
      · exact Or.inr ⟨ih.to_reflTransGen, Relation.ReflTransGen.refl⟩
      · exact Or.inr ⟨ih1, Relation.ReflTransGen.refl⟩

theorem no_cycle_edgePlus (g : KahnGraph) (a b : String) (hacyc : ¬ HasCycle g)
    (hab : a ≠ b) (hpath : ¬ Relation.TransGen (Edge g) b a) :
    ¬ HasCycleRel (EdgePlus g a b) := by
  rintro ⟨n, hn⟩
  rcases transGen_edgePlus g a b n n hn with h | ⟨h1, h2⟩
  · exact hacyc ⟨n, h⟩
  · rcases Relation.reflTransGen_iff_eq_or_transGen.1 (h2.trans h1) with h | h
    · exact hab h
    · exact hpath h

theorem result_false_of_acyclic (g : KahnGraph) (hwf : WF g) (hinv : Inv g) (a b : String)
    (h : ¬ HasCycleRel (EdgePlus g a b)) : (AddEdgeAndCheckCycle g a b).2 = some false := by
  obtain ⟨r, h1, h2⟩ := addEdgeAndCheckCycle_correct g hwf hinv a b
  cases r with
  | false => exact h1
  | true => exact absurd (h2.1 rfl) h

theorem result_true_of_cyclic (g : KahnGraph) (hwf : WF g) (hinv : Inv g) (a b : String)
    (h : HasCycleRel (EdgePlus g a b)) : (AddEdgeAndCheckCycle g a b).2 = some true := by
  obtain ⟨r, h1, h2⟩ := addEdgeAndCheckCycle_correct g hwf hinv a b
  rw [h1, h2.2 h]

theorem cyclic_of_result_true (g : KahnGraph) (hwf : WF g) (hinv : Inv g) (a b : String)
    (h : (AddEdgeAndCheckCycle g a b).2 = some true) : HasCycleRel (EdgePlus g a b) := by
  obtain ⟨r, h1, h2⟩ := addEdgeAndCheckCycle_correct g hwf hinv a b
  rw [h1] at h
  exact h2.1 (Option.some.inj h)

theorem acyclic_of_result_false (g : KahnGraph) (hwf : WF g) (hinv : Inv g) (a b : String)
    (h : (AddEdgeAndCheckCycle g a b).2 = some false) : ¬ HasCycleRel (EdgePlus g a b) := by
  obtain ⟨r, h1, h2⟩ := addEdgeAndCheckCycle_correct g hwf hinv a b
  rw [h1] at h
  intro hc
  have := h2.2 hc
  rw [this] at h
  exact absurd (Option.some.inj h) (by decide)

theorem addEdgeAndCheckCycle_fst (g : KahnGraph) (a b : String) :
    (AddEdgeAndCheckCycle g a b).1 = addEdge g a b := rfl

/-! ### Sequences of insertions -/

theorem insertAll_inv (es : List (String × String)) (g : KahnGraph) (hwf : WF g)
    (hinv : Inv g) : WF (insertAll g es).1 ∧ Inv (insertAll g es).1 := by
  induction es generalizing g with
  | nil => exact ⟨hwf, hinv⟩
  | cons e t ih =>
    obtain ⟨a, b⟩ := e
    exact ih _ (addEdge_wf g a b hwf) (addEdge_inv g a b hinv)

theorem insertAll_edge (es : List (String × String)) (g : KahnGraph) (u v : String) :
    Edge (insertAll g es).1 u v ↔ Edge g u v ∨ (u, v) ∈ es := by
  induction es generalizing g with
  | nil => simp [insertAll]
  | cons e t ih =>
    obtain ⟨a, b⟩ := e
    simp only [insertAll]
    rw [ih, addEdgeAndCheckCycle_fst, addEdge_edge]
    unfold EdgePlus
    simp only [List.mem_cons, Prod.mk.injEq]
    tauto

theorem insertAll_results (es : List (String × String)) (g : KahnGraph) (hwf : WF g)
    (hinv : Inv g) (h : ¬ HasCycleRel (fun u v => Edge g u v ∨ (u, v) ∈ es)) :
    (insertAll g es).2 = List.replicate es.length (some false) := by
  induction es generalizing g with
  | nil => rfl
  | cons e t ih =>
    obtain ⟨a, b⟩ := e
    have h1 : (AddEdgeAndCheckCycle g a b).2 = some false := by
      apply result_false_of_acyclic g hwf hinv
      rintro ⟨n, hn⟩
      apply h
      refine ⟨n, Relation.TransGen.mono ?_ hn⟩
      rintro x y (hxy | ⟨hx, hy⟩)
      · exact Or.inl hxy
      · exact Or.inr (by simp [hx, hy])
    have h2 := ih (AddEdgeAndCheckCycle g a b).1 (addEdge_wf g a b hwf) (addEdge_inv g a b hinv)
      (by
        rintro ⟨n, hn⟩
        apply h
        refine ⟨n, Relation.TransGen.mono ?_ hn⟩
        intro x y hxy
        rw [addEdgeAndCheckCycle_fst, addEdge_edge] at hxy
        rcases hxy with (hxy | ⟨hx, hy⟩) | hxy
        · exact Or.inl hxy
        · exact Or.inr (by simp [hx, hy])
        · exact Or.inr (List.mem_cons_of_mem _ hxy))
    simp only [insertAll, h1, h2, List.length_cons, List.replicate_succ]

theorem not_edge_empty (u v : String) : ¬ Edge NewKahnGraph u v := by
  simp [Edge, NewKahnGraph, GoMap.getD, GoMap.get?]

/-! ### Paths -/

theorem pathEdges_mem (ns : List String) (u v : String) (h : (u, v) ∈ pathEdges ns) :
    u ∈ ns ∧ v ∈ ns := by
  induction ns with
  | nil => simp [pathEdges] at h
  | cons a t ih =>
    cases t with
    | nil => simp [pathEdges] at h
    | cons b t' =>
      simp only [pathEdges, List.mem_cons, Prod.mk.injEq] at h
      rcases h with ⟨h1, h2⟩ | h
      · subst h1; subst h2; simp
      · have := ih h
        exact ⟨List.mem_cons_of_mem _ this.1, List.mem_cons_of_mem _ this.2⟩

theorem pathEdges_length (a : String) (t : List String) :
    (pathEdges (a :: t)).length = t.length := by
  induction t generalizing a with
  | nil => rfl
  | cons b t' ih => simp [pathEdges, ih]

theorem pathEdges_rank (ns : List String) (hnd : ns.Nodup) (u v : String)
    (h : (u, v) ∈ pathEdges ns) : ns.indexOf u < ns.indexOf v := by
  induction ns with
  | nil => simp [pathEdges] at h
  | cons a t ih =>
    cases t with
    | nil => simp [pathEdges] at h
    | cons b t' =>
      have hnd' := List.nodup_cons.1 hnd
      simp only [pathEdges, List.mem_cons, Prod.mk.injEq] at h
      rcases h with ⟨h1, h2⟩ | h
      · subst h1; subst h2
        have hne : v ≠ u := fun h => hnd'.1 (h ▸ List.mem_cons_self _ _)
        rw [List.indexOf_cons_self, List.indexOf_cons_ne _ (Ne.symm hne)]
        exact Nat.succ_pos _
      · have hm := pathEdges_mem _ u v h
        have hu : a ≠ u := fun h' => hnd'.1 (h' ▸ hm.1)
        have hv : a ≠ v := fun h' => hnd'.1 (h' ▸ hm.2)
        rw [List.indexOf_cons_ne _ hu, List.indexOf_cons_ne _ hv]
        exact Nat.succ_lt_succ (ih hnd'.2 h)

theorem pathEdges_acyclic (ns : List String) (hnd : ns.Nodup) :
    ¬ HasCycleRel (fun u v => (u, v) ∈ pathEdges ns) := by
  rintro ⟨n, hn⟩
  have key : ∀ x y, Relation.TransGen (fun u v => (u, v) ∈ pathEdges ns) x y →
      ns.indexOf x < ns.indexOf y := by
    intro x y hxy
    induction hxy with
    | single h => exact pathEdges_rank ns hnd _ _ h
    | tail _ h ih => exact lt_trans ih (pathEdges_rank ns hnd _ _ h)
  exact lt_irrefl _ (key n n hn)

theorem pathEdges_connects (a : String) (t : List String) (hne : t ≠ []) :
    Relation.TransGen (fun u v => (u, v) ∈ pathEdges (a :: t)) a (t.getLast hne) := by
  induction t generalizing a with
  | nil => exact absurd rfl hne
  | cons b t' ih =>
    cases t' with
    | nil =>
      apply Relation.TransGen.single
      simp [pathEdges]
    | cons c t'' =>
      have h1 := ih b (by simp)
      have h2 : Relation.TransGen (fun u v => (u, v) ∈ pathEdges (a :: b :: c :: t'')) b
          ((c :: t'').getLast (by simp)) :=
        Relation.TransGen.mono (fun x y hxy => by
          show (x, y) ∈ pathEdges (a :: b :: c :: t'')
          simp only [pathEdges, List.mem_cons] at hxy ⊢
          exact Or.inr hxy) h1
      have h3 : (b :: c :: t'').getLast hne = (c :: t'').getLast (by simp) := by
        simp [List.getLast_cons]
      rw [h3]
      exact Relation.TransGen.head (by simp [pathEdges]) h2

/-! ### Iteration order -/

theorem GoMap.get?_perm {V : Type} (m m' : GoMap V) (hwf : GoMap.WF m) (hperm : m'.Perm m)
    (k : String) : GoMap.get? m' k = GoMap.get? m k := by
  have hkeys : (GoMap.keys m').Perm (GoMap.keys m) := hperm.map Prod.fst
  have hwf' : GoMap.WF m' := hkeys.nodup_iff.2 hwf
  cases hg : GoMap.get? m k with
  | none =>
    rw [GoMap.get?_eq_none_iff] at hg ⊢
    exact fun h => hg (hkeys.subset h)
  | some v =>
    exact GoMap.get?_of_mem m' k v hwf' (hperm.symm.subset (GoMap.mem_of_get? m k v hg))

theorem wf_inv_perm (g : KahnGraph) (hwf : WF g) (hinv : Inv g) (indegree' : GoMap Int)
    (hperm : indegree'.Perm g.indegree) :
    WF { edges := g.edges, indegree := indegree' } ∧
      Inv { edges := g.edges, indegree := indegree' } := by
  have hkeys : (GoMap.keys indegree').Perm (GoMap.keys g.indegree) := hperm.map Prod.fst
  refine ⟨⟨hwf.1, hkeys.nodup_iff.2 hwf.2⟩, ?_, ?_⟩
  · intro n hn
    exact hkeys.symm.subset (hinv.1 n hn)
  · intro n hn
    have h1 := hinv.2 n (hkeys.subset hn)
    have h2 : GoMap.getD indegree' n 0 = GoMap.getD g.indegree n 0 := by
      unfold GoMap.getD
      rw [GoMap.get?_perm g.indegree indegree' hwf.2 hperm n]
    show GoMap.getD indegree' n 0 = _
    rw [h2, h1]
    rfl

theorem not_edge_selfLoopGraph_b (c : String) : ¬ Edge selfLoopGraph "b" c := by
  intro h
  have h0 : selfLoopGraph.edges.getD "b" [] = [] := by decide
  unfold Edge at h
  rw [h0] at h
  simp at h

theorem addEdge_twice_edges (g : KahnGraph) (a b : String) :
    (addEdge (addEdge g a b) a b).edges.getD a [] = g.edges.getD a [] ++ [b, b] := by
  rw [addEdge_edges, GoMap.getD_set, if_pos rfl, addEdge_edges, GoMap.getD_set, if_pos rfl]
  simp

/-! ## The loop finishes on every state -/

theorem positives_set (d : GoMap Int) (m : String) (v : Int) :
    positives (d.set m v) + (if 0 < d.getD m 0 then 1 else 0) =
      positives d + (if 0 < v then 1 else 0) := by
  induction d with
  | nil =>
    simp only [GoMap.set, GoMap.getD, GoMap.get?, Option.getD_none, lt_self_iff_false,
      if_false, positives, List.filter_cons, List.filter_nil]
    by_cases hv : 0 < v <;> simp [hv]
  | cons e t ih =>
    obtain ⟨k0, v0⟩ := e
    by_cases h0 : k0 = m
    · simp only [GoMap.set, GoMap.getD, GoMap.get?, h0, if_true, Option.getD_some, positives,
        List.filter_cons]
      by_cases hv : 0 < v <;> by_cases hv0 : 0 < v0 <;> simp [hv, hv0]
    · have hg : GoMap.getD ((k0, v0) :: t) m 0 = GoMap.getD t m 0 := by
        simp [GoMap.getD, GoMap.get?, h0]
      rw [hg]
      simp only [GoMap.set, h0, if_false]
      have h1 : ∀ l : GoMap Int, positives ((k0, v0) :: l) =
          positives l + (if 0 < v0 then 1 else 0) := by
        intro l
        simp only [positives, List.filter_cons]
        by_cases hv0 : 0 < v0 <;> simp [hv0]
      rw [h1, h1]
      omega

/-- One pass of the inner loop body keeps the number of entries above zero plus the length
of the queue. -/
theorem relax_measure (d : GoMap Int) (q : List String) (m : String) :
    positives (relax (d, q) m).1 + (relax (d, q) m).2.length = positives d + q.length := by
  have h := positives_set d m (d.getD m 0 - 1)
  rw [relax_fst, relax_snd]
  by_cases h1 : d.getD m 0 - 1 = 0
  · have h2 : 0 < d.getD m 0 := by omega
    have h3 : ¬ (0 : Int) < d.getD m 0 - 1 := by omega
    rw [if_pos h2, if_neg h3] at h
    rw [if_pos h1, List.length_append, List.length_singleton]
    omega
  · rw [if_neg h1]
    by_cases h2 : 0 < d.getD m 0
    · have h3 : (0 : Int) < d.getD m 0 - 1 := by omega
      rw [if_pos h2, if_pos h3] at h
      omega
    · have h3 : ¬ (0 : Int) < d.getD m 0 - 1 := by omega
      rw [if_neg h2, if_neg h3] at h
      omega

theorem relaxAll_measure (todo : List String) (d : GoMap Int) (q : List String) :
    positives (relaxAll d q todo).1 + (relaxAll d q todo).2.length =
      positives d + q.length := by
  induction todo generalizing d q with
  | nil => rfl
  | cons m t ih => rw [relaxAll_cons, ih, relax_measure]

/-- The loop finishes, for every clone and queue, when the fuel covers the entries above
zero and the queued nodes. -/
theorem kahnLoopWith_total (disc : List String → List String) (hdisc : IsDiscipline disc)
    (edges : GoMap (List String)) (fuel : Nat) :
    ∀ (d : GoMap Int) (q : List String) (p : Nat), positives d + q.length ≤ fuel →
      ∃ r, kahnLoopWith disc edges fuel d q p = some r := by
  induction fuel with
  | zero =>
    intro d q p h
    have hq : q = [] := List.length_eq_zero.1 (by omega)
    subst hq
    have hd : disc [] = [] := List.Perm.eq_nil (hdisc [])
    exact ⟨_, kahnLoopWith_nil disc edges 0 d [] p hd⟩
  | succ fuel ih =>
    intro d q p h
    cases hq : disc q with
    | nil => exact ⟨_, kahnLoopWith_nil disc edges _ d q p hq⟩
    | cons u rest =>
      rw [kahnLoopWith_succ disc edges fuel d q p u rest hq]
      apply ih
      rw [relaxAll_measure]
      have hlen : (u :: rest).length = q.length := by
        rw [← hq]; exact (hdisc q).length_eq
      simp only [List.length_cons] at hlen
      omega

theorem cloneIndegree_length (m acc : GoMap Int) :
    (m.foldl (fun a e => GoMap.set a e.1 e.2) acc).length ≤ acc.length + m.length := by
  induction m generalizing acc with
  | nil => simp
  | cons e t ih =>
    simp only [List.foldl_cons, List.length_cons]
    have h1 := ih (GoMap.set acc e.1 e.2)
    have h2 : (GoMap.set acc e.1 e.2).length ≤ acc.length + 1 := by
      by_cases hk : e.1 ∈ GoMap.keys acc
      · have := GoMap.len_set_of_mem acc e.1 e.2 hk
        simp only [GoMap.len] at this
        omega
      · rw [GoMap.set_of_not_mem acc e.1 e.2 hk]
        simp
    omega

theorem seed_measure (d : GoMap Int) : positives d + (seedQueue d).length ≤ d.length := by
  rw [seedQueue_eq]
  simp only [positives, List.length_map]
  induction d with
  | nil => simp
  | cons e t ih =>
    simp only [List.filter_cons, List.length_cons]
    by_cases h1 : 0 < e.2
    · have h2 : ¬ e.2 = 0 := by omega
      simp only [h1, h2, decide_True, decide_False, if_true, List.length_cons]
      simp only [Bool.false_eq_true, if_false]
      omega
    · by_cases h2 : e.2 = 0
      · simp only [h1, h2, decide_True, decide_False, if_true, List.length_cons]
        simp only [Bool.false_eq_true, if_false, lt_self_iff_false, decide_False] at *
        omega
      · simp only [h1, h2, decide_False, Bool.false_eq_true, if_false]
        omega

/-- The check finishes on every state, under every queue discipline. -/
theorem hasCycleWith_total (disc : List String → List String) (hdisc : IsDiscipline disc)
    (g : KahnGraph) : ∃ r, hasCycleWith disc g = some r := by
  have h1 := seed_measure (cloneIndegree g.indegree)
  have h2 : (cloneIndegree g.indegree).length ≤ g.indegree.len := by
    have := cloneIndegree_length g.indegree []
    simpa [GoMap.len, cloneIndegree] using this
  obtain ⟨r, hr⟩ := kahnLoopWith_total disc hdisc g.edges g.indegree.len
    (cloneIndegree g.indegree) (seedQueue (cloneIndegree g.indegree)) 0 (by omega)
  refine ⟨r.1 != r.2.len, ?_⟩
  unfold hasCycleWith
  simp only [hr]

/-- The check finishes on every state. -/
theorem hasCycle_total (g : KahnGraph) : ∃ r, hasCycle g = some r := by
  rw [hasCycle_eq_with_id]
  exact hasCycleWith_total id isDiscipline_id g

/-! ## Counts, growth and later insertions -/

/-! ### Ranks, counts and growth -/

/-- A relation that strictly raises a rank has no cycle. -/
theorem acyclic_of_rank {R : String → String → Prop} (rank : String → Nat)
    (h : ∀ u v, R u v → rank u < rank v) : ¬ HasCycleRel R := by
  rintro ⟨n, hn⟩
  have key : ∀ x y, Relation.TransGen R x y → rank x < rank y := by
    intro x y hxy
    induction hxy with
    | single h1 => exact h _ _ h1
    | tail _ h1 ih => exact lt_trans ih (h _ _ h1)
  exact lt_irrefl _ (key n n hn)

theorem diamond_acyclic (a b c d : String) (hnd : [a, b, c, d].Nodup) :
    ¬ HasCycleRel (fun u v => Edge NewKahnGraph u v ∨ (u, v) ∈ diamondEdges a b c d) := by
  simp only [List.nodup_cons, List.mem_cons, List.mem_singleton, List.not_mem_nil,
    not_or, or_false, not_false_eq_true, List.nodup_nil, and_true] at hnd
  obtain ⟨⟨hab, hac, had⟩, ⟨hbc, hbd⟩, hcd⟩ := hnd
  apply acyclic_of_rank
    (fun x => if x = a then 0 else if x = c then 1 else if x = d then 2 else 3)
  rintro u v (h | h)
  · exact absurd h (not_edge_empty u v)
  · simp only [diamondEdges, List.mem_cons, Prod.mk.injEq, List.mem_singleton,
      List.not_mem_nil, or_false] at h
    rcases h with ⟨h1, h2⟩ | ⟨h1, h2⟩ | ⟨h1, h2⟩ | ⟨h1, h2⟩ <;> subst h1 <;> subst h2
    · simp [Ne.symm hab, hbc, hbd]
    · simp [Ne.symm hac]
    · simp [Ne.symm hac, Ne.symm hcd, Ne.symm had]
    · simp [Ne.symm had, Ne.symm hcd, Ne.symm hab, hbc, hbd]

theorem len_set {V : Type} (m : GoMap V) (k : String) (v : V) :
    GoMap.len (GoMap.set m k v) = GoMap.len m + if GoMap.contains m k then 0 else 1 := by
  by_cases hk : k ∈ GoMap.keys m
  · rw [GoMap.len_set_of_mem m k v hk, if_pos ((GoMap.contains_iff m k).2 hk)]
    rfl
  · have hc : ¬ GoMap.contains m k = true := fun h => hk ((GoMap.contains_iff m k).1 h)
    rw [GoMap.set_of_not_mem m k v hk, if_neg hc]
    simp [GoMap.len]

theorem addEdge_nodeCount (g : KahnGraph) (a b : String) :
    nodeCount (addEdge g a b) = nodeCount g + newNodes g a b := by
  unfold nodeCount newNodes addEdge
  dsimp only
  have hcont : GoMap.contains (GoMap.set g.indegree b (g.indegree.getD b 0 + 1)) a =
      (GoMap.contains g.indegree a || decide (a = b)) := by
    unfold GoMap.contains
    rw [GoMap.get?_set]
    by_cases hab : b = a
    · subst hab; simp
    · have hab' : ¬ a = b := fun h => hab h.symm
      simp [hab, hab']
  by_cases hc : (GoMap.contains g.indegree a || decide (a = b)) = true
  · rw [if_pos (hcont ▸ hc), if_pos hc, len_set]
    omega
  · rw [if_neg (fun h => hc (hcont ▸ h)), if_neg hc, len_set, len_set, if_neg (fun h => hc (hcont ▸ h))]
    omega

theorem sum_length_set (m : GoMap (List String)) (a b : String) :
    ((GoMap.set m a (GoMap.getD m a [] ++ [b])).map (fun e => e.2.length)).sum =
      (m.map (fun e => e.2.length)).sum + 1 := by
  induction m with
  | nil => simp [GoMap.set, GoMap.getD, GoMap.get?]
  | cons e0 t ih =>
    obtain ⟨k0, v0⟩ := e0
    by_cases h0 : k0 = a
    · simp only [GoMap.set, GoMap.getD, GoMap.get?, h0, if_true, Option.getD_some,
        List.map_cons, List.sum_cons, List.length_append, List.length_singleton]
      omega
    · have hg : GoMap.getD ((k0, v0) :: t) a [] = GoMap.getD t a [] := by
        simp [GoMap.getD, GoMap.get?, h0]
      rw [hg]
      simp only [GoMap.set, h0, if_false, List.map_cons, List.sum_cons, ih]
      omega

theorem addEdge_edgeCount (g : KahnGraph) (a b : String) :
    edgeCount (addEdge g a b) = edgeCount g + 1 := by
  unfold edgeCount
  rw [addEdge_edges, sum_length_set]

theorem addEdge_getD_extends (g : KahnGraph) (a b k : String) :
    g.edges.getD k [] <+: (addEdge g a b).edges.getD k [] := by
  rw [addEdge_edges, GoMap.getD_set]
  by_cases h : a = k
  · subst h
    rw [if_pos rfl]
    exact List.prefix_append _ _
  · rw [if_neg h]

theorem newNodes_le (g : KahnGraph) (a b : String) : newNodes g a b ≤ 2 := by
  unfold newNodes
  split <;> split <;> omega

/-! ### Later insertions -/

theorem insertAll_results_true (es : List (String × String)) (g : KahnGraph) (hwf : WF g)
    (hinv : Inv g) (h : HasCycle g) :
    (insertAll g es).2 = List.replicate es.length (some true) := by
  induction es generalizing g with
  | nil => rfl
  | cons e t ih =>
    obtain ⟨a, b⟩ := e
    have hc : HasCycleRel (EdgePlus g a b) := by
      obtain ⟨n, hn⟩ := h
      exact ⟨n, Relation.TransGen.mono (fun _ _ hxy => Or.inl hxy) hn⟩
    have h1 := result_true_of_cyclic g hwf hinv a b hc
    have h2 := ih (AddEdgeAndCheckCycle g a b).1 (addEdge_wf g a b hwf) (addEdge_inv g a b hinv)
      ((hasCycleRel_congr (addEdge_edge g a b)).2 hc)
    simp only [insertAll, h1, h2, List.length_cons, List.replicate_succ]

theorem hasCycle_insertAll_congr (es1 es2 : List (String × String))
    (h : ∀ e, e ∈ es1 ↔ e ∈ es2) :
    hasCycle (insertAll NewKahnGraph es1).1 = hasCycle (insertAll NewKahnGraph es2).1 := by
  have hI1 := insertAll_inv es1 NewKahnGraph wf_empty inv_empty
  have hI2 := insertAll_inv es2 NewKahnGraph wf_empty inv_empty
  obtain ⟨r1, h1, h1'⟩ := hasCycle_correct _ hI1.1 hI1.2
  obtain ⟨r2, h2, h2'⟩ := hasCycle_correct _ hI2.1 hI2.2
  have hrel : HasCycle (insertAll NewKahnGraph es1).1 ↔
      HasCycle (insertAll NewKahnGraph es2).1 := by
    apply hasCycleRel_congr
    intro u v
    rw [insertAll_edge, insertAll_edge, h (u, v)]
  have h4 : r1 = true ↔ r2 = true := by rw [h1', hrel, h2']
  rw [h1, h2, Bool.eq_iff_iff.2 h4]

/-! ## The record of a run -/

theorem kahnLoopLog_nil (edges : GoMap (List String)) (fuel : Nat) (d : GoMap Int) :
    kahnLoopLog edges fuel d [] =
      some { dequeued := [], enqueued := [], decrements := 0, snapshots := [], final := d } := by
  cases fuel <;> rfl

theorem kahnLoop_nil (edges : GoMap (List String)) (fuel : Nat) (d : GoMap Int) (p : Nat) :
    kahnLoop edges fuel d [] p = some (p, d) := by
  cases fuel <;> rfl

/-- The loop with the record computes the result of the loop of the source. -/
theorem kahnLoop_eq_log (edges : GoMap (List String)) (fuel : Nat) :
    ∀ (d : GoMap Int) (q : List String) (p : Nat),
      kahnLoop edges fuel d q p =
        (kahnLoopLog edges fuel d q).map (fun r => (p + r.dequeued.length, r.final)) := by
  induction fuel with
  | zero =>
    intro d q p
    cases q with
    | nil => rfl
    | cons u rest => rfl
  | succ fuel ih =>
    intro d q p
    cases q with
    | nil => rfl
    | cons u rest =>
      simp only [kahnLoop, kahnLoopLog]
      rw [ih]
      cases kahnLoopLog edges fuel (relaxAll d rest (edges.getD u [])).1
          (relaxAll d rest (edges.getD u [])).2 with
      | none => rfl
      | some r =>
        simp only [Option.map_some', List.length_cons]
        congr 2
        omega

theorem hasCycle_eq_log (g : KahnGraph) :
    hasCycle g = (hasCycleLog g).map (fun r => r.dequeued.length != r.final.len) := by
  unfold hasCycle hasCycleFuel hasCycleLog
  simp only [kahnLoop_eq_log]
  cases kahnLoopLog g.edges g.indegree.len (cloneIndegree g.indegree)
      (seedQueue (cloneIndegree g.indegree)) with
  | none => rfl
  | some r => simp

theorem relaxAll_queue_extends (todo : List String) (d : GoMap Int) (q : List String) :
    q <+: (relaxAll d q todo).2 := by
  induction todo generalizing d q with
  | nil => exact List.prefix_refl _
  | cons m t ih =>
    rw [relaxAll_cons]
    refine List.IsPrefix.trans ?_ (ih _ _)
    rw [relax_snd]
    split
    · exact List.prefix_append _ _
    · exact List.prefix_refl _

/-- The inner loop on an arbitrary clone: the queue stays free of repetitions and holds
only nodes whose count is not above zero. -/
theorem relaxAll_queue_gen (todo : List String) (d : GoMap Int) (q : List String)
    (hnd : q.Nodup) (hq : ∀ n ∈ q, d.getD n 0 ≤ 0) :
    (relaxAll d q todo).2.Nodup ∧
      (∀ n ∈ (relaxAll d q todo).2, (relaxAll d q todo).1.getD n 0 ≤ 0) ∧
      (∀ n ∈ (relaxAll d q todo).2, n ∈ q ∨ 0 < d.getD n 0) := by
  induction todo generalizing d q with
  | nil => exact ⟨hnd, hq, fun n hn => Or.inl hn⟩
  | cons m t ih =>
    have hd' : ∀ n, (relax (d, q) m).1.getD n 0 =
        if m = n then d.getD m 0 - 1 else d.getD n 0 := by
      intro n; rw [relax_fst, GoMap.getD_set]
    have hle : ∀ n, (relax (d, q) m).1.getD n 0 ≤ d.getD n 0 := by
      intro n
      rw [hd']
      split
      · rename_i h; subst h; omega
      · exact le_refl _
    have hmem : ∀ n ∈ (relax (d, q) m).2, n ∈ q ∨ (n = m ∧ d.getD m 0 - 1 = 0) := by
      intro n hn
      rw [relax_snd] at hn
      split at hn
      · rename_i h0
        rcases List.mem_append.1 hn with h | h
        · exact Or.inl h
        · exact Or.inr ⟨List.mem_singleton.1 h, h0⟩
      · exact Or.inl hn
    have hnd' : (relax (d, q) m).2.Nodup := by
      rw [relax_snd]
      split
      · rename_i h0
        rw [List.nodup_append]
        refine ⟨hnd, List.nodup_singleton _, ?_⟩
        intro x hx hx'
        simp only [List.mem_singleton] at hx'
        subst hx'
        have := hq x hx
        omega
      · exact hnd
    have hq' : ∀ n ∈ (relax (d, q) m).2, (relax (d, q) m).1.getD n 0 ≤ 0 := by
      intro n hn
      rcases hmem n hn with h | ⟨h1, h2⟩
      · exact le_trans (hle n) (hq n h)
      · subst h1
        rw [hd', if_pos rfl]
        omega
    obtain ⟨ih1, ih2, ih3⟩ := ih _ _ hnd' hq'
    rw [relaxAll_cons]
    refine ⟨ih1, ih2, ?_⟩
    intro n hn
    rcases ih3 n hn with h | h
    · rcases hmem n h with h1 | ⟨h1, h2⟩
      · exact Or.inl h1
      · subst h1
        right; omega
    · right
      exact lt_of_lt_of_le h (hle n)

theorem relaxAll_getD_le (todo : List String) (d : GoMap Int) (q : List String) (n : String) :
    (relaxAll d q todo).1.getD n 0 ≤ d.getD n 0 := by
  rw [relaxAll_getD]
  have := Int.ofNat_nonneg (todo.count n)
  omega

/-- On every clone and queue: what the record of a finished run says. -/
theorem kahnLoopLog_facts (edges : GoMap (List String)) (fuel : Nat) :
    ∀ (d : GoMap Int) (q : List String) (r : RunLog), kahnLoopLog edges fuel d q = some r →
      q ++ r.enqueued = r.dequeued ∧
      r.dequeued.length + positives r.final = positives d + q.length ∧
      r.decrements = (r.dequeued.map (fun u => (edges.getD u []).length)).sum ∧
      r.snapshots.length = r.decrements := by
  induction fuel with
  | zero =>
    intro d q r h
    cases q with
    | nil =>
      rw [kahnLoopLog_nil] at h
      cases h
      simp
    | cons u rest => simp [kahnLoopLog] at h
  | succ fuel ih =>
    intro d q r h
    cases q with
    | nil =>
      rw [kahnLoopLog_nil] at h
      cases h
      simp
    | cons u rest =>
      simp only [kahnLoopLog] at h
      cases hr : kahnLoopLog edges fuel (relaxAll d rest (edges.getD u [])).1
          (relaxAll d rest (edges.getD u [])).2 with
      | none => rw [hr] at h; simp at h
      | some r' =>
        rw [hr] at h
        simp only [Option.some.injEq] at h
        subst h
        obtain ⟨h1, h2, h3, h4⟩ := ih _ _ _ hr
        have hm := relaxAll_measure (edges.getD u []) d rest
        have hp := List.prefix_iff_eq_append.1 (relaxAll_queue_extends (edges.getD u []) d rest)
        have hsnap : ∀ (todo : List String) (d0 : GoMap Int) (q0 : List String),
            (relaxSnapshots d0 q0 todo).length = todo.length := by
          intro todo
          induction todo with
          | nil => intro _ _; rfl
          | cons m t iht => intro d0 q0; simp [relaxSnapshots, iht]
        refine ⟨?_, ?_, ?_, ?_⟩
        · simp only [List.cons_append, List.cons.injEq, true_and]
          rw [← List.append_assoc, hp, h1]
        · simp only [List.length_cons]
          omega
        · simp only [List.map_cons, List.sum_cons, h3]
        · simp only [List.length_append, hsnap, h4]

/-- On every clone and queue without repetitions whose nodes are not above zero: no node
is dequeued twice. -/
theorem kahnLoopLog_nodup (edges : GoMap (List String)) (fuel : Nat) :
    ∀ (d : GoMap Int) (q : List String) (r : RunLog), kahnLoopLog edges fuel d q = some r →
      q.Nodup → (∀ n ∈ q, d.getD n 0 ≤ 0) →
      r.dequeued.Nodup ∧ ∀ n ∈ r.dequeued, n ∈ q ∨ 0 < d.getD n 0 := by
  induction fuel with
  | zero =>
    intro d q r h hnd hq
    cases q with
    | nil =>
      rw [kahnLoopLog_nil] at h
      cases h
      simp
    | cons u rest => simp [kahnLoopLog] at h
  | succ fuel ih =>
    intro d q r h hnd hq
    cases q with
    | nil =>
      rw [kahnLoopLog_nil] at h
      cases h
      simp
    | cons u rest =>
      simp only [kahnLoopLog] at h
      cases hr : kahnLoopLog edges fuel (relaxAll d rest (edges.getD u [])).1
          (relaxAll d rest (edges.getD u [])).2 with
      | none => rw [hr] at h; simp at h
      | some r' =>
        rw [hr] at h
        simp only [Option.some.injEq] at h
        subst h
        have hnd' := List.nodup_cons.1 hnd
        have hu0 : d.getD u 0 ≤ 0 := hq u (List.mem_cons_self _ _)
        obtain ⟨g1, g2, g3⟩ := relaxAll_queue_gen (edges.getD u []) d rest hnd'.2
          (fun n hn => hq n (List.mem_cons_of_mem _ hn))
        obtain ⟨i1, i2⟩ := ih _ _ _ hr g1 g2
        have hle := relaxAll_getD_le (edges.getD u []) d rest
        have hsrc : ∀ n ∈ r'.dequeued, n ∈ rest ∨ 0 < d.getD n 0 := by
          intro n hn
          rcases i2 n hn with h | h
          · exact g3 n h
          · exact Or.inr (lt_of_lt_of_le h (hle n))
        refine ⟨List.nodup_cons.2 ⟨?_, i1⟩, ?_⟩
        · intro hmem
          rcases hsrc u hmem with h | h
          · exact hnd'.1 h
          · omega
        · intro n hn
          rcases List.mem_cons.1 hn with h | h
          · exact Or.inl (h ▸ List.mem_cons_self _ _)
          · rcases hsrc n h with h1 | h1
            · exact Or.inl (List.mem_cons_of_mem _ h1)
            · exact Or.inr h1

/-- The out-degrees of pairwise distinct nodes add up to at most the number of edges. -/
theorem sum_outdegree_le (m : GoMap (List String)) :
    ∀ S : Finset String, ∑ u in S, (GoMap.getD m u []).length ≤
      (m.map (fun e => e.2.length)).sum := by
  induction m with
  | nil =>
    intro S
    simp [GoMap.getD, GoMap.get?]
  | cons e t ih =>
    obtain ⟨k, v⟩ := e
    intro S
    have hne : ∀ u ∈ S.erase k, (GoMap.getD ((k, v) :: t) u []).length =
        (GoMap.getD t u []).length := by
      intro u hu
      have hk : ¬ k = u := fun h => (Finset.mem_erase.1 hu).1 h.symm
      simp [GoMap.getD, GoMap.get?, hk]
    have h2 : ∑ u in S.erase k, (GoMap.getD ((k, v) :: t) u []).length ≤
        (t.map (fun e => e.2.length)).sum := by
      rw [Finset.sum_congr rfl hne]
      exact ih _
    simp only [List.map_cons, List.sum_cons]
    by_cases hk : k ∈ S
    · rw [← Finset.add_sum_erase S _ hk]
      have : (GoMap.getD ((k, v) :: t) k []).length = v.length := by
        simp [GoMap.getD, GoMap.get?]
      omega
    · rw [Finset.erase_eq_of_not_mem hk] at h2
      omega

theorem decrements_le (g : KahnGraph) (D : List String) (hD : D.Nodup) :
    (D.map (fun u => (g.edges.getD u []).length)).sum ≤ edgeCount g := by
  rw [← List.sum_toFinset _ hD]
  exact sum_outdegree_le g.edges D.toFinset

theorem cloneIndegree_wf (m acc : GoMap Int) (h : GoMap.WF acc) :
    GoMap.WF (m.foldl (fun a e => GoMap.set a e.1 e.2) acc) := by
  induction m generalizing acc with
  | nil => exact h
  | cons e t ih => exact ih _ (GoMap.wf_set acc e.1 e.2 h)

/-- On every state: the run of the loop inside `hasCycle` finishes, and its record. -/
theorem hasCycleLog_facts (g : KahnGraph) :
    ∃ r, hasCycleLog g = some r ∧
      hasCycle g = some (r.dequeued.length != r.final.len) ∧
      seedQueue (cloneIndegree g.indegree) ++ r.enqueued = r.dequeued ∧
      r.dequeued.Nodup ∧ r.dequeued.length ≤ nodeCount g ∧
      r.decrements = (r.dequeued.map (fun u => (g.edges.getD u []).length)).sum ∧
      r.decrements ≤ edgeCount g := by
  obtain ⟨b, hb⟩ := hasCycle_total g
  have heq := hasCycle_eq_log g
  cases hr : hasCycleLog g with
  | none => rw [hr, hb] at heq; simp at heq
  | some r =>
    rw [hr] at heq
    have hwf : GoMap.WF (cloneIndegree g.indegree) :=
      cloneIndegree_wf g.indegree [] (by simp [GoMap.WF, GoMap.keys])
    obtain ⟨f1, f2, f3, _⟩ := kahnLoopLog_facts _ _ _ _ _ hr
    obtain ⟨n1, _⟩ := kahnLoopLog_nodup _ _ _ _ _ hr (seedQueue_nodup _ hwf)
      (fun n hn => le_of_eq ((mem_seedQueue _ hwf n).1 hn).2)
    have h1 := seed_measure (cloneIndegree g.indegree)
    have h2 : (cloneIndegree g.indegree).length ≤ g.indegree.len := by
      have := cloneIndegree_length g.indegree []
      simpa [GoMap.len, cloneIndegree] using this
    refine ⟨r, rfl, heq, f1, n1, ?_, f3, ?_⟩
    · unfold nodeCount; omega
    · rw [f3]; exact decrements_le g r.dequeued n1

/-! ## The record of a run under the invariant -/

/-- Under the loop invariant the decrements for a queued node stay within the counts. -/
theorem loopInv_count_le (g : KahnGraph) (hwf : WF g) (hinv : Inv g) (d : GoMap Int)
    (q : List String) (p : Nat) (P : Finset String) (hI : LoopInv g d q p P) (u : String)
    (hu : u ∈ q) (n : String) : (((g.edges.getD u []).count n : Nat) : Int) ≤ d.getD n 0 := by
  have huP : u ∉ P := (hI.qU u hu).2
  have hsub' : ∀ x ∈ insert u P, x ∈ g.indegree.keys := by
    intro x hx
    rcases Finset.mem_insert.1 hx with h | h
    · rw [h]; exact (hI.qU u hu).1
    · exact hI.sub x h
  have h1 := inflow_le g hwf hinv (insert u P) hsub' n
  rw [inflow_insert g P u n huP] at h1
  rw [hI.deg n]
  omega

/-- The clone between two decrements of the inner loop lies between the clone before the
loop and the clone after it. -/
theorem relaxSnapshots_between (todo : List String) (d : GoMap Int) (q : List String)
    (n : String) : ∀ d' ∈ relaxSnapshots d q todo,
      (relaxAll d q todo).1.getD n 0 ≤ d'.getD n 0 ∧ d'.getD n 0 ≤ d.getD n 0 := by
  induction todo generalizing d q with
  | nil => intro d' h; simp [relaxSnapshots] at h
  | cons m t ih =>
    intro d' h
    have hstep : (relax (d, q) m).1.getD n 0 ≤ d.getD n 0 := by
      rw [relax_fst, GoMap.getD_set]
      split
      · rename_i h0; subst h0; omega
      · exact le_refl _
    simp only [relaxSnapshots, List.mem_cons] at h
    rw [relaxAll_cons]
    rcases h with h | h
    · subst h
      exact ⟨relaxAll_getD_le t _ _ n, hstep⟩
    · obtain ⟨i1, i2⟩ := ih _ _ d' h
      exact ⟨i1, le_trans i2 hstep⟩

theorem relaxSnapshots_last (todo : List String) (d : GoMap Int) (q : List String) :
    (relaxAll d q todo).1 ∈ d :: relaxSnapshots d q todo := by
  induction todo generalizing d q with
  | nil => exact List.mem_cons_self _ _
  | cons m t ih =>
    rw [relaxAll_cons]
    simp only [relaxSnapshots]
    exact List.mem_cons_of_mem _ (ih _ _)

theorem relaxSnapshots_keys (todo : List String) (d : GoMap Int) (q : List String)
    (h : ∀ n ∈ todo, n ∈ d.keys) : ∀ d' ∈ relaxSnapshots d q todo, d'.keys = d.keys := by
  induction todo generalizing d q with
  | nil => intro d' h'; simp [relaxSnapshots] at h'
  | cons m t ih =>
    intro d' h'
    have hk : (relax (d, q) m).1.keys = d.keys := by
      rw [relax_fst]; exact GoMap.set_of_mem _ _ _ (h m (List.mem_cons_self _ _))
    simp only [relaxSnapshots, List.mem_cons] at h'
    rcases h' with h' | h'
    · rw [h', hk]
    · rw [ih _ _ (fun n hn => hk ▸ h n (List.mem_cons_of_mem _ hn)) d' h', hk]

/-- On every clone and queue: the counts only go down during a run, and the clone at the
end is the last value the clone took. -/
theorem kahnLoopLog_between (edges : GoMap (List String)) (fuel : Nat) (n : String) :
    ∀ (d : GoMap Int) (q : List String) (r : RunLog), kahnLoopLog edges fuel d q = some r →
      r.final ∈ d :: r.snapshots ∧
      ∀ d' ∈ d :: r.snapshots, r.final.getD n 0 ≤ d'.getD n 0 ∧ d'.getD n 0 ≤ d.getD n 0 := by
  induction fuel with
  | zero =>
    intro d q r h
    cases q with
    | nil =>
      rw [kahnLoopLog_nil] at h
      cases h
      simp
    | cons u rest => simp [kahnLoopLog] at h
  | succ fuel ih =>
    intro d q r h
    cases q with
    | nil =>
      rw [kahnLoopLog_nil] at h
      cases h
      simp
    | cons u rest =>
      simp only [kahnLoopLog] at h
      cases hr : kahnLoopLog edges fuel (relaxAll d rest (edges.getD u [])).1
          (relaxAll d rest (edges.getD u [])).2 with
      | none => rw [hr] at h; simp at h
      | some r' =>
        rw [hr] at h
        simp only [Option.some.injEq] at h
        subst h
        obtain ⟨i1, i2⟩ := ih _ _ _ hr
        have hlast := relaxSnapshots_last (edges.getD u []) d rest
        have hbet := relaxSnapshots_between (edges.getD u []) d rest n
        have hle := relaxAll_getD_le (edges.getD u []) d rest n
        have hfin := (i2 _ (List.mem_cons_self _ _)).1
        dsimp only
        constructor
        · rcases List.mem_cons.1 i1 with h | h
          · rw [h]
            rcases List.mem_cons.1 hlast with h' | h'
            · rw [h']; exact List.mem_cons_self _ _
            · exact List.mem_cons_of_mem _ (List.mem_append_left _ h')
          · exact List.mem_cons_of_mem _ (List.mem_append_right _ h)
        · intro d' hd'
          rcases List.mem_cons.1 hd' with h | h
          · rw [h]; exact ⟨le_trans hfin hle, le_refl _⟩
          · rcases List.mem_append.1 h with h1 | h1
            · obtain ⟨b1, b2⟩ := hbet d' h1
              exact ⟨le_trans hfin b1, b2⟩
            · obtain ⟨b1, b2⟩ := i2 d' (List.mem_cons_of_mem _ h1)
              exact ⟨b1, le_trans b2 hle⟩

/-- Under the loop invariant and with fuel for the nodes not dequeued yet: the run
finishes, the loop invariant holds at its end for the nodes dequeued before and during the
run, and every value of the clone during the run has the keys of the in-degree table. -/
theorem kahnLoopLog_spec (g : KahnGraph) (hwf : WF g) (hinv : Inv g) (fuel : Nat) :
    ∀ (d : GoMap Int) (q : List String) (p : Nat) (P : Finset String),
      LoopInv g d q p P → g.indegree.len ≤ fuel + p →
      ∃ r, kahnLoopLog g.edges fuel d q = some r ∧
        LoopInv g r.final [] (p + r.dequeued.length) (P ∪ r.dequeued.toFinset) ∧
        ∀ d' ∈ r.snapshots, d'.keys = g.indegree.keys := by
  induction fuel with
  | zero =>
    intro d q p P hI hfuel
    cases q with
    | nil =>
      refine ⟨_, kahnLoopLog_nil _ _ _, ?_, ?_⟩
      · simpa using hI
      · intro d' h; simp at h
    | cons u rest =>
      exfalso
      have huq : u ∈ u :: rest := List.mem_cons_self _ _
      have hsubset : insert u P ⊆ g.indegree.keys.toFinset := by
        intro x hx
        rcases Finset.mem_insert.1 hx with h | h
        · rw [h]; exact List.mem_toFinset.2 (hI.qU u huq).1
        · exact List.mem_toFinset.2 (hI.sub x h)
      have h1 := Finset.card_le_card hsubset
      rw [Finset.card_insert_of_not_mem (hI.qU u huq).2, hI.card] at h1
      have h2 : g.indegree.keys.toFinset.card ≤ g.indegree.len := by
        have := List.toFinset_card_le g.indegree.keys
        simpa [GoMap.keys, GoMap.len] using this
      omega
  | succ fuel ih =>
    intro d q p P hI hfuel
    cases q with
    | nil =>
      refine ⟨_, kahnLoopLog_nil _ _ _, ?_, ?_⟩
      · simpa using hI
      · intro d' h; simp at h
    | cons u rest =>
      have hstep := loopInv_step g hwf hinv d (u :: rest) p P u rest (List.Perm.refl _) hI
      obtain ⟨r', hr', hI', hs'⟩ := ih _ _ _ _ hstep (by omega)
      have hr : kahnLoopLog g.edges (fuel + 1) d (u :: rest) =
          some { dequeued := u :: r'.dequeued,
                 enqueued := (relaxAll d rest (g.edges.getD u [])).2.drop rest.length ++
                   r'.enqueued,
                 decrements := (g.edges.getD u []).length + r'.decrements,
                 snapshots := relaxSnapshots d rest (g.edges.getD u []) ++ r'.snapshots,
                 final := r'.final } := by
        simp only [kahnLoopLog, hr']
      refine ⟨_, hr, ?_, ?_⟩
      · have hset : insert u P ∪ r'.dequeued.toFinset =
            P ∪ (u :: r'.dequeued).toFinset := by
          rw [List.toFinset_cons, Finset.insert_union, Finset.union_insert]
        have hnum : p + 1 + r'.dequeued.length = p + (u :: r'.dequeued).length := by
          simp only [List.length_cons]; omega
        rw [hset, hnum] at hI'
        exact hI'
      · intro d' hd'
        rcases List.mem_append.1 hd' with h | h
        · rw [relaxSnapshots_keys _ _ _ ?_ d' h, hI.keys]
          intro n hn
          rw [hI.keys]
          exact edge_tgt_mem g hinv u n hn
        · exact hs' d' h

/-- On a well-formed state that satisfies the invariant: the run inside `hasCycle`
finishes, the loop invariant holds at its end for the set of the dequeued nodes, and every
value of the clone during the run has the keys of the in-degree table and no entry below
zero. -/
theorem hasCycleLog_spec (g : KahnGraph) (hwf : WF g) (hinv : Inv g) :
    ∃ r, hasCycleLog g = some r ∧
      LoopInv g r.final [] r.dequeued.length r.dequeued.toFinset ∧
      ∀ d' ∈ cloneIndegree g.indegree :: r.snapshots,
        d'.keys = g.indegree.keys ∧ ∀ n, 0 ≤ d'.getD n 0 := by
  obtain ⟨r, hr, hI, hs⟩ := kahnLoopLog_spec g hwf hinv g.indegree.len _ _ 0 ∅
    (loopInv_init g hwf hinv) (by omega)
  refine ⟨r, hr, by simpa using hI, ?_⟩
  have hI' : LoopInv g r.final [] r.dequeued.length r.dequeued.toFinset := by simpa using hI
  intro d' hd'
  constructor
  · rcases List.mem_cons.1 hd' with h | h
    · rw [h, cloneIndegree_eq _ hwf.2]
    · exact hs d' h
  · intro n
    have hfin : 0 ≤ r.final.getD n 0 := by
      have h1 := hI'.deg n
      have h2 := inflow_le g hwf hinv r.dequeued.toFinset hI'.sub n
      omega
    exact le_trans hfin ((kahnLoopLog_between _ _ n _ _ _ hr).2 d' hd').1

/-- At the end of the loop every node that was not dequeued has a predecessor that was
not dequeued. -/
theorem unprocessed_pred (g : KahnGraph) (hwf : WF g) (hinv : Inv g) (d : GoMap Int)
    (p : Nat) (P : Finset String) (hI : LoopInv g d [] p P) (n : String)
    (hn : n ∈ g.indegree.keys) (hnP : n ∉ P) :
    ∃ w, w ∈ g.indegree.keys ∧ w ∉ P ∧ Edge g w n := by
  have hsub : P ⊆ g.indegree.keys.toFinset := fun x hx => List.mem_toFinset.2 (hI.sub x hx)
  have hdn : d.getD n 0 ≠ 0 := by
    intro h0
    rcases (hI.zero n hn).1 h0 with h | h
    · simp at h
    · exact hnP h
  have hlt : inflow g P n ≠ occurrences g n := by
    intro h
    apply hdn
    rw [hI.deg n, h]
    simp
  by_contra hno
  apply hlt
  rw [occurrences_eq_inflow g hwf hinv n]
  unfold inflow
  apply Finset.sum_subset hsub
  intro w hwU hwP
  by_contra hc
  exact hno ⟨w, List.mem_toFinset.1 hwU, hwP, (edge_iff_count g w n).2 hc⟩

/-- At the end of the loop the predecessors of a dequeued node are dequeued. -/
theorem processed_pred (g : KahnGraph) (hwf : WF g) (hinv : Inv g) (d : GoMap Int)
    (p : Nat) (P : Finset String) (hI : LoopInv g d [] p P) (x y : String)
    (hxy : Relation.ReflTransGen (Edge g) x y) (hy : y ∈ P) : x ∈ P := by
  induction hxy with
  | refl => exact hy
  | @tail b c _ hbc ih =>
    apply ih
    have h0 : d.getD c 0 = 0 := (hI.zero c (hI.sub c hy)).2 (Or.inr hy)
    have heq : inflow g P c = occurrences g c := by
      have h1 := hI.deg c
      have h2 := inflow_le g hwf hinv P hI.sub c
      omega
    exact pred_mem_of_inflow_eq g hwf hinv P hI.sub c heq b hbc

/-- At the end of the loop the nodes that were not dequeued are the nodes on a cycle and
the nodes that a node of a cycle has a path to. -/
theorem unprocessed_iff_downstream (g : KahnGraph) (hwf : WF g) (hinv : Inv g)
    (d : GoMap Int) (p : Nat) (P : Finset String) (hI : LoopInv g d [] p P) (n : String)
    (hn : n ∈ g.indegree.keys) : n ∉ P ↔ DownstreamOfCycle g n := by
  constructor
  · intro hnP
    classical
    let A : Finset String := g.indegree.keys.toFinset.filter
      (fun x => x ∉ P ∧ Relation.ReflTransGen (Edge g) x n)
    have hA : ∀ x, x ∈ A ↔ x ∈ g.indegree.keys ∧ x ∉ P ∧
        Relation.ReflTransGen (Edge g) x n := by
      intro x
      simp only [A, Finset.mem_filter, List.mem_toFinset]
    have hne : A.Nonempty := ⟨n, (hA n).2 ⟨hn, hnP, Relation.ReflTransGen.refl⟩⟩
    have hpred : ∀ x ∈ A, ∃ w ∈ A, (fun u v => Edge g u v ∧ u ∈ A) w x := by
      intro x hx
      obtain ⟨hx1, hx2, hx3⟩ := (hA x).1 hx
      obtain ⟨w, hw1, hw2, hw3⟩ := unprocessed_pred g hwf hinv d p P hI x hx1 hx2
      have hwA : w ∈ A := (hA w).2 ⟨hw1, hw2, Relation.ReflTransGen.head hw3 hx3⟩
      exact ⟨w, hwA, hw3, hwA⟩
    obtain ⟨c, hc⟩ := exists_cycle_of_pred A hne hpred
    obtain ⟨b, hcb, _⟩ := Relation.TransGen.head'_iff.1 hc
    exact ⟨c, Relation.TransGen.mono (fun _ _ h => h.1) hc, ((hA c).1 hcb.2).2.2⟩
  · rintro ⟨c, hc, hcn⟩ hnP
    exact hI.acyc c (processed_pred g hwf hinv d p P hI c n hcn hnP) hc

/-! ## Concrete graphs and node counts -/

theorem insertAll_reachable (es : List (String × String)) (g : KahnGraph) (h : Reachable g) :
    Reachable (insertAll g es).1 := by
  induction es generalizing g with
  | nil => exact h
  | cons e t ih =>
    obtain ⟨a, b⟩ := e
    exact ih _ (Reachable.step a b h)

theorem not_edge_upstreamGraph_c (x : String) : ¬ Edge upstreamGraph "c" x := by
  intro h
  have h0 : upstreamGraph.edges.getD "c" [] = [] := by decide
  unfold Edge at h
  rw [h0] at h
  simp at h

theorem newNodes_eq (g : KahnGraph) (a b : String) :
    newNodes g a b = (([a, b].dedup).filter (fun x => !g.indegree.contains x)).length := by
  unfold newNodes
  by_cases hab : a = b
  · subst hab
    simp only [decide_True, Bool.or_true, if_true, add_zero]
    have : [a, a].dedup = [a] := by simp [List.dedup_cons_of_mem]
    rw [this]
    by_cases hc : GoMap.contains g.indegree a = true <;> simp [hc]
  · have : [a, b].dedup = [a, b] := by
      apply List.Nodup.dedup
      simp [hab]
    rw [this]
    by_cases hc : GoMap.contains g.indegree a = true <;>
      by_cases hc' : GoMap.contains g.indegree b = true <;> simp [hc, hc', hab]

theorem diamond_indegree (a b c d : String) (hnd : [a, b, c, d].Nodup) :
    (insertAll NewKahnGraph (diamondEdges a b c d)).1.indegree.getD b 0 = 2 := by
  simp only [List.nodup_cons, List.mem_cons, List.mem_singleton, List.not_mem_nil,
    not_or, or_false, not_false_eq_true, List.nodup_nil, and_true] at hnd
  obtain ⟨⟨hab, hac, had⟩, ⟨hbc, hbd⟩, hcd⟩ := hnd
  simp only [diamondEdges, insertAll, addEdgeAndCheckCycle_fst, addEdge_indegree_getD]
  simp [NewKahnGraph, GoMap.getD, GoMap.get?, Ne.symm hbc, Ne.symm hbd]

/-! ## The Go values and the graph states -/

theorem inv_iff_checkInv (g : KahnGraph) : Inv g ↔ checkInv g = true := by
  unfold Inv checkInv
  simp only [Bool.and_eq_true, List.all_eq_true, decide_eq_true_eq]
  constructor
  · rintro ⟨h1, h2⟩
    exact ⟨⟨fun n hn => h1 n (Or.inl hn), fun e he n hn => h1 n (Or.inr ⟨e, he, hn⟩)⟩, h2⟩
  · rintro ⟨⟨h1, h2⟩, h3⟩
    refine ⟨?_, h3⟩
    rintro n (hn | ⟨e, he, hn⟩)
    · exact h1 n hn
    · exact h2 e he n hn

theorem wrapInt64_eq (x : Int) (h1 : -(2 ^ 63) ≤ x) (h2 : x < 2 ^ 63) : wrapInt64 x = x := by
  unfold wrapInt64
  norm_num at h1 h2 ⊢
  omega

theorem map_set_comm {V W : Type} (f : V → W) (m : GoMap V) (k : String) (v : V) :
    (GoMap.set m k v).map (fun e => (e.1, f e.2)) =
      GoMap.set (m.map (fun e => (e.1, f e.2))) k (f v) := by
  induction m with
  | nil => rfl
  | cons e t ih =>
    obtain ⟨k0, v0⟩ := e
    by_cases h : k0 = k
    · simp [GoMap.set, h]
    · simp only [GoMap.set, h, if_false, List.map_cons]
      rw [ih]

theorem map_get? {V W : Type} (f : V → W) (m : GoMap V) (k : String) :
    GoMap.get? (m.map (fun e => (e.1, f e.2))) k = (GoMap.get? m k).map f := by
  induction m with
  | nil => rfl
  | cons e t ih =>
    obtain ⟨k0, v0⟩ := e
    by_cases h : k0 = k
    · simp [GoMap.get?, h]
    · simp only [GoMap.get?, h, if_false, List.map_cons]
      exact ih

theorem mem_set_gen {V : Type} (m : GoMap V) (k : String) (v : V) (e : String × V)
    (h : e ∈ GoMap.set m k v) : e ∈ m ∨ e = (k, v) := by
  induction m with
  | nil =>
    simp only [GoMap.set, List.mem_singleton] at h
    exact Or.inr h
  | cons e0 t ih =>
    obtain ⟨k0, v0⟩ := e0
    by_cases h0 : k0 = k
    · simp only [GoMap.set, h0, if_true, List.mem_cons] at h
      rcases h with h | h
      · exact Or.inr h
      · exact Or.inl (List.mem_cons_of_mem _ h)
    · simp only [GoMap.set, h0, if_false, List.mem_cons] at h
      rcases h with h | h
      · exact Or.inl (h ▸ List.mem_cons_self _ _)
      · rcases ih h with h1 | h1
        · exact Or.inl (List.mem_cons_of_mem _ h1)
        · exact Or.inr h1

theorem map_arr_set_same (m : GoMap GoSlice) (k : String) (s v : GoSlice)
    (hs : GoMap.get? m k = some s) (hv : v.arr = s.arr) :
    (GoMap.set m k v).map (fun e => e.2.arr) = m.map (fun e => e.2.arr) := by
  induction m with
  | nil => simp [GoMap.get?] at hs
  | cons e t ih =>
    obtain ⟨k0, v0⟩ := e
    by_cases h : k0 = k
    · simp only [GoMap.get?, h, if_true, Option.some.injEq] at hs
      subst hs
      simp [GoMap.set, h, hv]
    · simp only [GoMap.get?, h, if_false] at hs
      simp only [GoMap.set, h, if_false, List.map_cons, ih hs]

theorem nodup_arr_set_fresh (m : GoMap GoSlice) (k : String) (v : GoSlice)
    (hnd : (m.map (fun e => e.2.arr)).Nodup) (hfresh : ∀ e ∈ m, e.2.arr ≠ v.arr) :
    ((GoMap.set m k v).map (fun e => e.2.arr)).Nodup := by
  induction m with
  | nil => simp [GoMap.set]
  | cons e t ih =>
    obtain ⟨k0, v0⟩ := e
    simp only [List.map_cons, List.nodup_cons] at hnd
    by_cases h : k0 = k
    · simp only [GoMap.set, h, if_true, List.map_cons, List.nodup_cons]
      refine ⟨?_, hnd.2⟩
      intro hmem
      obtain ⟨e, he, heq⟩ := List.mem_map.1 hmem
      exact hfresh e (List.mem_cons_of_mem _ he) heq
    · simp only [GoMap.set, h, if_false, List.map_cons, List.nodup_cons]
      refine ⟨?_, ih hnd.2 (fun e he => hfresh e (List.mem_cons_of_mem _ he))⟩
      intro hmem
      obtain ⟨e, he, heq⟩ := List.mem_map.1 hmem
      rcases mem_set_gen t k v e he with h1 | h1
      · exact hnd.1 (List.mem_map.2 ⟨e, h1, heq⟩)
      · rw [h1] at heq
        exact hfresh (k0, v0) (List.mem_cons_self _ _) heq.symm

theorem take_set_self {α : Type} (l : List α) (n : Nat) (x : α) :
    (l.set n x).take n = l.take n := by
  induction l generalizing n with
  | nil => simp
  | cons y t ih =>
    cases n with
    | zero => simp
    | succ n => simp [List.set, ih]

theorem take_succ_set {α : Type} (l : List α) (n : Nat) (x : α) (h : n < l.length) :
    (l.set n x).take (n + 1) = l.take n ++ [x] := by
  induction l generalizing n with
  | nil => simp at h
  | cons y t ih =>
    cases n with
    | zero => simp
    | succ n =>
      simp only [List.length_cons, Nat.add_lt_add_iff_right] at h
      simp [List.set, ih n h]

theorem take_succ_append {α : Type} (l1 l2 : List α) (x : α) :
    (l1 ++ x :: l2).take (l1.length + 1) = l1 ++ [x] := by
  induction l1 with
  | nil => simp
  | cons y t ih => simp [ih]

theorem getD_append_left (arrays : List (List String)) (x : List String) (i : Nat)
    (hi : i < arrays.length) : (arrays ++ [x]).getD i [] = arrays.getD i [] := by
  simp [List.getD_eq_getElem?_getD, List.getElem?_append_left hi]

theorem getD_append_length (arrays : List (List String)) (x : List String) :
    (arrays ++ [x]).getD arrays.length [] = x := by
  simp [List.getD_eq_getElem?_getD]

theorem getD_set_ne (arrays : List (List String)) (x : List String) (i j : Nat)
    (h : i ≠ j) : (arrays.set j x).getD i [] = arrays.getD i [] := by
  simp [List.getD_eq_getElem?_getD, List.getElem?_set, Ne.symm h]

theorem getD_set_self (arrays : List (List String)) (x : List String) (j : Nat)
    (h : j < arrays.length) : (arrays.set j x).getD j [] = x := by
  simp [List.getD_eq_getElem?_getD, List.getElem?_set, h]

theorem occurrences_perm (edges edges' : GoMap (List String)) (indegree indegree' : GoMap Int)
    (h : edges'.Perm edges) (n : String) :
    occurrences { edges := edges', indegree := indegree' } n =
      occurrences { edges := edges, indegree := indegree } n := by
  unfold occurrences
  exact (h.map _).sum_eq

/-- A state reached by insertions satisfies the invariant and has distinct keys, in
whatever order its tables are iterated. -/
theorem reachableAnyOrder_wf_inv (g : KahnGraph) (h : ReachableAnyOrder g) : WF g ∧ Inv g := by
  obtain ⟨g0, h0, he, hi⟩ := h
  obtain ⟨hwf, hinv⟩ := reachable_wf_inv g0 h0
  have hke : (GoMap.keys g.edges).Perm (GoMap.keys g0.edges) := he.map Prod.fst
  have hki : (GoMap.keys g.indegree).Perm (GoMap.keys g0.indegree) := hi.map Prod.fst
  refine ⟨⟨hke.nodup_iff.2 hwf.1, hki.nodup_iff.2 hwf.2⟩, ?_, ?_⟩
  · rintro n (hn | ⟨e, hmem, hn⟩)
    · exact hki.symm.subset (hinv.1 n (Or.inl (hke.subset hn)))
    · exact hki.symm.subset (hinv.1 n (Or.inr ⟨e, he.subset hmem, hn⟩))
  · intro n hn
    have h1 := hinv.2 n (hki.subset hn)
    have h2 : GoMap.getD g.indegree n 0 = GoMap.getD g0.indegree n 0 := by
      unfold GoMap.getD
      rw [GoMap.get?_perm g0.indegree g.indegree hwf.2 hi n]
    have h3 := occurrences_perm g0.edges g.edges g0.indegree g.indegree he n
    rw [h2, h1]
    exact congrArg Nat.cast h3.symm

theorem reachableAnyOrder_of_reachable (g : KahnGraph) (h : Reachable g) :
    ReachableAnyOrder g := ⟨g, h, List.Perm.refl _, List.Perm.refl _⟩

/-! ## The check on an arbitrary state -/

theorem relaxAll_wf (todo : List String) (d : GoMap Int) (q : List String) (h : d.WF) :
    (relaxAll d q todo).1.WF := by
  induction todo generalizing d q with
  | nil => exact h
  | cons m t ih =>
    rw [relaxAll_cons]
    apply ih
    rw [relax_fst]
    exact GoMap.wf_set _ _ _ h

theorem relaxAll_mem_keys (todo : List String) (d : GoMap Int) (q : List String) (n : String) :
    n ∈ (relaxAll d q todo).1.keys ↔ n ∈ d.keys ∨ n ∈ todo := by
  induction todo generalizing d q with
  | nil => simp [relaxAll_nil]
  | cons m t ih =>
    rw [relaxAll_cons, ih, relax_fst, GoMap.mem_keys_set]
    simp only [List.mem_cons]
    tauto

theorem relaxAll_enqueues (todo : List String) (d : GoMap Int) (q : List String) (n : String)
    (hpos : 0 < d.getD n 0) (hend : (relaxAll d q todo).1.getD n 0 ≤ 0) :
    n ∈ (relaxAll d q todo).2 := by
  induction todo generalizing d q with
  | nil =>
    have h0 : (relaxAll d q []).1 = d := rfl
    rw [h0] at hend
    omega
  | cons m t ih =>
    rw [relaxAll_cons] at hend ⊢
    have hd' : (relax (d, q) m).1.getD n 0 = if m = n then d.getD m 0 - 1 else d.getD n 0 := by
      rw [relax_fst, GoMap.getD_set]
    by_cases h0 : 0 < (relax (d, q) m).1.getD n 0
    · exact ih _ _ h0 hend
    · have hmn : m = n := by
        by_contra hne
        rw [hd', if_neg hne] at h0
        exact h0 hpos
      subst hmn
      rw [hd', if_pos rfl] at h0
      have hz : d.getD m 0 - 1 = 0 := by omega
      apply (relaxAll_queue_extends t _ _).subset
      rw [relax_snd, if_pos hz]
      exact List.mem_append_right _ (List.mem_singleton_self _)

theorem inflow_mono (g : KahnGraph) (S P : Finset String) (h : S ⊆ P) (n : String) :
    inflow g S n ≤ inflow g P n :=
  Finset.sum_le_sum_of_subset h

/-- One iteration of the outer loop keeps the invariant of the loop on an arbitrary
state. -/
theorem runInv_step (g : KahnGraph) (d : GoMap Int) (u : String) (rest : List String)
    (P : Finset String) (hI : RunInv g d (u :: rest) P) :
    RunInv g (relaxAll d rest (g.edges.getD u [])).1 (relaxAll d rest (g.edges.getD u [])).2
      (insert u P) := by
  have huq : u ∈ u :: rest := List.mem_cons_self _ _
  have huP : u ∉ P := hI.disj u huq
  have hnd := List.nodup_cons.1 hI.qnd
  have hrest_low : ∀ n ∈ rest, d.getD n 0 ≤ 0 :=
    fun n hn => hI.low n (Or.inl (List.mem_cons_of_mem _ hn))
  obtain ⟨g1, g2, g3⟩ := relaxAll_queue_gen (g.edges.getD u []) d rest hnd.2 hrest_low
  have hgetD := relaxAll_getD (g.edges.getD u []) d rest
  have hle := relaxAll_getD_le (g.edges.getD u []) d rest
  have hdeg : ∀ n, (relaxAll d rest (g.edges.getD u [])).1.getD n 0 =
      g.indegree.getD n 0 - (inflow g (insert u P) n : Int) := by
    intro n
    rw [hgetD n, hI.deg n, inflow_insert g P u n huP]
    push_cast
    ring
  have hold_low : ∀ n, n ∈ insert u P → d.getD n 0 ≤ 0 := by
    intro n hn
    rcases Finset.mem_insert.1 hn with h | h
    · exact hI.low n (Or.inl (h ▸ huq))
    · exact hI.low n (Or.inr h)
  have hprocP : ∀ n ∈ insert u P, Processable g n := by
    intro n hn
    rcases Finset.mem_insert.1 hn with h | h
    · exact hI.proc n (Or.inl (h ▸ huq))
    · exact hI.proc n (Or.inr h)
  refine ⟨relaxAll_wf _ _ _ hI.wf, hdeg, ?_, ?_, ?_, ?_, g1, ?_⟩
  · intro n
    rw [relaxAll_mem_keys, hI.keys]
    constructor
    · rintro ((h | ⟨w, hw, hn⟩) | h)
      · exact Or.inl h
      · exact Or.inr ⟨w, Finset.mem_insert_of_mem hw, hn⟩
      · exact Or.inr ⟨u, Finset.mem_insert_self _ _, h⟩
    · rintro (h | ⟨w, hw, hn⟩)
      · exact Or.inl (Or.inl h)
      · rcases Finset.mem_insert.1 hw with h1 | h1
        · exact Or.inr (h1 ▸ hn)
        · exact Or.inl (Or.inr ⟨w, h1, hn⟩)
  · rintro n (hn | hn)
    · rcases g3 n hn with h | h
      · exact hI.proc n (Or.inl (List.mem_cons_of_mem _ h))
      · have hend := g2 n hn
        have hd0 : 0 < g.indegree.getD n 0 := by
          have := hI.deg n
          have := Int.ofNat_nonneg (inflow g P n)
          omega
        have hkey : n ∈ g.indegree.keys := by
          by_contra hk
          rw [GoMap.getD_of_not_mem _ _ _ hk] at hd0
          exact lt_irrefl _ hd0
        refine Processable.fed n (insert u P) hkey hd0 hprocP ?_
        rw [hdeg n] at hend
        omega
    · exact hprocP n hn
  · intro n hkey h0 hend
    by_cases hdn : d.getD n 0 ≤ 0
    · rcases hI.due n hkey h0 hdn with h | h
      · rcases List.mem_cons.1 h with h1 | h1
        · exact Or.inr (h1 ▸ Finset.mem_insert_self _ _)
        · exact Or.inl ((relaxAll_queue_extends _ _ _).subset h1)
      · exact Or.inr (Finset.mem_insert_of_mem h)
    · exact Or.inl (relaxAll_enqueues _ _ _ n (by omega) hend)
  · rintro n (hn | hn)
    · exact g2 n hn
    · exact le_trans (hle n) (hold_low n hn)
  · intro n hn hmem
    rcases g3 n hn with h | h
    · rcases Finset.mem_insert.1 hmem with h1 | h1
      · exact hnd.1 (h1 ▸ h)
      · exact hI.disj n (List.mem_cons_of_mem _ h) h1
    · have := hold_low n hmem
      omega

/-- A finished run keeps the invariant of the loop on an arbitrary state, for the nodes
dequeued before and during the run. -/
theorem kahnLoopLog_runInv (g : KahnGraph) (fuel : Nat) :
    ∀ (d : GoMap Int) (q : List String) (P : Finset String) (r : RunLog),
      RunInv g d q P → kahnLoopLog g.edges fuel d q = some r →
      RunInv g r.final [] (P ∪ r.dequeued.toFinset) := by
  induction fuel with
  | zero =>
    intro d q P r hI h
    cases q with
    | nil =>
      rw [kahnLoopLog_nil] at h
      cases h
      simpa using hI
    | cons u rest => simp [kahnLoopLog] at h
  | succ fuel ih =>
    intro d q P r hI h
    cases q with
    | nil =>
      rw [kahnLoopLog_nil] at h
      cases h
      simpa using hI
    | cons u rest =>
      simp only [kahnLoopLog] at h
      cases hr : kahnLoopLog g.edges fuel (relaxAll d rest (g.edges.getD u [])).1
          (relaxAll d rest (g.edges.getD u [])).2 with
      | none => rw [hr] at h; simp at h
      | some r' =>
        rw [hr] at h
        simp only [Option.some.injEq] at h
        subst h
        have hI' := ih _ _ _ _ (runInv_step g d u rest P hI) hr
        have hset : insert u P ∪ r'.dequeued.toFinset =
            P ∪ (u :: r'.dequeued).toFinset := by
          rw [List.toFinset_cons, Finset.insert_union, Finset.union_insert]
        rw [hset] at hI'
        exact hI'

/-- At the end of a run every node of the fixed point has been dequeued. -/
theorem processable_dequeued (g : KahnGraph) (d : GoMap Int) (P : Finset String)
    (hI : RunInv g d [] P) (n : String) (hn : Processable g n) : n ∈ P := by
  induction hn with
  | seed n hkey h0 =>
    have hd : d.getD n 0 ≤ 0 := by
      have := hI.deg n
      have := Int.ofNat_nonneg (inflow g P n)
      omega
    rcases hI.due n hkey (le_of_eq h0.symm) hd with h | h
    · simp at h
    · exact h
  | fed n S hkey hpos _ hle ih =>
    have hsub : S ⊆ P := fun u hu => ih u hu
    have hmono := inflow_mono g S P hsub n
    have hd : d.getD n 0 ≤ 0 := by
      have := hI.deg n
      omega
    rcases hI.due n hkey (le_of_lt hpos) hd with h | h
    · simp at h
    · exact h

/-! ## The iteration orders on an arbitrary state -/

theorem getD_eq_of_get? {V : Type} (m m' : GoMap V) (n : String) (z : V)
    (h : GoMap.get? m n = GoMap.get? m' n) : GoMap.getD m n z = GoMap.getD m' n z := by
  unfold GoMap.getD
  rw [h]

theorem mem_keys_of_get? {V : Type} (m m' : GoMap V) (n : String)
    (h : GoMap.get? m n = GoMap.get? m' n) : n ∈ GoMap.keys m ↔ n ∈ GoMap.keys m' := by
  rw [← GoMap.contains_iff, ← GoMap.contains_iff]
  unfold GoMap.contains
  rw [h]

/-- The invariant of the loop on an arbitrary state holds at the start, for a clone that
reads as the in-degree table and a queue that holds each key at 0 once. -/
theorem runInv_start (g : KahnGraph) (d : GoMap Int) (q : List String) (hd : d.WF)
    (hget : ∀ n, d.get? n = g.indegree.get? n) (hq : q.Nodup)
    (hmem : ∀ n, n ∈ q ↔ n ∈ g.indegree.keys ∧ g.indegree.getD n 0 = 0) :
    RunInv g d q ∅ := by
  have hval : ∀ n, d.getD n 0 = g.indegree.getD n 0 :=
    fun n => getD_eq_of_get? d g.indegree n 0 (hget n)
  refine ⟨hd, ?_, ?_, ?_, ?_, ?_, hq, ?_⟩
  · intro n
    rw [hval n]
    simp [inflow]
  · intro n
    rw [mem_keys_of_get? d g.indegree n (hget n)]
    simp
  · rintro n (hn | hn)
    · exact Processable.seed n ((hmem n).1 hn).1 ((hmem n).1 hn).2
    · simp at hn
  · intro n hkey h0 hle
    rw [hval n] at hle
    exact Or.inl ((hmem n).2 ⟨hkey, le_antisymm hle h0⟩)
  · rintro n (hn | hn)
    · rw [hval n, ((hmem n).1 hn).2]
    · simp at hn
  · intro n _ hn
    simp at hn

/-- On an arbitrary state: the nodes that a finished run dequeued and the keys of the clone
at its end do not depend on the order of the start. -/
theorem run_result (g : KahnGraph) (d : GoMap Int) (q : List String) (hd : d.WF)
    (hget : ∀ n, d.get? n = g.indegree.get? n) (hq : q.Nodup)
    (hmem : ∀ n, n ∈ q ↔ n ∈ g.indegree.keys ∧ g.indegree.getD n 0 = 0)
    (fuel : Nat) (r : RunLog) (hr : kahnLoopLog g.edges fuel d q = some r) :
    (∀ n, n ∈ r.dequeued ↔ Processable g n) ∧ r.dequeued.Nodup ∧ r.final.WF ∧
    (∀ n, n ∈ r.final.keys ↔
      n ∈ g.indegree.keys ∨ ∃ u, Processable g u ∧ n ∈ g.edges.getD u []) := by
  have hI0 := runInv_start g d q hd hget hq hmem
  have hI := kahnLoopLog_runInv g fuel d q ∅ r hI0 hr
  rw [Finset.empty_union] at hI
  have hdeq : ∀ n, n ∈ r.dequeued ↔ Processable g n := by
    intro n
    constructor
    · intro hn
      exact hI.proc n (Or.inr (List.mem_toFinset.2 hn))
    · intro hn
      exact List.mem_toFinset.1 (processable_dequeued g r.final _ hI n hn)
  have hnd := (kahnLoopLog_nodup g.edges fuel d q r hr hq
    (fun n hn => hI0.low n (Or.inl hn))).1
  refine ⟨hdeq, hnd, hI.wf, ?_⟩
  intro n
  rw [hI.keys n]
  constructor
  · rintro (h | ⟨u, hu, hn⟩)
    · exact Or.inl h
    · exact Or.inr ⟨u, (hdeq u).1 (List.mem_toFinset.1 hu), hn⟩
  · rintro (h | ⟨u, hu, hn⟩)
    · exact Or.inl h
    · exact Or.inr ⟨u, List.mem_toFinset.2 ((hdeq u).2 hu), hn⟩

theorem length_eq_of_mem_iff (l1 l2 : List String) (h1 : l1.Nodup) (h2 : l2.Nodup)
    (h : ∀ n, n ∈ l1 ↔ n ∈ l2) : l1.length = l2.length :=
  ((List.perm_ext_iff_of_nodup h1 h2).2 h).length_eq

theorem positives_perm (d d' : GoMap Int) (h : d'.Perm d) : positives d' = positives d := by
  unfold positives
  exact (h.filter _).length_eq

/-- On a state whose in-degree table has distinct keys, the boolean that `hasCycle`
returns does not depend on the orders in which its two `range` statements visit the
entries. -/
theorem hasCycleOrd_eq (g : KahnGraph) (hwf : g.indegree.WF)
    (order1 order2 : GoMap Int → GoMap Int) (h1 : IsIteration order1)
    (h2 : IsIteration order2) : hasCycleOrd order1 order2 g = hasCycle g := by
  have hk1 : (GoMap.keys (order1 g.indegree)).Perm (GoMap.keys g.indegree) :=
    (h1 g.indegree).map Prod.fst
  have hwf1 : GoMap.WF (order1 g.indegree) := hk1.nodup_iff.2 hwf
  have hc1 : cloneIndegree (order1 g.indegree) = order1 g.indegree := cloneIndegree_eq _ hwf1
  have hc0 : cloneIndegree g.indegree = g.indegree := cloneIndegree_eq _ hwf
  have hk2 : (GoMap.keys (order2 (order1 g.indegree))).Perm (GoMap.keys (order1 g.indegree)) :=
    (h2 _).map Prod.fst
  have hwf2 : GoMap.WF (order2 (order1 g.indegree)) := hk2.nodup_iff.2 hwf1
  have hget1 : ∀ n, GoMap.get? (order1 g.indegree) n = GoMap.get? g.indegree n :=
    GoMap.get?_perm g.indegree _ hwf (h1 _)
  have hget2 : ∀ n, GoMap.get? (order2 (order1 g.indegree)) n = GoMap.get? g.indegree n := by
    intro n
    rw [GoMap.get?_perm (order1 g.indegree) _ hwf1 (h2 _) n, hget1 n]
  have hmem1 : ∀ n, n ∈ seedQueue (order2 (order1 g.indegree)) ↔
      n ∈ g.indegree.keys ∧ g.indegree.getD n 0 = 0 := by
    intro n
    rw [mem_seedQueue _ hwf2 n, mem_keys_of_get? _ _ n (hget2 n),
      getD_eq_of_get? _ _ n 0 (hget2 n)]
  have hmem0 : ∀ n, n ∈ seedQueue g.indegree ↔
      n ∈ g.indegree.keys ∧ g.indegree.getD n 0 = 0 := mem_seedQueue _ hwf
  have hfuel1 : positives (order1 g.indegree) +
      (seedQueue (order2 (order1 g.indegree))).length ≤ g.indegree.len := by
    have := seed_measure (order2 (order1 g.indegree))
    rw [positives_perm _ _ (h2 _), (h2 _).length_eq, (h1 _).length_eq] at this
    exact this
  obtain ⟨x1, hx1⟩ := kahnLoopWith_total id isDiscipline_id g.edges g.indegree.len
    (order1 g.indegree) (seedQueue (order2 (order1 g.indegree))) 0 hfuel1
  obtain ⟨x0, hx0⟩ := kahnLoopWith_total id isDiscipline_id g.edges g.indegree.len
    g.indegree (seedQueue g.indegree) 0 (seed_measure g.indegree)
  rw [← kahnLoop_eq_with_id, kahnLoop_eq_log] at hx1 hx0
  cases hr1 : kahnLoopLog g.edges g.indegree.len (order1 g.indegree)
      (seedQueue (order2 (order1 g.indegree))) with
  | none => rw [hr1] at hx1; simp at hx1
  | some r1 =>
    cases hr0 : kahnLoopLog g.edges g.indegree.len g.indegree (seedQueue g.indegree) with
    | none => rw [hr0] at hx0; simp at hx0
    | some r0 =>
      obtain ⟨a1, a2, a3, a4⟩ := run_result g _ _ hwf1 hget1 (seedQueue_nodup _ hwf2) hmem1
        _ r1 hr1
      obtain ⟨b1, b2, b3, b4⟩ := run_result g _ _ hwf (fun _ => rfl) (seedQueue_nodup _ hwf)
        hmem0 _ r0 hr0
      have hlen : r1.dequeued.length = r0.dequeued.length :=
        length_eq_of_mem_iff _ _ a2 b2 (fun n => by rw [a1, b1])
      have hfin : r1.final.len = r0.final.len := by
        have := length_eq_of_mem_iff _ _ a3 b3 (fun n => by rw [a4, b4])
        simpa [GoMap.keys, GoMap.len] using this
      unfold hasCycleOrd hasCycle hasCycleFuel
      simp only [hc1, hc0, kahnLoop_eq_log, hr1, hr0, Option.map_some', Nat.zero_add, hlen,
        hfin]

/-! ## The check on the map objects -/

theorem set_append_length {α : Type} (h : List α) (c x : α) :
    (h ++ [c]).set h.length x = h ++ [x] := by
  induction h with
  | nil => rfl
  | cons y t ih => simp [List.set, ih]

theorem getD_append_length_gen {α : Type} (h : List α) (c z : α) :
    (h ++ [c]).getD h.length z = c := by
  simp [List.getD_eq_getElem?_getD]

theorem getD_append_left_gen {α : Type} (h : List α) (c z : α) (i : Nat) (hi : i < h.length) :
    (h ++ [c]).getD i z = h.getD i z := by
  simp [List.getD_eq_getElem?_getD, List.getElem?_append_left hi]

theorem writeAt_last (h : IntMaps) (c : GoMap Int) (k : String) (v : Int) :
    writeAt (h ++ [c]) h.length k v = h ++ [c.set k v] := by
  unfold writeAt
  rw [getD_append_length_gen, set_append_length]

theorem readAt_last (h : IntMaps) (c : GoMap Int) (k : String) :
    readAt (h ++ [c]) h.length k = c.getD k 0 := by
  unfold readAt
  rw [getD_append_length_gen]

theorem relaxAt_last (h : IntMaps) (c : GoMap Int) (q : List String) (m : String) :
    relaxAt h.length (h ++ [c], q) m = (h ++ [(relax (c, q) m).1], (relax (c, q) m).2) := by
  unfold relaxAt relax
  simp only [readAt_last, writeAt_last]
  split <;> rfl

theorem relaxAllAt_last (todo : List String) (h : IntMaps) (c : GoMap Int) (q : List String) :
    todo.foldl (relaxAt h.length) (h ++ [c], q) =
      (h ++ [(relaxAll c q todo).1], (relaxAll c q todo).2) := by
  induction todo generalizing c q with
  | nil => rfl
  | cons m t ih =>
    rw [List.foldl_cons, relaxAt_last, ih, relaxAll_cons]

/-- The loop on the map objects writes to the clone only and computes what the loop on the
clone computes. -/
theorem kahnLoopAt_last (edges : GoMap (List String)) (h : IntMaps) (fuel : Nat) :
    ∀ (c : GoMap Int) (q : List String) (p : Nat),
      ∃ c', (kahnLoopAt edges h.length fuel (h ++ [c]) q p).1 = h ++ [c'] ∧
        (kahnLoopAt edges h.length fuel (h ++ [c]) q p).2.map (fun n => (n, c')) =
          kahnLoop edges fuel c q p := by
  induction fuel with
  | zero =>
    intro c q p
    cases q with
    | nil => exact ⟨c, rfl, rfl⟩
    | cons u rest => exact ⟨c, rfl, rfl⟩
  | succ fuel ih =>
    intro c q p
    cases q with
    | nil => exact ⟨c, rfl, rfl⟩
    | cons u rest =>
      simp only [kahnLoopAt, kahnLoop, relaxAllAt_last]
      exact ih _ _ _

theorem cloneAt_last (m : GoMap Int) (h : IntMaps) (acc : GoMap Int) :
    m.foldl (fun x e => writeAt x h.length e.1 e.2) (h ++ [acc]) =
      h ++ [m.foldl (fun a e => GoMap.set a e.1 e.2) acc] := by
  induction m generalizing acc with
  | nil => rfl
  | cons e t ih => rw [List.foldl_cons, writeAt_last, ih, List.foldl_cons]

/-- A call of `hasCycle` on the map objects adds one map, the clone, leaves every map
that was there as it was, and returns what `hasCycleOrd` returns on the receiver. -/
theorem hasCycleAt_spec (order1 order2 : GoMap Int → GoMap Int) (edges : GoMap (List String))
    (maps : IntMaps) (indegree : Nat) (href : indegree < maps.length) :
    (∃ c, (hasCycleAt order1 order2 edges maps indegree).1 = maps ++ [c]) ∧
    (hasCycleAt order1 order2 edges maps indegree).2 =
      hasCycleOrd order1 order2 { edges := edges, indegree := maps.getD indegree [] } := by
  unfold hasCycleAt
  simp only [getD_append_left_gen maps [] [] indegree href, cloneAt_last,
    getD_append_length_gen]
  obtain ⟨c', h1, h2⟩ := kahnLoopAt_last edges maps (GoMap.len (maps.getD indegree []))
    (List.foldl (fun a e => GoMap.set a e.1 e.2) [] (order1 (maps.getD indegree [])))
    (seedQueue (order2
      (List.foldl (fun a e => GoMap.set a e.1 e.2) [] (order1 (maps.getD indegree []))))) 0
  unfold hasCycleOrd cloneIndegree
  simp only
  rw [← h2]
  generalize kahnLoopAt edges maps.length (GoMap.len (maps.getD indegree []))
    (maps ++ [List.foldl (fun a e => GoMap.set a e.1 e.2) [] (order1 (maps.getD indegree []))])
    (seedQueue (order2
      (List.foldl (fun a e => GoMap.set a e.1 e.2) [] (order1 (maps.getD indegree []))))) 0 = X
    at h1 ⊢
  refine ⟨⟨c', h1⟩, ?_⟩
  rw [h1, getD_append_length_gen]
  cases X.2 with
  | none => rfl
  | some p => rfl

/-- Calls of `hasCycle` in a row only add maps, leave every map that was there as it was,
and each return what `hasCycle` returns on the receiver. -/
theorem hasCycleAtCalls_spec (edges : GoMap (List String)) (indegree : Nat)
    (orders : List ((GoMap Int → GoMap Int) × (GoMap Int → GoMap Int)))
    (hord : ∀ o ∈ orders, IsIteration o.1 ∧ IsIteration o.2) :
    ∀ (maps : IntMaps), indegree < maps.length → GoMap.WF (maps.getD indegree []) →
      (∃ added, (hasCycleAtCalls edges indegree orders maps).1 = maps ++ added) ∧
      (hasCycleAtCalls edges indegree orders maps).2 =
        List.replicate orders.length
          (hasCycle { edges := edges, indegree := maps.getD indegree [] }) := by
  induction orders with
  | nil =>
    intro maps _ _
    exact ⟨⟨[], by simp [hasCycleAtCalls]⟩, rfl⟩
  | cons o t ih =>
    intro maps href hwf
    obtain ⟨⟨c, hc⟩, hres⟩ := hasCycleAt_spec o.1 o.2 edges maps indegree href
    have ho := hord o (List.mem_cons_self _ _)
    rw [hasCycleOrd_eq _ hwf o.1 o.2 ho.1 ho.2] at hres
    have href' : indegree < (maps ++ [c]).length := by
      rw [List.length_append]; exact Nat.lt_add_right _ href
    have hsame : (maps ++ [c]).getD indegree [] = maps.getD indegree [] :=
      getD_append_left_gen maps c [] indegree href
    obtain ⟨⟨added, ha⟩, hrest⟩ := ih (fun o' ho' => hord o' (List.mem_cons_of_mem _ ho'))
      (maps ++ [c]) href' (hsame ▸ hwf)
    simp only [hasCycleAtCalls, hc, ha, hrest, hres, hsame, List.length_cons,
      List.replicate_succ]
    exact ⟨⟨c :: added, by simp⟩, trivial⟩

/-! ## The statements of the insertion on Go values -/

/-- What `append` does to the arrays and to the slices of a Go value in which every slice
lies inside its own backing array: the other slices keep their elements, the new slice
holds the old elements followed by the appended one. -/
theorem goAppend_spec (spare : Nat → Nat) (arrays : List (List String)) (edges : GoMap GoSlice)
    (a b : String)
    (hb : ∀ e ∈ edges, e.2.arr < arrays.length ∧ e.2.len ≤ (arrays.getD e.2.arr []).length)
    (hnd : (edges.map (fun e => e.2.arr)).Nodup) :
    (∀ e ∈ edges, sliceElems (goAppend spare arrays (edges.get? a) b).1 e.2 =
      sliceElems arrays e.2) ∧
    sliceElems (goAppend spare arrays (edges.get? a) b).1 (goAppend spare arrays (edges.get? a) b).2 =
      ((edges.get? a).map (sliceElems arrays)).getD [] ++ [b] ∧
    (∀ e ∈ edges, e.2.arr < (goAppend spare arrays (edges.get? a) b).1.length ∧
      e.2.len ≤ ((goAppend spare arrays (edges.get? a) b).1.getD e.2.arr []).length) ∧
    ((goAppend spare arrays (edges.get? a) b).2.arr < (goAppend spare arrays (edges.get? a) b).1.length ∧
      (goAppend spare arrays (edges.get? a) b).2.len ≤
        ((goAppend spare arrays (edges.get? a) b).1.getD
          (goAppend spare arrays (edges.get? a) b).2.arr []).length) ∧
    ((edges.set a (goAppend spare arrays (edges.get? a) b).2).map (fun e => e.2.arr)).Nodup := by
  cases hg : GoMap.get? edges a with
  | none =>
    simp only [goAppend]
    refine ⟨?_, ?_, ?_, ?_, ?_⟩
    · intro e he
      unfold sliceElems
      rw [getD_append_left _ _ _ (hb e he).1]
    · unfold sliceElems
      rw [getD_append_length]
      rfl
    · intro e he
      rw [getD_append_left _ _ _ (hb e he).1, List.length_append]
      exact ⟨Nat.lt_add_right _ (hb e he).1, (hb e he).2⟩
    · rw [getD_append_length, List.length_append]
      exact ⟨Nat.lt_succ_self _, by simp⟩
    · apply nodup_arr_set_fresh _ _ _ hnd
      intro e he
      exact Nat.ne_of_lt (hb e he).1
  | some s =>
    have hsmem : (a, s) ∈ edges := GoMap.mem_of_get? edges a s hg
    have hsb : s.arr < arrays.length ∧ s.len ≤ (arrays.getD s.arr []).length :=
      hb (a, s) hsmem
    by_cases hcap : s.len < (arrays.getD s.arr []).length
    · simp only [goAppend, hcap, if_true]
      have hentry : ∀ e ∈ edges, e.2.arr = s.arr → e.2 = s := by
        intro e he heq
        have := List.inj_on_of_nodup_map hnd he hsmem heq
        rw [this]
      refine ⟨?_, ?_, ?_, ?_, ?_⟩
      · intro e he
        unfold sliceElems
        by_cases harr : e.2.arr = s.arr
        · rw [hentry e he harr, getD_set_self _ _ _ hsb.1, take_set_self]
        · rw [getD_set_ne _ _ _ _ harr]
      · unfold sliceElems
        rw [getD_set_self _ _ _ hsb.1, take_succ_set _ _ _ hcap]
        rfl
      · intro e he
        rw [List.length_set]
        refine ⟨(hb e he).1, ?_⟩
        by_cases harr : e.2.arr = s.arr
        · rw [harr, getD_set_self _ _ _ hsb.1, List.length_set, ← harr]
          exact (hb e he).2
        · rw [getD_set_ne _ _ _ _ harr]
          exact (hb e he).2
      · rw [getD_set_self _ _ _ hsb.1, List.length_set, List.length_set]
        exact ⟨hsb.1, hcap⟩
      · have := map_arr_set_same edges a s { arr := s.arr, len := s.len + 1 } hg rfl
        rw [this]
        exact hnd
    · simp only [goAppend, hcap, if_false]
      have hlen : ((arrays.getD s.arr []).take s.len).length = s.len := by
        rw [List.length_take]
        exact Nat.min_eq_left hsb.2
      refine ⟨?_, ?_, ?_, ?_, ?_⟩
      · intro e he
        unfold sliceElems
        rw [getD_append_left _ _ _ (hb e he).1]
      · unfold sliceElems
        rw [getD_append_length]
        have := take_succ_append ((arrays.getD s.arr []).take s.len)
          (List.replicate (spare s.len) "") b
        rw [hlen] at this
        rw [this]
        rfl
      · intro e he
        rw [getD_append_left _ _ _ (hb e he).1, List.length_append]
        exact ⟨Nat.lt_add_right _ (hb e he).1, (hb e he).2⟩
      · rw [getD_append_length, List.length_append, List.length_append, hlen]
        refine ⟨Nat.lt_succ_self _, ?_⟩
        simp only [List.length_cons, List.length_replicate]
        omega
      · apply nodup_arr_set_fresh _ _ _ hnd
        intro e he
        exact Nat.ne_of_lt (hb e he).1

/-! ## Go values as the insertions leave them -/

theorem goOwned_new : GoOwned goNewKahnGraph ∧ view goNewKahnGraph = NewKahnGraph :=
  ⟨⟨[], [], rfl, rfl, by simp, by simp⟩, rfl⟩

/-- On a Go value with both maps made, every adjacency slice inside its own backing array,
the statements of `AddEdgeAndCheckCycle` do not panic, leave again such a value, and change
the adjacency table and the keys of the in-degree table as `addEdge` does. -/
theorem goAddEdge_owned (spare : Nat → Nat) (g : GoGraph) (hown : GoOwned g) (a b : String) :
    ∃ g', goAddEdge spare g a b = some g' ∧ GoOwned g' ∧
      (view g').edges = (addEdge (view g) a b).edges ∧
      (view g').indegree =
        (let t := (view g).indegree.set b (wrapInt64 ((view g).indegree.getD b 0 + 1))
         if t.contains a then t else t.set a 0) := by
  obtain ⟨arrays, ge, gi⟩ := g
  obtain ⟨edges, indegree, he, hi, hb, hnd⟩ := hown
  simp only at he hi hb hnd
  subst he
  subst hi
  obtain ⟨s1, s2, s3, s4, s5⟩ := goAppend_spec spare arrays edges a b hb hnd
  refine ⟨_, rfl, ?_, ?_, rfl⟩
  · refine ⟨_, _, rfl, rfl, ?_, s5⟩
    intro e he
    rcases mem_set_gen _ _ _ _ he with h | h
    · exact s3 e h
    · rw [h]; exact s4
  · simp only [view, addEdge, Option.getD_some]
    rw [map_set_comm (sliceElems (goAppend spare arrays (edges.get? a) b).1), s2]
    have hmap : edges.map
        (fun e => (e.1, sliceElems (goAppend spare arrays (edges.get? a) b).1 e.2)) =
        edges.map (fun e => (e.1, sliceElems arrays e.2)) := by
      apply List.map_congr_left
      intro e he
      rw [s1 e he]
    rw [hmap]
    unfold GoMap.getD
    rw [map_get?]

/-- On a Go value as the constructor and the insertions leave it, and while the in-degree
of `b` stays inside the range of `int`, the statements of `AddEdgeAndCheckCycle` do not
panic and change the graph state exactly as `addEdge` does, and they leave again such a
value. -/
theorem goAddEdge_simulates (spare : Nat → Nat) (g : GoGraph) (hown : GoOwned g)
    (a b : String) (hlo : -(2 ^ 63) ≤ (view g).indegree.getD b 0 + 1)
    (hhi : (view g).indegree.getD b 0 + 1 < 2 ^ 63) :
    ∃ g', goAddEdge spare g a b = some g' ∧ view g' = addEdge (view g) a b ∧ GoOwned g' := by
  obtain ⟨g', h1, h2, h3, h4⟩ := goAddEdge_owned spare g hown a b
  refine ⟨g', h1, ?_, h2⟩
  rw [wrapInt64_eq _ hlo hhi] at h4
  have : view g' = { edges := (view g').edges, indegree := (view g').indegree } := rfl
  rw [this, h3, h4]
  rfl

/-- The Go values built from the value of `NewKahnGraph()` by insertions have both maps
made and no two adjacency slices on one backing array. -/
theorem goReachable_owned (spare : Nat → Nat) (g : GoGraph) (h : GoReachable spare g) :
    GoOwned g := by
  induction h with
  | new => exact goOwned_new.1
  | step a b _ hstep ih =>
    obtain ⟨g', h1, h2, _⟩ := goAddEdge_owned spare _ ih a b
    rw [h1] at hstep
    cases hstep
    exact h2

/-- The call on the Go value and the call on the graph state it stands for agree, on a Go
value as the constructor and the insertions leave it and while the in-degree of `b` stays
inside the range of `int`. -/
theorem goAddEdgeAndCheckCycle_simulates (spare : Nat → Nat) (g : GoGraph) (hown : GoOwned g)
    (a b : String) (hlo : -(2 ^ 63) ≤ (view g).indegree.getD b 0 + 1)
    (hhi : (view g).indegree.getD b 0 + 1 < 2 ^ 63) :
    ∃ g' r, goAddEdgeAndCheckCycle spare g a b = some (g', some r) ∧ GoOwned g' ∧
      (view g', some r) = AddEdgeAndCheckCycle (view g) a b := by
  obtain ⟨g', h1, h2, h3⟩ := goAddEdge_simulates spare g hown a b hlo hhi
  obtain ⟨r, hr⟩ := hasCycle_total (view g')
  refine ⟨g', r, ?_, h3, ?_⟩
  · unfold goAddEdgeAndCheckCycle
    rw [h1, Option.map_some', hr]
  · show (view g', some r) = (addEdge (view g) a b, hasCycle (addEdge (view g) a b))
    rw [← h2, hr]

theorem goOwned_goPathGraph : GoOwned goPathGraph :=
  ⟨_, _, rfl, rfl, by decide, by decide⟩

/-! ## Counts on a Go value -/

theorem table_len (m : GoMap Int) (a b : String) (v : Int) :
    GoMap.len (if (GoMap.set m b v).contains a then GoMap.set m b v
      else (GoMap.set m b v).set a 0) =
      GoMap.len m + ((if m.contains b then 0 else 1) +
        (if m.contains a || decide (a = b) then 0 else 1)) := by
  have hcont : GoMap.contains (GoMap.set m b v) a = (GoMap.contains m a || decide (a = b)) := by
    unfold GoMap.contains
    rw [GoMap.get?_set]
    by_cases hab : b = a
    · subst hab; simp
    · have hab' : ¬ a = b := fun h => hab h.symm
      simp [hab, hab']
  by_cases hc : (GoMap.contains m a || decide (a = b)) = true
  · rw [if_pos (hcont ▸ hc), if_pos hc, len_set]
    omega
  · rw [if_neg (fun h => hc (hcont ▸ h)), if_neg hc, len_set, len_set,
      if_neg (fun h => hc (hcont ▸ h))]
    omega

theorem table_keys (m : GoMap Int) (a b : String) (v : Int) (k : String)
    (hk : k ∈ GoMap.keys m) :
    k ∈ GoMap.keys (if (GoMap.set m b v).contains a then GoMap.set m b v
      else (GoMap.set m b v).set a 0) := by
  split
  · rw [GoMap.mem_keys_set]; exact Or.inr hk
  · rw [GoMap.mem_keys_set, GoMap.mem_keys_set]; exact Or.inr (Or.inr hk)

theorem edgeCount_edges (g g' : KahnGraph) (h : g'.edges = g.edges) :
    edgeCount g' = edgeCount g := by
  unfold edgeCount
  rw [h]

theorem inv_getD_nonneg (g : KahnGraph) (hinv : Inv g) (n : String) :
    0 ≤ g.indegree.getD n 0 := by
  by_cases hn : n ∈ g.indegree.keys
  · rw [hinv.2 n hn]; exact Int.ofNat_nonneg _
  · rw [GoMap.getD_of_not_mem _ _ _ hn]

/-! ## The claims -/

/-- C1: on every state reachable from the empty graph by insertions,
`AddEdgeAndCheckCycle(a, b)` returns a boolean, which is true exactly when the edges of the
state together with `a → b` contain a directed cycle; these are the edges of the state after
the call; and `hasCycle` on the reachable state itself returns true exactly when its edges
contain a directed cycle. -/
theorem addEdgeAndCheckCycle_iff_cycle (g : KahnGraph) (h : Reachable g) (a b : String) :
    (∃ r, (AddEdgeAndCheckCycle g a b).2 = some r ∧
      (r = true ↔ HasCycleRel (EdgePlus g a b))) ∧
    (HasCycle (AddEdgeAndCheckCycle g a b).1 ↔ HasCycleRel (EdgePlus g a b)) ∧
    (∃ r, hasCycle g = some r ∧ (r = true ↔ HasCycle g)) :=
  ⟨addEdgeAndCheckCycle_correct g (reachable_wf_inv g h).1 (reachable_wf_inv g h).2 a b,
    hasCycleRel_congr (addEdge_edge g a b),
    hasCycle_correct g (reachable_wf_inv g h).1 (reachable_wf_inv g h).2⟩

/-- Witness of C1 at the empty graph and the edge `a → b`. -/
theorem addEdgeAndCheckCycle_iff_cycle_witness :
    Reachable NewKahnGraph ∧
    (∃ r, (AddEdgeAndCheckCycle NewKahnGraph "a" "b").2 = some r ∧
      (r = true ↔ HasCycleRel (EdgePlus NewKahnGraph "a" "b"))) ∧
    (HasCycle (AddEdgeAndCheckCycle NewKahnGraph "a" "b").1 ↔
      HasCycleRel (EdgePlus NewKahnGraph "a" "b")) ∧
    (∃ r, hasCycle NewKahnGraph = some r ∧ (r = true ↔ HasCycle NewKahnGraph)) :=
  ⟨Reachable.empty, addEdgeAndCheckCycle_iff_cycle NewKahnGraph Reachable.empty "a" "b"⟩

/-- C3, refuted as stated: the reachable state with the single edge `x → x` has no path from
`b` to `a`, the nodes `a` and `b` differ, and still `AddEdgeAndCheckCycle("a", "b")` returns
true. -/
theorem addEdge_no_closing_counterexample :
    Reachable selfLoopGraph ∧ "a" ≠ "b" ∧
    ¬ Relation.TransGen (Edge selfLoopGraph) "b" "a" ∧
    (AddEdgeAndCheckCycle selfLoopGraph "a" "b").2 = some true := by
  refine ⟨Reachable.step "x" "x" Reachable.empty, by decide, ?_, by decide⟩
  intro h
  obtain ⟨c, hc, _⟩ := Relation.TransGen.head'_iff.1 h
  exact not_edge_selfLoopGraph_b c hc

/-- C3, amended: on every reachable state without a directed cycle, for nodes `a ≠ b` with
no directed path from `b` to `a`, `AddEdgeAndCheckCycle(a, b)` returns false. -/
theorem addEdge_no_closing_false (g : KahnGraph) (h : Reachable g) (hacyc : ¬ HasCycle g)
    (a b : String) (hab : a ≠ b) (hpath : ¬ Relation.TransGen (Edge g) b a) :
    (AddEdgeAndCheckCycle g a b).2 = some false :=
  result_false_of_acyclic g (reachable_wf_inv g h).1 (reachable_wf_inv g h).2 a b
    (no_cycle_edgePlus g a b hacyc hab hpath)

/-- Witness of the amended C3 at the empty graph and the edge `a → b`. -/
theorem addEdge_no_closing_false_witness :
    Reachable NewKahnGraph ∧ ¬ HasCycle NewKahnGraph ∧ "a" ≠ "b" ∧
    (AddEdgeAndCheckCycle NewKahnGraph "a" "b").2 = some false :=
  have hacyc : ¬ HasCycle NewKahnGraph := fun ⟨_, hn⟩ =>
    (Relation.TransGen.head'_iff.1 hn).elim fun c hc => not_edge_empty _ c hc.1
  ⟨Reachable.empty, hacyc, by decide,
    addEdge_no_closing_false NewKahnGraph Reachable.empty hacyc "a" "b" (by decide)
      (fun hp => (Relation.TransGen.head'_iff.1 hp).elim fun c hc => not_edge_empty _ c hc.1)⟩

/-- C6: on every reachable state, `AddEdgeAndCheckCycle(a, a)` returns true. -/
theorem self_loop_true (g : KahnGraph) (h : Reachable g) (a : String) :
    (AddEdgeAndCheckCycle g a a).2 = some true :=
  result_true_of_cyclic g (reachable_wf_inv g h).1 (reachable_wf_inv g h).2 a a
    ⟨a, Relation.TransGen.single (Or.inr ⟨rfl, rfl⟩)⟩

/-- Witness of C6 at the state with the edges `a → b`, `b → c` and the self-loop on `b`. -/
theorem self_loop_true_witness :
    (AddEdgeAndCheckCycle (insertAll NewKahnGraph [("a", "b"), ("b", "c")]).1 "b" "b").2 =
      some true :=
  self_loop_true _ (Reachable.step "b" "c" (Reachable.step "a" "b" Reachable.empty)) "b"

/-- C7: on every reachable state, when `AddEdgeAndCheckCycle(a, b)` returns false, the same
call repeated immediately returns false again; after the two calls `edges[a]` is the old
sequence followed by `b` twice and `indegree[b]` is the old value plus two. -/
theorem parallel_duplicate_false (g : KahnGraph) (h : Reachable g) (a b : String)
    (h1 : (AddEdgeAndCheckCycle g a b).2 = some false) :
    (AddEdgeAndCheckCycle (AddEdgeAndCheckCycle g a b).1 a b).2 = some false ∧
    (AddEdgeAndCheckCycle (AddEdgeAndCheckCycle g a b).1 a b).1.edges.getD a [] =
      g.edges.getD a [] ++ [b, b] ∧
    (AddEdgeAndCheckCycle (AddEdgeAndCheckCycle g a b).1 a b).1.indegree.getD b 0 =
      g.indegree.getD b 0 + 2 := by
  have hwf := (reachable_wf_inv g h).1
  have hinv := (reachable_wf_inv g h).2
  refine ⟨?_, addEdge_twice_edges g a b, ?_⟩
  · apply result_false_of_acyclic _ (addEdge_wf g a b hwf) (addEdge_inv g a b hinv)
    rintro ⟨n, hn⟩
    apply acyclic_of_result_false g hwf hinv a b h1
    refine ⟨n, Relation.TransGen.mono ?_ hn⟩
    rintro x y (hxy | hxy)
    · exact (addEdge_edge g a b x y).1 hxy
    · exact Or.inr hxy
  · simp only [addEdgeAndCheckCycle_fst]
    rw [addEdge_indegree_getD, addEdge_indegree_getD]
    simp only [if_true]
    ring

/-- Witness of C7 at the empty graph and the edge `a → b`. -/
theorem parallel_duplicate_false_witness :
    (AddEdgeAndCheckCycle NewKahnGraph "a" "b").2 = some false ∧
    (AddEdgeAndCheckCycle (AddEdgeAndCheckCycle NewKahnGraph "a" "b").1 "a" "b").2 =
      some false :=
  ⟨by decide, (parallel_duplicate_false NewKahnGraph Reachable.empty "a" "b" (by decide)).1⟩

/-- C8: for pairwise distinct nodes `n0, n1, ..., nk` with `k ≥ 1`, the calls that insert
the path `n0 → n1 → ... → nk` into the empty graph each return false, and the next call,
`AddEdgeAndCheckCycle(nk, n0)`, returns true. -/
theorem path_then_close (n0 : String) (rest : List String) (hne : rest ≠ [])
    (hnd : (n0 :: rest).Nodup) :
    (insertAll NewKahnGraph (pathEdges (n0 :: rest))).2 =
      List.replicate rest.length (some false) ∧
    (AddEdgeAndCheckCycle (insertAll NewKahnGraph (pathEdges (n0 :: rest))).1
      (rest.getLast hne) n0).2 = some true := by
  constructor
  · rw [← pathEdges_length n0 rest]
    apply insertAll_results _ _ wf_empty inv_empty
    rintro ⟨n, hn⟩
    apply pathEdges_acyclic (n0 :: rest) hnd
    refine ⟨n, Relation.TransGen.mono ?_ hn⟩
    rintro x y (hxy | hxy)
    · exact absurd hxy (not_edge_empty x y)
    · exact hxy
  · have hI := insertAll_inv (pathEdges (n0 :: rest)) NewKahnGraph wf_empty inv_empty
    apply result_true_of_cyclic _ hI.1 hI.2
    refine ⟨n0, Relation.TransGen.tail ?_ (Or.inr ⟨rfl, rfl⟩)⟩
    refine Relation.TransGen.mono ?_ (pathEdges_connects n0 rest hne)
    intro x y hxy
    exact Or.inl ((insertAll_edge _ _ x y).2 (Or.inr hxy))

/-- Witness of C8 at the path `a → b → c`, closed by `c → a`. -/
theorem path_then_close_witness :
    (insertAll NewKahnGraph [("a", "b"), ("b", "c")]).2 = [some false, some false] ∧
    (AddEdgeAndCheckCycle (insertAll NewKahnGraph [("a", "b"), ("b", "c")]).1 "c" "a").2 =
      some true :=
  path_then_close "a" ["b", "c"] (by decide) (by decide)

/-- C10: on a state that satisfies the state invariant, the check returns a boolean, and
returns the same one for every iteration order of the in-degree table (every permutation of
its entries) and every queue discipline. -/
theorem hasCycle_order_independent (g : KahnGraph) (hwf : WF g) (hinv : Inv g)
    (indegree' : GoMap Int) (hperm : indegree'.Perm g.indegree)
    (disc : List String → List String) (hdisc : IsDiscipline disc) :
    (∃ r, hasCycle g = some r) ∧
    hasCycleWith disc { edges := g.edges, indegree := indegree' } = hasCycle g := by
  obtain ⟨r, h1, h2⟩ := hasCycle_correct g hwf hinv
  obtain ⟨hwf', hinv'⟩ := wf_inv_perm g hwf hinv indegree' hperm
  obtain ⟨r', h1', h2'⟩ := hasCycleWith_correct _ hwf' hinv' disc hdisc
  refine ⟨⟨r, h1⟩, ?_⟩
  rw [h1, h1']
  have h3 : HasCycle { edges := g.edges, indegree := indegree' } ↔ HasCycle g := Iff.rfl
  have h4 : r' = true ↔ r = true := by rw [h2', h3, h2]
  rw [Bool.eq_iff_iff.2 h4]

/-- Witness of C10 at the state with the edges `a → b`, `b → c`, `c → b`, with the
in-degree table iterated backwards and a last-in-first-out queue. -/
theorem hasCycle_order_independent_witness :
    hasCycleWith List.reverse
        { edges := (insertAll NewKahnGraph [("a", "b"), ("b", "c"), ("c", "b")]).1.edges,
          indegree :=
            (insertAll NewKahnGraph [("a", "b"), ("b", "c"), ("c", "b")]).1.indegree.reverse } =
      hasCycle (insertAll NewKahnGraph [("a", "b"), ("b", "c"), ("c", "b")]).1 :=
  (hasCycle_order_independent _
    (insertAll_inv _ NewKahnGraph wf_empty inv_empty).1
    (insertAll_inv _ NewKahnGraph wf_empty inv_empty).2 _
    (List.reverse_perm _) List.reverse (fun q => List.reverse_perm q)).2

/-- C11: for pairwise distinct `a`, `b`, `c`, `d`, the four calls that insert the diamond
`a → b`, `a → c`, `c → d`, `d → b` into the empty graph each return false, `b` ends with
in-degree 2, and `hasCycle` returns false on the literal state of the test case
多头多深度无环. -/
theorem diamond_all_false (a b c d : String) (hnd : [a, b, c, d].Nodup) :
    (insertAll NewKahnGraph (diamondEdges a b c d)).2 =
      [some false, some false, some false, some false] ∧
    (insertAll NewKahnGraph (diamondEdges a b c d)).1.indegree.getD b 0 = 2 ∧
    hasCycle testDiamond = some false :=
  ⟨insertAll_results (diamondEdges a b c d) NewKahnGraph wf_empty inv_empty
      (diamond_acyclic a b c d hnd),
    diamond_indegree a b c d hnd, by decide⟩

/-- Witness of C11 at the nodes `a`, `b`, `c`, `d` of the test. -/
theorem diamond_all_false_witness :
    (insertAll NewKahnGraph (diamondEdges "a" "b" "c" "d")).2 =
      [some false, some false, some false, some false] ∧
    (insertAll NewKahnGraph (diamondEdges "a" "b" "c" "d")).1.indegree.getD "b" 0 = 2 ∧
    hasCycle testDiamond = some false :=
  diamond_all_false "a" "b" "c" "d" (by decide)

/-- C13: on a well-formed state that satisfies the state invariant the loop finishes with
a processed count that is at most the number of keys of the clone, which is the number of
nodes, so the test `processed != len(indegreeCopy)` of the code gives the boolean of the
specified test `processed < total node count`. -/
theorem processed_le_nodeCount (g : KahnGraph) (hwf : WF g) (hinv : Inv g) :
    ∃ processed indegreeCopy,
      kahnLoop g.edges g.indegree.len (cloneIndegree g.indegree)
        (seedQueue (cloneIndegree g.indegree)) 0 = some (processed, indegreeCopy) ∧
      processed ≤ indegreeCopy.len ∧ indegreeCopy.len = nodeCount g ∧
      (processed != indegreeCopy.len) = decide (processed < nodeCount g) ∧
      hasCycle g = some (processed != indegreeCopy.len) ∧
      hasCycleSpec g = some (decide (processed < nodeCount g)) ∧
      hasCycle g = hasCycleSpec g := by
  obtain ⟨r, hr, hI, _⟩ := hasCycleLog_spec g hwf hinv
  obtain ⟨r', hr', _, _, _, hle, _, _⟩ := hasCycleLog_facts g
  rw [hr] at hr'
  cases hr'
  have hlen : r.final.len = nodeCount g := by
    have := congrArg List.length hI.keys
    simpa [GoMap.keys, GoMap.len, nodeCount] using this
  have hk : kahnLoop g.edges g.indegree.len (cloneIndegree g.indegree)
      (seedQueue (cloneIndegree g.indegree)) 0 = some (r.dequeued.length, r.final) := by
    rw [kahnLoop_eq_log]
    unfold hasCycleLog at hr
    rw [hr]
    simp
  have hb : (r.dequeued.length != r.final.len) = decide (r.dequeued.length < nodeCount g) := by
    rw [hlen]
    by_cases h : r.dequeued.length = nodeCount g
    · simp [h]
    · have : r.dequeued.length < nodeCount g := by omega
      simp [h, this]
  have h1 : hasCycle g = some (r.dequeued.length != r.final.len) := by
    unfold hasCycle hasCycleFuel
    simp only [hk]
  have h2 : hasCycleSpec g = some (decide (r.dequeued.length < nodeCount g)) := by
    unfold hasCycleSpec
    simp only [hk]
  exact ⟨_, _, hk, by rw [hlen]; exact hle, hlen, hb, h1, h2, by rw [h1, h2, hb]⟩

/-- Witness of C13 at the state with the edges `a → b`, `b → c`, `c → b`. -/
theorem processed_le_nodeCount_witness :
    hasCycle (insertAll NewKahnGraph [("a", "b"), ("b", "c"), ("c", "b")]).1 =
      hasCycleSpec (insertAll NewKahnGraph [("a", "b"), ("b", "c"), ("c", "b")]).1 :=
  (processed_le_nodeCount _ (insertAll_inv _ NewKahnGraph wf_empty inv_empty).1
    (insertAll_inv _ NewKahnGraph wf_empty inv_empty).2).elim
    fun _ h => h.elim fun _ h' => h'.2.2.2.2.2.2

/-- C14: on every state, also one that violates the state invariant, the loop inside
`hasCycle` finishes and `hasCycle` returns; the nodes put on the queue, seeds included, are
the dequeued nodes, no node among them occurs twice, there are at most as many dequeues as
nodes, and the decrements, one for each outgoing edge of each dequeued node, are at most as
many as edges. -/
theorem hasCycle_linear (g : KahnGraph) :
    ∃ r, hasCycleLog g = some r ∧
      hasCycle g = some (r.dequeued.length != r.final.len) ∧
      seedQueue (cloneIndegree g.indegree) ++ r.enqueued = r.dequeued ∧
      (seedQueue (cloneIndegree g.indegree) ++ r.enqueued).Nodup ∧
      r.dequeued.Nodup ∧ r.dequeued.length ≤ nodeCount g ∧
      r.decrements = (r.dequeued.map (fun u => (g.edges.getD u []).length)).sum ∧
      r.snapshots.length = r.decrements ∧
      r.decrements ≤ edgeCount g := by
  obtain ⟨r, hr, h1, h2, h3, h4, h5, h6⟩ := hasCycleLog_facts g
  exact ⟨r, hr, h1, h2, h2 ▸ h3, h3, h4, h5, (kahnLoopLog_facts _ _ _ _ _ hr).2.2.2, h6⟩

/-- C15, refuted as stated: in the reachable state with the edges `a → b`, `b → b`,
`b → c` the check dequeues exactly `a`; the node `a` has a path to the cycle at `b` and is
processed all the same, and the node `c` is left unprocessed although it is on no cycle and
has no path to one. -/
theorem unprocessed_counterexample :
    Reachable upstreamGraph ∧
    (hasCycleLog upstreamGraph).map (fun r => r.dequeued) = some ["a"] ∧
    "a" ∈ upstreamGraph.indegree.keys ∧ DependsOnCycle upstreamGraph "a" ∧
    "c" ∈ upstreamGraph.indegree.keys ∧ ¬ DependsOnCycle upstreamGraph "c" := by
  have hab : Edge upstreamGraph "a" "b" := by unfold Edge; decide
  have hbb : Edge upstreamGraph "b" "b" := by unfold Edge; decide
  refine ⟨insertAll_reachable _ _ Reachable.empty, by decide, by decide,
    ⟨"b", Relation.TransGen.single hbb, Relation.ReflTransGen.single hab⟩, by decide, ?_⟩
  rintro ⟨x, hx, hcx⟩
  rcases Relation.ReflTransGen.cases_head hcx with h | ⟨y, hy, _⟩
  · subst h
    obtain ⟨y, hy, _⟩ := Relation.TransGen.head'_iff.1 hx
    exact not_edge_upstreamGraph_c y hy
  · exact not_edge_upstreamGraph_c y hy

/-- C16: on every reachable state, once a call of `AddEdgeAndCheckCycle` has returned true,
every later call on that graph, for any arguments, returns true. -/
theorem cycle_report_monotone (g : KahnGraph) (h : Reachable g) (a b : String)
    (h1 : (AddEdgeAndCheckCycle g a b).2 = some true) (es : List (String × String)) :
    (insertAll (AddEdgeAndCheckCycle g a b).1 es).2 =
      List.replicate es.length (some true) := by
  obtain ⟨hwf, hinv⟩ := reachable_wf_inv g h
  apply insertAll_results_true es _ (addEdge_wf g a b hwf) (addEdge_inv g a b hinv)
  exact (hasCycleRel_congr (addEdge_edge g a b)).2 (cyclic_of_result_true g hwf hinv a b h1)

/-- Witness of C16: after the self-loop `a → a` the calls for `b → c` and `c → d` return
true. -/
theorem cycle_report_monotone_witness :
    (AddEdgeAndCheckCycle NewKahnGraph "a" "a").2 = some true ∧
    (insertAll (AddEdgeAndCheckCycle NewKahnGraph "a" "a").1 [("b", "c"), ("c", "d")]).2 =
      [some true, some true] :=
  ⟨by decide,
    cycle_report_monotone NewKahnGraph Reachable.empty "a" "a" (by decide)
      [("b", "c"), ("c", "d")]⟩

/-- C17: two sequences of insertions into the empty graph that insert the same set of
pairs, in any order and with any repetitions, end in states on which `hasCycle` returns
the same boolean. -/
theorem hasCycle_depends_on_edge_set (es1 es2 : List (String × String))
    (h : ∀ e, e ∈ es1 ↔ e ∈ es2) :
    (∃ r, hasCycle (insertAll NewKahnGraph es1).1 = some r) ∧
    hasCycle (insertAll NewKahnGraph es1).1 = hasCycle (insertAll NewKahnGraph es2).1 :=
  ⟨hasCycle_total _, hasCycle_insertAll_congr es1 es2 h⟩

/-- Witness of C17 at `a → b`, `b → a` against `b → a`, `a → b`, `a → b`. -/
theorem hasCycle_depends_on_edge_set_witness :
    hasCycle (insertAll NewKahnGraph [("a", "b"), ("b", "a")]).1 =
      hasCycle (insertAll NewKahnGraph [("b", "a"), ("a", "b"), ("a", "b")]).1 :=
  (hasCycle_depends_on_edge_set [("a", "b"), ("b", "a")] [("b", "a"), ("a", "b"), ("a", "b")]
    (fun e => by simp only [List.mem_cons, List.mem_singleton, List.not_mem_nil]; tauto)).2

/-- C18: on a well-formed state that satisfies the state invariant, every value the clone
takes during a run of `hasCycle`, from the copy to the value at the end, has exactly the
keys of the in-degree table and no entry below 0, so the clone at the final comparison has
as many keys as the graph has nodes. -/
theorem clone_keys_stable (g : KahnGraph) (hwf : WF g) (hinv : Inv g) :
    ∃ r, hasCycleLog g = some r ∧
      (∀ d' ∈ cloneIndegree g.indegree :: r.snapshots,
        d'.keys = g.indegree.keys ∧ ∀ n, 0 ≤ d'.getD n 0) ∧
      r.snapshots.length = r.decrements ∧
      r.final ∈ cloneIndegree g.indegree :: r.snapshots ∧
      r.final.len = nodeCount g ∧
      hasCycle g = some (r.dequeued.length != nodeCount g) := by
  obtain ⟨r, hr, hI, hs⟩ := hasCycleLog_spec g hwf hinv
  have hlen : r.final.len = nodeCount g := by
    have := congrArg List.length hI.keys
    simpa [GoMap.keys, GoMap.len, nodeCount] using this
  refine ⟨r, hr, hs, (kahnLoopLog_facts _ _ _ _ _ hr).2.2.2,
    (kahnLoopLog_between g.edges g.indegree.len "" _ _ _ hr).1, hlen, ?_⟩
  rw [hasCycle_eq_log, hr, ← hlen]
  rfl

/-- Witness of C18 at the state with the edges `a → b`, `b → c`, `c → b`. -/
theorem clone_keys_stable_witness :
    ∃ r, hasCycleLog (insertAll NewKahnGraph [("a", "b"), ("b", "c"), ("c", "b")]).1 = some r ∧
      r.final.len = nodeCount (insertAll NewKahnGraph [("a", "b"), ("b", "c"), ("c", "b")]).1 :=
  (clone_keys_stable _ (insertAll_inv _ NewKahnGraph wf_empty inv_empty).1
    (insertAll_inv _ NewKahnGraph wf_empty inv_empty).2).elim
    fun r h => ⟨r, h.1, h.2.2.2.2.1⟩

/-- C2, the code at the failing input: after `a → b`, `a → c`, `c → d`, which each return
false, the fourth call `AddEdgeAndCheckCycle("d", "c")` returns true, and `hasCycle`
returns true on the literal state of the test case 多头多深度有环, for which the test table
expects false; `c → d → c` is a cycle of that state. -/
theorem reversedDiamond_true :
    (insertAll NewKahnGraph [("a", "b"), ("a", "c"), ("c", "d")]).2 =
      [some false, some false, some false] ∧
    (AddEdgeAndCheckCycle
        (insertAll NewKahnGraph [("a", "b"), ("a", "c"), ("c", "d")]).1 "d" "c").2 = some true ∧
    hasCycle testReversedDiamond = some true ∧
    Relation.TransGen (Edge testReversedDiamond) "c" "c" := by
  have hcd : Edge testReversedDiamond "c" "d" := by unfold Edge; decide
  have hdc : Edge testReversedDiamond "d" "c" := by unfold Edge; decide
  exact ⟨by decide, by decide, by decide,
    Relation.TransGen.tail (Relation.TransGen.single hcd) hdc⟩

/-- C9: a receiver of `hasCycle` is its adjacency table and the map object at the address
`indegree`; calls in a row, each with its own orders for the two `range` statements, only
add map objects (the clones), leave every map object that was there, the in-degree table
among them, as it was, and each return the same boolean, the one of `hasCycle`, which
returns on every state. -/
theorem hasCycle_pure (edges : GoMap (List String)) (maps : IntMaps) (indegree : Nat)
    (href : indegree < maps.length) (hwf : GoMap.WF (maps.getD indegree []))
    (orders : List ((GoMap Int → GoMap Int) × (GoMap Int → GoMap Int)))
    (hord : ∀ o ∈ orders, IsIteration o.1 ∧ IsIteration o.2) :
    (∃ added, (hasCycleAtCalls edges indegree orders maps).1 = maps ++ added) ∧
    (hasCycleAtCalls edges indegree orders maps).1.getD indegree [] = maps.getD indegree [] ∧
    (∃ r, hasCycle { edges := edges, indegree := maps.getD indegree [] } = some r) ∧
    (hasCycleAtCalls edges indegree orders maps).2 =
      List.replicate orders.length
        (hasCycle { edges := edges, indegree := maps.getD indegree [] }) := by
  obtain ⟨⟨added, ha⟩, hres⟩ := hasCycleAtCalls_spec edges indegree orders hord maps href hwf
  refine ⟨⟨added, ha⟩, ?_, hasCycle_total _, hres⟩
  rw [ha, List.getD_eq_getElem?_getD, List.getD_eq_getElem?_getD,
    List.getElem?_append_left href]

/-- Witness of C9 at the literal state of the test case 多头多深度有环, off the invariant
once `b` is given in-degree 3, with two calls that visit the entries in different
orders. -/
theorem hasCycle_pure_witness :
    (hasCycleAtCalls testReversedDiamond.edges 0
      [(id, List.reverse), (List.reverse, id)]
      [[("a", 0), ("b", 3), ("c", 2), ("d", 2)]]).2 =
      List.replicate 2
        (hasCycle { edges := testReversedDiamond.edges,
                    indegree := [("a", 0), ("b", 3), ("c", 2), ("d", 2)] }) :=
  (hasCycle_pure testReversedDiamond.edges [[("a", 0), ("b", 3), ("c", 2), ("d", 2)]] 0
    (by decide) (by unfold GoMap.WF; decide) [(id, List.reverse), (List.reverse, id)]
    (by
      intro o ho
      simp only [List.mem_cons, List.mem_singleton, List.not_mem_nil, or_false] at ho
      rcases ho with h | h <;> subst h
      · exact ⟨fun m => List.Perm.refl m, fun m => List.reverse_perm m⟩
      · exact ⟨fun m => List.reverse_perm m, fun m => List.Perm.refl m⟩)).2.2.2

/-- C15, amended: on every state with distinct keys that satisfies the state invariant,
so on every state built from the empty graph by insertions in whatever order its tables
are iterated, the check finishes, and a node is left unprocessed, which is to say that its
cloned in-degree is never 0 during the run, exactly when it lies on a directed cycle or a
node of a cycle has a directed path to it. -/
theorem unprocessed_iff_downstream_of_cycle (g : KahnGraph) (hwf : WF g) (hinv : Inv g) :
    ∃ r, hasCycleLog g = some r ∧
      ∀ n ∈ g.indegree.keys,
        (n ∉ r.dequeued ↔ DownstreamOfCycle g n) ∧
        (n ∉ r.dequeued ↔
          ∀ d' ∈ cloneIndegree g.indegree :: r.snapshots, d'.getD n 0 ≠ 0) := by
  obtain ⟨r, hr, hI, hs⟩ := hasCycleLog_spec g hwf hinv
  refine ⟨r, hr, ?_⟩
  intro n hn
  have hmem : n ∉ r.dequeued ↔ n ∉ r.dequeued.toFinset := by rw [List.mem_toFinset]
  have hzero : r.final.getD n 0 = 0 ↔ n ∈ r.dequeued := by
    rw [hI.zero n hn]
    simp
  have hbet := kahnLoopLog_between g.edges g.indegree.len n _ _ _ hr
  constructor
  · rw [hmem]
    exact unprocessed_iff_downstream g hwf hinv _ _ _ hI n hn
  · constructor
    · intro hnd d' hd' h0
      have h1 := (hbet.2 d' hd').1
      have h2 := (hs _ hbet.1).2 n
      have h3 : r.final.getD n 0 ≠ 0 := fun h => hnd (hzero.1 h)
      omega
    · intro hall hmem'
      exact hall _ hbet.1 (hzero.2 hmem')

/-- Witness of the amended C15 at the state with the edges `a → b`, `b → b`, `b → c`, its
tables iterated backwards. -/
theorem unprocessed_iff_downstream_of_cycle_witness :
    ∃ r, hasCycleLog
        { edges := upstreamGraph.edges.reverse, indegree := upstreamGraph.indegree.reverse } =
          some r ∧
      ∀ n ∈ GoMap.keys upstreamGraph.indegree.reverse,
        (n ∉ r.dequeued ↔ DownstreamOfCycle
          { edges := upstreamGraph.edges.reverse, indegree := upstreamGraph.indegree.reverse }
          n) ∧
        (n ∉ r.dequeued ↔
          ∀ d' ∈ cloneIndegree upstreamGraph.indegree.reverse :: r.snapshots,
            d'.getD n 0 ≠ 0) :=
  unprocessed_iff_downstream_of_cycle _
    (reachableAnyOrder_wf_inv _
      ⟨upstreamGraph, insertAll_reachable _ _ Reachable.empty, List.reverse_perm _,
        List.reverse_perm _⟩).1
    (reachableAnyOrder_wf_inv _
      ⟨upstreamGraph, insertAll_reachable _ _ Reachable.empty, List.reverse_perm _,
        List.reverse_perm _⟩).2

/-- C4, refuted as stated: on the zero value `KahnGraph{}` the call panics and returns no
boolean; on a value whose adjacency slices of `a` and `b` share a backing array the call
for `a → z` rewrites the sequence of `b`; on a value with the in-degree of `b` at the
largest `int` the call leaves it at the smallest. -/
theorem addEdge_state_counterexample :
    goAddEdgeAndCheckCycle goSpare goZeroValue "a" "b" = none ∧
    (view goAliasedGraph).edges.get? "b" = some ["x", "y"] ∧
    (goAddEdge goSpare goAliasedGraph "a" "z").map (fun g => (view g).edges.get? "b") =
      some (some ["x", "z"]) ∧
    (view goSaturatedGraph).indegree.get? "b" = some 9223372036854775807 ∧
    (goAddEdge goSpare goSaturatedGraph "a" "b").map (fun g => (view g).indegree.get? "b") =
      some (some (-9223372036854775808)) := by
  decide

/-- C4, amended: on every Go value with both maps made, no two adjacency slices on one
backing array and the in-degree of `b` an `int` below the largest, for whatever room
`append` leaves in new arrays, the call `AddEdgeAndCheckCycle(a, b)` does not panic,
returns a boolean, leaves again such a value, is the call on the graph state, and,
whatever it returns, afterwards the entry `edges[a]` is the old sequence (empty if absent)
with `b` appended, `indegree[b]` is the old value (0 if absent) plus one, `indegree[a]` is
present with its old value (0 if absent) when `a ≠ b`, and every other key of either table
reads as before, present or absent. -/
theorem addEdgeAndCheckCycle_state (spare : Nat → Nat) (g : GoGraph) (hown : GoOwned g)
    (a b : String) (hlo : -(2 ^ 63) ≤ (view g).indegree.getD b 0)
    (hhi : (view g).indegree.getD b 0 < 2 ^ 63 - 1) :
    ∃ g' r, goAddEdgeAndCheckCycle spare g a b = some (g', some r) ∧ GoOwned g' ∧
      (view g', some r) = AddEdgeAndCheckCycle (view g) a b ∧
      (view g').edges.get? a = some ((view g).edges.getD a [] ++ [b]) ∧
      (∀ k, k ≠ a → (view g').edges.get? k = (view g).edges.get? k) ∧
      (view g').indegree.get? b = some ((view g).indegree.getD b 0 + 1) ∧
      (a ≠ b → (view g').indegree.get? a = some ((view g).indegree.getD a 0)) ∧
      (∀ k, k ≠ a → k ≠ b → (view g').indegree.get? k = (view g).indegree.get? k) := by
  obtain ⟨g', r, h1, h2, h3⟩ := goAddEdgeAndCheckCycle_simulates spare g hown a b
    (by omega) (by omega)
  have hv : view g' = addEdge (view g) a b := congrArg Prod.fst h3
  refine ⟨g', r, h1, h2, h3, ?_, ?_, ?_, ?_, ?_⟩
  · rw [hv, addEdge_edges, GoMap.get?_set, if_pos rfl]
  · intro k hk
    rw [hv, addEdge_edges, GoMap.get?_set, if_neg (Ne.symm hk)]
  · rw [hv, addEdge_indegree_get?, if_pos rfl]
  · intro hab
    rw [hv, addEdge_indegree_get?, if_neg (Ne.symm hab), if_pos rfl]
  · intro k hka hkb
    rw [hv, addEdge_indegree_get?, if_neg (Ne.symm hkb), if_neg (Ne.symm hka)]

/-- Witness of the amended C4 at the Go value after `a → b`, `b → c` and the call for
`b → a`, which appends to the full slice of `b` and closes a cycle. -/
theorem addEdgeAndCheckCycle_state_witness :
    ∃ g' r, goAddEdgeAndCheckCycle goSpare goPathGraph "b" "a" = some (g', some r) ∧
      GoOwned g' ∧ (view g', some r) = AddEdgeAndCheckCycle (view goPathGraph) "b" "a" ∧
      (view g').edges.get? "b" = some ((view goPathGraph).edges.getD "b" [] ++ ["a"]) :=
  (addEdgeAndCheckCycle_state goSpare goPathGraph goOwned_goPathGraph "b" "a"
    (by decide) (by decide)).elim fun g' h => h.elim fun r h' =>
      ⟨g', r, h'.1, h'.2.1, h'.2.2.1, h'.2.2.2.1⟩

/-- C5, refuted as stated: the Go value whose adjacency slices of `a` and `b` share a
backing array satisfies the state invariant, and after the call for `a → z`, which writes
`z` over the `y` of `b`, the state does not satisfy it. -/
theorem inv_preserved_counterexample :
    Inv (view goAliasedGraph) ∧
    (goAddEdge goSpare goAliasedGraph "a" "z").map view =
      some { edges := [("a", ["x", "z"]), ("b", ["x", "z"])],
             indegree := [("a", 0), ("b", 0), ("x", 2), ("y", 1), ("z", 1)] } ∧
    ¬ Inv { edges := [("a", ["x", "z"]), ("b", ["x", "z"])],
            indegree := [("a", 0), ("b", 0), ("x", 2), ("y", 1), ("z", 1)] } :=
  ⟨(inv_iff_checkInv _).2 (by decide), by decide,
    fun h => absurd ((inv_iff_checkInv _).1 h) (by decide)⟩

/-- C5, amended: the state invariant (every node of `edges`, key or target, is a key of
`indegree`, and every `indegree` entry equals the number of occurrences of its node among
the targets, so is not negative) holds for the value of `NewKahnGraph()`, and on every Go
value that satisfies it, with both maps made, no two adjacency slices on one backing array
and the in-degree of `b` below the largest `int`, the call `AddEdgeAndCheckCycle(a, b)`
does not panic and leaves again such a value, which satisfies the invariant. -/
theorem inv_preserved (spare : Nat → Nat) (g : GoGraph) (hown : GoOwned g)
    (hinv : Inv (view g)) (a b : String) (hhi : (view g).indegree.getD b 0 < 2 ^ 63 - 1) :
    GoOwned goNewKahnGraph ∧ Inv (view goNewKahnGraph) ∧
    ∃ g' r, goAddEdgeAndCheckCycle spare g a b = some (g', some r) ∧ GoOwned g' ∧
      (view g', some r) = AddEdgeAndCheckCycle (view g) a b ∧ Inv (view g') ∧
      ∀ n ∈ (view g').indegree.keys, 0 ≤ (view g').indegree.getD n 0 := by
  have h0 := inv_getD_nonneg (view g) hinv b
  obtain ⟨g', r, h1, h2, h3⟩ := goAddEdgeAndCheckCycle_simulates spare g hown a b
    (by omega) (by omega)
  have hv : view g' = addEdge (view g) a b := congrArg Prod.fst h3
  have hinv' : Inv (view g') := hv ▸ addEdge_inv (view g) a b hinv
  exact ⟨goOwned_new.1, goOwned_new.2 ▸ inv_empty, g', r, h1, h2, h3, hinv',
    fun n _ => inv_getD_nonneg (view g') hinv' n⟩

/-- Witness of the amended C5 at the Go value after `a → b`, `b → c` and the call for
`b → a`. -/
theorem inv_preserved_witness :
    Inv (view goPathGraph) ∧
    ∃ g' r, goAddEdgeAndCheckCycle goSpare goPathGraph "b" "a" = some (g', some r) ∧
      Inv (view g') :=
  ⟨(inv_iff_checkInv _).2 (by decide),
    (inv_preserved goSpare goPathGraph goOwned_goPathGraph ((inv_iff_checkInv _).2 (by decide))
      "b" "a" (by decide)).2.2.elim fun g' h => h.elim fun r h' =>
        ⟨g', r, h'.1, h'.2.2.2.1⟩⟩

/-- C12, refuted as stated: the zero value `KahnGraph{}` satisfies the state invariant and
the call on it panics, so that no edge is added; the Go value whose adjacency slices of `a`
and `b` share a backing array satisfies the invariant and has the edge `b → y`, and after
the call for `a → z` the edge `b → y` is gone. -/
theorem insertion_counts_counterexample :
    Inv (view goZeroValue) ∧ goAddEdgeAndCheckCycle goSpare goZeroValue "a" "b" = none ∧
    Inv (view goAliasedGraph) ∧ Edge (view goAliasedGraph) "b" "y" ∧
    (goAddEdge goSpare goAliasedGraph "a" "z").map (fun g => (view g).edges.getD "b" []) =
      some ["x", "z"] ∧
    "y" ∉ ["x", "z"] :=
  ⟨(inv_iff_checkInv _).2 (by decide), by decide, (inv_iff_checkInv _).2 (by decide),
    by unfold Edge; decide, by decide, by decide⟩

/-- C12, amended: on every Go value with both maps made and no two adjacency slices on one
backing array, whether or not it satisfies the state invariant, the call
`AddEdgeAndCheckCycle(a, b)` does not panic and returns a boolean, and afterwards the
total edge count is the old count plus one, the node count is the old count plus the number
of distinct elements of `{a, b}` that were not keys of the in-degree table (at most two),
every old node is still a node, and every old adjacency sequence is the start of the new
one. -/
theorem insertion_counts (spare : Nat → Nat) (g : GoGraph) (hown : GoOwned g)
    (a b : String) :
    ∃ g' r, goAddEdgeAndCheckCycle spare g a b = some (g', some r) ∧ GoOwned g' ∧
      edgeCount (view g') = edgeCount (view g) + 1 ∧
      nodeCount (view g') = nodeCount (view g) + newNodes (view g) a b ∧
      newNodes (view g) a b =
        (([a, b].dedup).filter (fun x => !(view g).indegree.contains x)).length ∧
      newNodes (view g) a b ≤ 2 ∧
      (∀ k ∈ (view g).indegree.keys, k ∈ (view g').indegree.keys) ∧
      (∀ k ∈ (view g).edges.keys, k ∈ (view g').edges.keys) ∧
      (∀ k, (view g).edges.getD k [] <+: (view g').edges.getD k []) := by
  obtain ⟨g', h1, h2, h3, h4⟩ := goAddEdge_owned spare g hown a b
  obtain ⟨r, hr⟩ := hasCycle_total (view g')
  refine ⟨g', r, ?_, h2, ?_, ?_, newNodes_eq _ a b, newNodes_le _ a b, ?_, ?_, ?_⟩
  · unfold goAddEdgeAndCheckCycle
    rw [h1, Option.map_some', hr]
  · rw [edgeCount_edges _ _ h3, addEdge_edgeCount]
  · unfold nodeCount newNodes
    rw [h4]
    exact table_len _ a b _
  · intro k hk
    rw [h4]
    exact table_keys _ a b _ k hk
  · intro k hk
    rw [h3, addEdge_edges, GoMap.mem_keys_set]
    exact Or.inr hk
  · intro k
    rw [h3]
    exact addEdge_getD_extends (view g) a b k

/-- Witness of the amended C12 at the Go value after `a → b`, `b → c` and the call for
`b → e`. -/
theorem insertion_counts_witness :
    ∃ g' r, goAddEdgeAndCheckCycle goSpare goPathGraph "b" "e" = some (g', some r) ∧
      edgeCount (view g') = edgeCount (view goPathGraph) + 1 ∧
      nodeCount (view g') = nodeCount (view goPathGraph) + 1 :=
  (insertion_counts goSpare goPathGraph goOwned_goPathGraph "b" "e").elim fun g' h =>
    h.elim fun r h' => ⟨g', r, h'.1, h'.2.2.1, h'.2.2.2.1.trans (by decide)⟩

end KahnGraph
